import Mathlib

/-
A verification development for the `ecs` package.

Shallow embedding of `entity.go`, `filter.go`, `depends.go`, `state.go` and
`system.go`.

Modelling conventions.

* An entity is a Go pointer; it is a `Ref` (an address).  The fields reachable
  from it live in the `World`: the `ID` component, the dynamic type, the
  optional `Name` component (all in `Heap`) and the optional `Depends`
  component (`World.depends`; `none` means the entity is not a `Depender`).
* A Go slice is a `List`; `map[ID][]Depender` is a function from the key to an
  optional list (`none`: the key is absent).
* A run-time panic (index out of range, a method call on a nil interface, a nil
  `*State`) is the result `Res.fault`.  The mutual recursion between
  `State.Remove` and `DependsSystem.Remove` is driven by fuel, and running out
  of it is the result `Res.outOfFuel`.
* `rand.Rand.Perm` is modelled by the field `shuffeler`: the permutation handed
  out at the `k`-th draw for a slice of length `n`.
* `sort.Sort` belongs to the Go standard library; `State.AddSystem` takes it as
  a parameter and `SortContract` states what the library promises about it.
* `State.Less` calls `p.Priority()` on a `Prioritizer`, an interface that
  declares `GetPriority()` and no `Priority()`.  `State.LessCalling` keeps the
  name of the method called as a parameter: `State.Less` is the function as
  written, which the compiler rejects, and every statement about an order of
  the systems names the method `GetPriority` explicitly.
-/

namespace ECS

/-- An entity pointer. -/
abbrev Ref := Nat

/-- Result of running a piece of code: a value, a run-time panic, or fuel exhausted. -/
inductive Res (α : Type) where
  | ok (a : α)
  | fault
  | outOfFuel

/-- Sequencing of results: a panic or fuel exhaustion aborts the rest. -/
def Res.bind {α β : Type} : Res α → (α → Res β) → Res β
  | .ok a, f => f a
  | .fault, _ => .fault
  | .outOfFuel, _ => .outOfFuel

/-- The four filter types of `filter.go`.  `IDFilter` keeps a pointer to an `ID`
component (an `*ID` is itself an entity), `TypeFilter` a reflected type that is
either an interface or a concrete type, `NameFilter` the name compared with. -/
inductive Filter where
  | MultiFilter (Filters : List Filter)
  | IDFilter (id : Ref)
  | TypeFilter (isInterface : Bool) (t : Nat)
  | NameFilter (Name : String)

/-- The `Depends` component: requirement slots and the entity bound to each
(`none` is a nil slot). -/
structure Depends where
  Dependancies : List Filter
  Entities : List (Option Ref)

/-- The fields of every entity that the dependency engine only reads. -/
structure Heap where
  /-- the `ID.ID` field, a `uint64` -/
  ID : Ref → Nat
  /-- the dynamic type, as seen by `reflect.TypeOf` -/
  typ : Ref → Nat
  /-- whether the dynamic type implements a given interface type -/
  implements : Ref → Nat → Bool
  /-- the `Name` component of a `Namer` -/
  Name : Ref → Option String

/-- The errors `Add` can return: the engine's own, or one of another system. -/
inductive Err where
  | ErrUnmetDependancy
  | other (code : Nat)
  deriving DecidableEq

/-- The fields of `DependsSystem` (`Priority` is carried by the `System` value,
see `DependsSystem.toSystem`).  `stateSet` tells whether `Init` stored a
`*State`; `draws` counts the calls of `shuffeler.Perm`. -/
structure DependsSystem where
  entities : List Ref
  dependers : Nat → Option (List Ref)
  shuffeler : Nat → Nat → List Nat
  draws : Nat
  stateSet : Bool

/-- Everything the code can read or write; `ext` is the state owned by systems
other than the dependency engine. -/
structure World (U : Type) where
  heap : Heap
  depends : Ref → Option Depends
  idSrc : Nat
  ds : DependsSystem
  ext : U

/-- Source `NewDependsSystem`: empty pool, empty map, no `*State` stored yet. -/
def NewDependsSystem (shuffeler : Nat → Nat → List Nat) : DependsSystem :=
  { entities := [], dependers := fun _ => none, shuffeler := shuffeler, draws := 0,
    stateSet := false }

/-- Source `NewDepends`: the filters as given, `Entities` left nil. -/
def NewDepends (dependancies : List Filter) : Depends :=
  { Dependancies := dependancies, Entities := [] }

/-- Source `ID.Equal`: the two `ID` fields are equal. -/
def Heap.Equal (h : Heap) (a b : Ref) : Bool := h.ID a == h.ID b

/-- Source `ID.IsZero`. -/
def Heap.IsZero (h : Heap) (a : Ref) : Bool := h.ID a == 0

mutual
/-- Source `Satisfies` of the four filter types. -/
def Filter.Satisfies (h : Heap) : Filter → Ref → Bool
  | .MultiFilter fs, e => Filter.allSatisfies h fs e
  | .IDFilter id, e => h.Equal id e
  | .TypeFilter isInterface t, e => if isInterface then h.implements e t else t == h.typ e
  | .NameFilter n, e =>
    match h.Name e with
    | some m => m == n
    | none => false
/-- The loop of `MultiFilter.Satisfies`: stop with `false` at the first filter that fails. -/
def Filter.allSatisfies (h : Heap) : List Filter → Ref → Bool
  | [], _ => true
  | f :: fs, e => if !(Filter.Satisfies h f e) then false else Filter.allSatisfies h fs e
end

/-- Source `NewMultiFilter`. -/
def NewMultiFilter (filters : List Filter) : Filter := .MultiFilter filters

/-- Source `d.dependers[k] = append(d.dependers[k], x)`. -/
def mapAppend (m : Nat → Option (List Ref)) (k : Nat) (x : Ref) : Nat → Option (List Ref) :=
  fun k' => if k' = k then some ((m k).getD [] ++ [x]) else m k'

/-- Source `d.dependers[k] = v`. -/
def mapSet (m : Nat → Option (List Ref)) (k : Nat) (v : List Ref) : Nat → Option (List Ref) :=
  fun k' => if k' = k then some v else m k'

/-- Source `delete(d.dependers, k)`. -/
def mapDelete (m : Nat → Option (List Ref)) (k : Nat) : Nat → Option (List Ref) :=
  fun k' => if k' = k then none else m k'

/-- State of the matching loops of `DependsSystem.Add`: the slots, the reverse
index, the counter `have`, and whether `return nil` was executed. -/
structure Scan where
  Entities : List (Option Ref)
  dependers : Nat → Option (List Ref)
  have_ : Nat
  returned : Bool

/-- The inner loop `for j := range depends.Dependancies` of `DependsSystem.Add`
for one scanned pool index, from slot `j` on: `fs` are the filters `j..` and
`slots` the entries `j..` of `depends.Entities`.  `cand` is `d.entities[e]`
(`none` when the index is out of range, a panic once it is evaluated), `n` is
`len(depends.Dependancies)`. -/
def bindSlots (h : Heap) (depender : Ref) (cand : Option Ref) (n : Nat) :
    List Filter → List (Option Ref) → (Nat → Option (List Ref)) → Nat → Res Scan
  | f :: fs, slot :: slots, m, hv =>
    match slot with
    | some t =>
      (bindSlots h depender cand n fs slots m hv).bind fun r =>
        .ok { r with Entities := some t :: r.Entities }
    | none =>
      match cand with
      | none => .fault
      | some c =>
        if f.Satisfies h c then
          if hv + 1 = n then
            .ok { Entities := some c :: slots, dependers := mapAppend m (h.ID c) depender,
                  have_ := hv + 1, returned := true }
          else
            (bindSlots h depender cand n fs slots (mapAppend m (h.ID c) depender) (hv + 1)).bind
              fun r => .ok { r with Entities := some c :: r.Entities }
        else
          (bindSlots h depender cand n fs slots m hv).bind fun r =>
            .ok { r with Entities := none :: r.Entities }
  | _, slots, m, hv => .ok { Entities := slots, dependers := m, have_ := hv, returned := false }

/-- The outer loop `for _, e := range d.shuffeler.Perm(len(d.entities))`. -/
def scanPool (h : Heap) (depender : Ref) (pool : List Ref) (fs : List Filter) :
    List Nat → Scan → Res Scan
  | [], s => .ok s
  | e :: es, s =>
    (bindSlots h depender pool[e]? fs.length fs s.Entities s.dependers s.have_).bind fun r =>
      if r.returned then .ok r else scanPool h depender pool fs es r

/-- Source `DependsSystem.Add`. -/
def DependsSystem.Add {U : Type} (e : Ref) (w : World U) : Res (World U × Option Err) :=
  let pool := w.ds.entities ++ [e]
  match w.depends e with
  | some dep =>
    let perm := w.ds.shuffeler w.ds.draws pool.length
    let s0 : Scan := { Entities := List.replicate dep.Dependancies.length none,
                       dependers := w.ds.dependers, have_ := 0, returned := false }
    (scanPool w.heap e pool dep.Dependancies perm s0).bind fun r =>
      let w1 : World U :=
        { w with
          depends := fun x => if x = e then some { dep with Entities := r.Entities } else w.depends x
          ds := { w.ds with entities := pool, dependers := r.dependers, draws := w.ds.draws + 1 } }
      .ok (w1, if r.returned then none else some Err.ErrUnmetDependancy)
  | none => .ok ({ w with ds := { w.ds with entities := pool } }, none)

/-- The first loop of `DependsSystem.Remove`, `for i := range d.entities`, with
`k` iterations left at index `i`.  The bound of the loop is the length the
slice had when the loop was entered; `d.entities[i]` reads the current slice
and panics when `i` is past its end. -/
def removeLoop (h : Heap) (e : Ref) : Nat → Nat → List Ref → Res (List Ref)
  | 0, _, pool => .ok pool
  | k + 1, i, pool =>
    match pool[i]? with
    | none => .fault
    | some x =>
      if h.Equal x e then removeLoop h e k (i + 1) (pool.eraseIdx i)
      else removeLoop h e k (i + 1) pool

/-- The loop `for j := range dependers` of `DependsSystem.Remove`, with `k`
iterations left at index `j`.  The flag of the result tells whether the loop
was left through `delete(...); break`. -/
def unlinkLoop (h : Heap) (depender : Ref) : Nat → Nat → List Ref → Res (List Ref × Bool)
  | 0, _, ds => .ok (ds, false)
  | k + 1, j, ds =>
    match ds[j]? with
    | none => .fault
    | some x =>
      if h.Equal x depender then
        if ds.length = 1 then .ok (ds, true)
        else unlinkLoop h depender k (j + 1) (ds.eraseIdx j)
      else unlinkLoop h depender k (j + 1) ds

/-- The loop `for i := range depends.Entities` of `DependsSystem.Remove`: a nil
slot panics at `GetID`; after the inner loop the list is stored back under the
key, also when the inner loop deleted the key. -/
def unlinkAll (h : Heap) (depender : Ref) :
    List (Option Ref) → (Nat → Option (List Ref)) → Res (Nat → Option (List Ref))
  | [], m => .ok m
  | slot :: slots, m =>
    match slot with
    | none => .fault
    | some t =>
      let key := h.ID t
      let dependers := (m key).getD []
      (unlinkLoop h depender dependers.length 0 dependers).bind fun r =>
        let m1 := if r.2 then mapDelete m key else m
        unlinkAll h depender slots (mapSet m1 key r.1)

/-- The cascade loop `for i := range dependers { d.state.Remove(dependers[i]) }`;
`stateRemove` is `Remove` of the `State` stored by `Init`, and calling it
through a nil `*State` panics. -/
def cascade {U : Type} (stateRemove : Ref → World U → Res (World U)) :
    List Ref → World U → Res (World U)
  | [], w => .ok w
  | x :: xs, w =>
    (if w.ds.stateSet then stateRemove x w else .fault).bind fun w1 =>
      cascade stateRemove xs w1

/-- Source `DependsSystem.Remove`. -/
def DependsSystem.Remove {U : Type} (stateRemove : Ref → World U → Res (World U))
    (e : Ref) (w : World U) : Res (World U) :=
  (removeLoop w.heap e w.ds.entities.length 0 w.ds.entities).bind fun pool =>
    let w1 : World U := { w with ds := { w.ds with entities := pool } }
    (match w1.depends e with
      | some dep =>
        (unlinkAll w1.heap e dep.Entities w1.ds.dependers).bind fun m =>
          .ok { w1 with ds := { w1.ds with dependers := m } }
      | none => .ok w1).bind fun w2 =>
      match w2.ds.dependers (w2.heap.ID e) with
      | some dependers =>
        (cascade stateRemove dependers w2).bind fun w3 =>
          .ok { w3 with ds := { w3.ds with dependers := mapDelete w3.ds.dependers (w3.heap.ID e) } }
      | none => .ok w2

/-- Source `DependsSystem.Init`: store the `*State`. -/
def DependsSystem.Init {U : Type} (w : World U) : World U :=
  { w with ds := { w.ds with stateSet := true } }

/-- The `System` interface together with the optional `Prioritizer` and
`Initaliser` interfaces (`none`: not implemented).  `Remove` receives what
`State.Remove` of the enclosing `State` does, for systems that call back. -/
structure System (U : Type) where
  GetPriority : Option Int
  Init : Option (World U → World U)
  Update : Nat → World U → World U
  Add : Ref → World U → Res (World U × Option Err)
  Remove : (Ref → World U → Res (World U)) → Ref → World U → Res (World U)

/-- The dependency engine as a `System`. -/
def DependsSystem.toSystem {U : Type} (Priority : Int) : System U :=
  { GetPriority := some Priority
    Init := some DependsSystem.Init
    Update := fun _ w => w
    Add := DependsSystem.Add
    Remove := DependsSystem.Remove }

/-- Source `State` is a slice of systems. -/
abbrev State (U : Type) := List (System U)

/-- The method set of the interface `Prioritizer` of `system.go`, each method with
its parameter and result types: the three methods of the embedded `System`, and
`GetPriority() int`. -/
def Prioritizer.methods : List (String × String × String) :=
  [("Update", "any", ""), ("Add", "Entity", "error"), ("Remove", "Entity", ""),
   ("GetPriority", "", "int")]

/-- The methods `depends.go` declares on `*DependsSystem` (`Priority` is a field
of the struct, not a method). -/
def DependsSystem.methods : List (String × String × String) :=
  [("Init", "*State", ""), ("Update", "any", ""), ("Add", "Entity", "error"),
   ("Remove", "Entity", ""), ("GetPriority", "", "int")]

/-- The method `State.Less` calls on the value `p` it obtained from the type
assertion `s[i].(Prioritizer)`, in `ip = p.Priority()` and `jp = p.Priority()`. -/
def State.Less.called : String := "Priority"

/-- What `GetPriority` returns for a system, 0 for a system that is no `Prioritizer`. -/
def System.priority {U : Type} (sys : System U) : Int :=
  match sys.GetPriority with
  | some p => p
  | none => 0

/-- The body of `State.Less` with the name `m` of the method called on `p` left
open.  The assignment `ip = p.m()` is accepted by the compiler only when the
interface `Prioritizer` declares a method `m` without parameters and with the
result `int`; a function that is not accepted has no value (`none`).  The only
such method is `GetPriority`, whose result is then the priority compared
(`sort.Sort` only passes indices below `Len()`). -/
def State.LessCalling {U : Type} (m : String) (s : State U) (i j : Nat) : Option Bool :=
  if (m, "", "int") ∈ Prioritizer.methods then
    let ip := match s[i]? with
      | some sys => sys.priority
      | none => 0
    let jp := match s[j]? with
      | some sys => sys.priority
      | none => 0
    some (decide (ip < jp))
  else none

/-- Source `State.Less`, as written: the method called is `Priority`. -/
def State.Less {U : Type} (s : State U) (i j : Nat) : Option Bool :=
  State.LessCalling State.Less.called s i j

/-- What the standard library promises of `sort.Sort`, for a `Less` in which
the method called is `GetPriority`: the slice is permuted and afterwards no
later element is `Less` than an earlier one. -/
def SortContract {U : Type} (sortFn : State U → State U) : Prop :=
  ∀ s : State U, (sortFn s).Perm s ∧
    ∀ i j : Nat, i < j → j < (sortFn s).length →
      State.LessCalling "GetPriority" (sortFn s) j i = some false

/-- Source `State.AddSystem`: append, then `sort.Sort`. -/
def State.AddSystem {U : Type} (sortFn : State U → State U) (s : State U) (system : System U) :
    State U :=
  sortFn (s ++ [system])

/-- Source `State.Update`: `Update(u)` of every system, in registry order. -/
def State.Update {U : Type} (u : Nat) : State U → World U → World U
  | [], w => w
  | sys :: rest, w => State.Update u rest (sys.Update u w)

/-- The loop of `State.Remove` over the systems. -/
def State.removeEach {U : Type} (stateRemove : Ref → World U → Res (World U)) (e : Ref) :
    List (System U) → World U → Res (World U)
  | [], w => .ok w
  | sys :: rest, w => (sys.Remove stateRemove e w).bind fun w1 =>
      State.removeEach stateRemove e rest w1

/-- Source `State.Remove`; the fuel bounds the nesting of `State.Remove` calls made by
cascading systems. -/
def State.Remove {U : Type} (s : State U) : Nat → Ref → World U → Res (World U)
  | 0, _, _ => .outOfFuel
  | fuel + 1, e, w => State.removeEach (fun x w1 => State.Remove s fuel x w1) e s w

/-- A call made by `State.Add` on the system at a position: `Add` with what it
returned, or `Remove`. -/
inductive Call where
  | Add (i : Nat) (err : Option Err)
  | Remove (i : Nat)
  deriving DecidableEq

/-- Source `NewID`: `atomic.AddUint64(&idSrc, 1)`. -/
def NewID {U : Type} (w : World U) : Nat × World U :=
  let v := (w.idSrc + 1) % 2 ^ 64
  (v, { w with idSrc := v })

/-- The roll-back loop `for ; i >= 0; i-- { s[i].Remove(e) }` of `State.Add`,
entered at `i`; the calls made are appended to `tr`. -/
def State.rollback {U : Type} (stateRemove : Ref → World U → Res (World U)) (e : Ref)
    (s : State U) : Nat → World U → List Call → Res (World U × List Call)
  | 0, w, tr =>
    match s[0]? with
    | none => .fault
    | some sys => (sys.Remove stateRemove e w).bind fun w1 => .ok (w1, tr ++ [Call.Remove 0])
  | i + 1, w, tr =>
    match s[i + 1]? with
    | none => .fault
    | some sys => (sys.Remove stateRemove e w).bind fun w1 =>
        State.rollback stateRemove e s i w1 (tr ++ [Call.Remove (i + 1)])

/-- The loop `for i := range s` of `State.Add` from position `i` on (`rest` are
the systems `i..`); the calls made are appended to `tr`. -/
def State.addLoop {U : Type} (stateRemove : Ref → World U → Res (World U)) (e : Ref)
    (s : State U) : List (System U) → Nat → World U → List Call →
    Res (World U × Option Err × List Call)
  | [], _, w, tr => .ok (w, none, tr)
  | sys :: rest, i, w, tr =>
    (sys.Add e w).bind fun r =>
      match r.2 with
      | none => State.addLoop stateRemove e s rest (i + 1) r.1 (tr ++ [Call.Add i none])
      | some err =>
        (State.rollback stateRemove e s i r.1 (tr ++ [Call.Add i (some err)])).bind fun q =>
          .ok (q.1, some err, q.2)

/-- Source `State.Add`: the world afterwards, the error returned, and the calls made
on the systems, in order. -/
def State.Add {U : Type} (s : State U) (fuel : Nat) (e : Ref) (w : World U) :
    Res (World U × Option Err × List Call) :=
  let w1 : World U :=
    if w.heap.ID e = 0 then
      let r := NewID w
      { r.2 with heap := { r.2.heap with ID := fun x => if x = e then r.1 else r.2.heap.ID x } }
    else w
  State.addLoop (fun x w2 => State.Remove s fuel x w2) e s s 0 w1 []

/-- The value of a result, or a default when the code did not return. -/
def Res.getD {α : Type} (d : α) : Res α → α
  | .ok a => a
  | _ => d

/-- A shuffler that always hands out the identity permutation. -/
def idShuffler : Nat → Nat → List Nat := fun _ n => List.range n

/-- Example entities: `entX` and `entV` have no `Depends` component, `entY`
requires the entity whose `ID` is that of `entX`, `entZ` requires an entity
named "missing", `entE` carries `NewDepends()` with no filter at all. -/
def entX : Ref := 0

def entY : Ref := 1

def entZ : Ref := 2

def entE : Ref := 3

def entV : Ref := 4

/-- Example heap: entity `r` has identifier `r + 10`, no entity has a name. -/
def demoHeap : Heap :=
  { ID := fun r => r + 10
    typ := fun r => r
    implements := fun _ _ => false
    Name := fun _ => none }

/-- The `Depends` components of the example entities. -/
def demoDepends : Ref → Option Depends := fun r =>
  if r = entY then some (NewDepends [Filter.IDFilter entX])
  else if r = entZ then some (NewDepends [Filter.NameFilter "missing"])
  else if r = entE then some (NewDepends [])
  else none

/-- A fresh engine, initialised with `Init`, and no entity admitted yet. -/
def demoWorld : World Unit :=
  DependsSystem.Init
    { heap := demoHeap
      depends := demoDepends
      idSrc := 1
      ds := NewDependsSystem idShuffler
      ext := () }

/-- A `State` holding the dependency engine only. -/
def demoState : State Unit := [DependsSystem.toSystem 0]

/-- The callback the engine of `demoState` reaches through its `*State`. -/
def demoRemove (fuel : Nat) : Ref → World Unit → Res (World Unit) :=
  fun x w => State.Remove demoState fuel x w

/-- The world after `demoState.Add(entX)`. -/
def worldX : World Unit := (Res.getD (demoWorld, none, []) (State.Add demoState 1 entX demoWorld)).1

/-- The world after `demoState.Add(entX)` and then `demoState.Add(entY)`. -/
def worldXY : World Unit := (Res.getD (worldX, none, []) (State.Add demoState 1 entY worldX)).1

/-- The world after `demoState.Add(entX)` and then `demoState.Add(entV)`. -/
def worldXV : World Unit := (Res.getD (worldX, none, []) (State.Add demoState 1 entV worldX)).1

/-- A system other than the engine: it keeps no state, `Add` returns the given
error (or nil), `Remove` returns. -/
def plainSystem (p : Option Int) (err : Option Err) : System Unit :=
  { GetPriority := p
    Init := none
    Update := fun _ w => w
    Add := fun _ w => .ok (w, err)
    Remove := fun _ _ w => .ok w }

/-- Number of bound slots. -/
def resolved : List (Option Ref) → Nat
  | [] => 0
  | some _ :: l => resolved l + 1
  | none :: l => resolved l

/-- What one pass of the inner loop does to one slot when nothing stops it. -/
def stepSlot (h : Heap) (c : Ref) (f : Filter) (slot : Option Ref) : Option Ref :=
  match slot with
  | some t => some t
  | none => if f.Satisfies h c then some c else none

/-- The first entity of a scan order that satisfies a filter. -/
def firstMatch (h : Heap) (cs : List Ref) (f : Filter) : Option Ref :=
  cs.find? fun c => f.Satisfies h c

/-- Every bound slot of `ents` is recorded in the reverse index `m` under the
identifier of its target. -/
def Linked (h : Heap) (d : Ref) (ents : List (Option Ref)) (m : Nat → Option (List Ref)) : Prop :=
  ∀ t, some t ∈ ents → ∃ l, m (h.ID t) = some l ∧ d ∈ l

/-- The reverse index `m2` keeps every entry of `m1`, possibly extended. -/
def MapGrows (m1 m2 : Nat → Option (List Ref)) : Prop :=
  ∀ k l, m1 k = some l → ∃ l2, m2 k = some l2 ∧ ∀ x ∈ l, x ∈ l2

/-- Every draw of the shuffler is a permutation of the indices, as `rand.Perm` promises. -/
def DependsSystem.ValidShuffler (d : DependsSystem) : Prop :=
  ∀ k n : Nat, (d.shuffeler k n).Perm (List.range n)

/-- The world `DependsSystem.Add` leaves behind for a `Depender` once the
matching loops ended in the scan state `r`. -/
def addedWorld {U : Type} (w : World U) (e : Ref) (dep : Depends) (r : Scan) : World U :=
  { w with
    depends := fun x => if x = e then some { dep with Entities := r.Entities } else w.depends x
    ds := { w.ds with entities := w.ds.entities ++ [e], dependers := r.dependers,
                      draws := w.ds.draws + 1 } }

/-- Registering a sequence of systems one after the other with `AddSystem`. -/
def State.register {U : Type} (sortFn : State U → State U) (s : State U)
    (systems : List (System U)) : State U :=
  systems.foldl (State.AddSystem sortFn) s

/-- A sorting function that meets `SortContract`: insertion by priority. -/
def sortByPriority {U : Type} (s : State U) : State U :=
  s.insertionSort fun a b => a.priority ≤ b.priority

/-- The effect of `State.AddSystem` on the program state besides the registry:
the function writes `*s` only, so the world is handed back as it was; the last
component counts the calls of `Init` the function makes. -/
def State.AddSystemIn {U : Type} (sortFn : State U → State U) (s : State U)
    (system : System U) (w : World U) : State U × World U × Nat :=
  (State.AddSystem sortFn s system, w, 0)

/-- Example entities of the second scenario: `entS` requires the entity that
carries its own identifier, `entW` requires the entity `entX` in two slots. -/
def entS : Ref := 5

def entW : Ref := 6

/-- The `Depends` components of the second scenario. -/
def demoDepends2 : Ref → Option Depends := fun r =>
  if r = entS then some (NewDepends [Filter.IDFilter entS])
  else if r = entW then some (NewDepends [Filter.IDFilter entX, Filter.IDFilter entX])
  else demoDepends r

/-- A fresh engine with `Init` called, for the second scenario. -/
def demoWorld2 : World Unit :=
  DependsSystem.Init
    { heap := demoHeap
      depends := demoDepends2
      idSrc := 1
      ds := NewDependsSystem idShuffler
      ext := () }

/-- A fresh engine on which `Init` was never called: its `*State` is nil. -/
def rawWorld : World Unit :=
  { heap := demoHeap
    depends := demoDepends
    idSrc := 1
    ds := NewDependsSystem idShuffler
    ext := () }

/-- The world after `demoState.Add(e)`, or the world itself when the call panics. -/
def afterAdd (e : Ref) (w : World Unit) : World Unit :=
  (Res.getD (w, none, []) (State.Add demoState 1 e w)).1

/-- The world after `demoState.Remove(e)`, or the world itself when the call
does not return. -/
def afterRemove (e : Ref) (w : World Unit) : World Unit :=
  Res.getD w (State.Remove demoState 2 e w)

/-- The entities in the order `DependsSystem.Add(e)` scans them: the pool with
`e` appended, read through the permutation drawn from the shuffler. -/
def scanOrder {U : Type} (w : World U) (e : Ref) : List Ref :=
  (w.ds.shuffeler w.ds.draws (w.ds.entities ++ [e]).length).filterMap
    fun i => (w.ds.entities ++ [e])[i]?

/-- Whether a slot of `d` is bound to the entity `e`. -/
def boundTo {U : Type} (w : World U) (d e : Ref) : Bool :=
  match w.depends d with
  | some dep => dep.Entities.contains (some e)
  | none => false

/-- The identifiers returned by `n` successive calls of `NewID` when the
counter `idSrc` holds `c0` before the first of them. -/
def issuedBy (c0 n : Nat) : List Nat :=
  (List.range n).map fun k => (c0 + k + 1) % 2 ^ 64

/-- Calling `NewID` `n` times in a row: the identifiers handed out, in order,
and the world afterwards. -/
def NewID.run {U : Type} : Nat → World U → List Nat × World U
  | 0, w => ([], w)
  | n + 1, w =>
    let r := NewID w
    let q := NewID.run n r.2
    (r.1 :: q.1, q.2)

/-- A system that never writes the `ID` component of an entity, provided the
`State.Remove` it may call back does not either. -/
def System.KeepsIDs {U : Type} (sys : System U) : Prop :=
  (∀ e w r, sys.Add e w = .ok r → r.1.heap.ID = w.heap.ID) ∧
  ∀ (cb : Ref → World U → Res (World U)) e w w1,
    (∀ x v v1, cb x v = .ok v1 → v1.heap.ID = v.heap.ID) →
    sys.Remove cb e w = .ok w1 → w1.heap.ID = w.heap.ID

/-- An initialised engine with an empty pool in a program whose identifier
counter stands at `2^64 - 1` (as after `2^64 - 2` calls of `NewID`); no entity
has an identifier yet. -/
def wrapWorld : World Unit :=
  DependsSystem.Init
    { heap :=
        { ID := fun _ => 0
          typ := fun r => r
          implements := fun _ _ => false
          Name := fun _ => none }
      depends := demoDepends
      idSrc := 2 ^ 64 - 1
      ds := NewDependsSystem idShuffler
      ext := () }

/-- A new program (counter at its initial value 1) with an initialised engine
and entities that have no identifier yet. -/
def unassignedWorld : World Unit :=
  DependsSystem.Init
    { heap :=
        { ID := fun _ => 0
          typ := fun r => r
          implements := fun _ _ => false
          Name := fun _ => none }
      depends := demoDepends
      idSrc := 1
      ds := NewDependsSystem idShuffler
      ext := () }

/-- The world in which `State.Add(e)` starts its loop over the systems: `e` has
been given a new identifier when it had none. -/
def State.assignID {U : Type} (e : Ref) (w : World U) : World U :=
  if w.heap.ID e = 0 then
    let r := NewID w
    { r.2 with heap := { r.2.heap with ID := fun x => if x = e then r.1 else r.2.heap.ID x } }
  else w

/-- Calling `Add(e)` on the systems of a list one after the other, each call
returning nil: the world afterwards (`none` when one of the calls panics or
returns an error). -/
def State.addAll {U : Type} (e : Ref) : List (System U) → World U → Option (World U)
  | [], w => some w
  | sys :: rest, w =>
    match sys.Add e w with
    | .ok (w1, none) => State.addAll e rest w1
    | _ => none

/-- A system that records every call of its `Update` by appending its tag to the
log kept in `ext`. -/
def logSystem (p : Option Int) (tag : Nat) : System (List Nat) :=
  { GetPriority := p
    Init := none
    Update := fun _ w => { w with ext := w.ext ++ [tag] }
    Add := fun _ w => .ok (w, none)
    Remove := fun _ _ w => .ok w }

/-- A world whose log of `Update` calls is empty. -/
def logWorld : World (List Nat) :=
  { heap := demoHeap
    depends := demoDepends
    idSrc := 1
    ds := NewDependsSystem idShuffler
    ext := [] }

/-- Example entity of the chain scenario: `entC` requires the entity that carries
the identifier of `entY`, which in turn requires `entX`. -/
def entC : Ref := 11

/-- The `Depends` components of the chain scenario. -/
def chainDepends : Ref → Option Depends := fun r =>
  if r = entC then some (NewDepends [Filter.IDFilter entY]) else demoDepends r

/-- A fresh engine with `Init` called, for the chain scenario. -/
def chainWorld : World Unit :=
  DependsSystem.Init
    { heap := demoHeap
      depends := chainDepends
      idSrc := 1
      ds := NewDependsSystem idShuffler
      ext := () }

/-- The chain scenario after `Add(entX)`, `Add(entY)`, `Add(entC)`. -/
def chainXYC : World Unit := afterAdd entC (afterAdd entY (afterAdd entX chainWorld))

/-- The slots of an entity: `depends.Entities`, and no slot for an entity that
is no `Depender`. -/
def slotsOf {U : Type} (w : World U) (e : Ref) : List (Option Ref) :=
  match w.depends e with
  | some dep => dep.Entities
  | none => []

/-- The world with the pool and the reverse index of the engine replaced. -/
def World.setEngine {U : Type} (w : World U) (pool : List Ref)
    (m : Nat → Option (List Ref)) : World U :=
  { w with ds := { w.ds with entities := pool, dependers := m } }

/-- The last part of `DependsSystem.Remove`: the cascade over the entry of `e`
and the deletion of its key. -/
def finishRemove {U : Type} (stateRemove : Ref → World U → Res (World U)) (e : Ref)
    (w2 : World U) : Res (World U) :=
  match w2.ds.dependers (w2.heap.ID e) with
  | some dependers =>
    (cascade stateRemove dependers w2).bind fun w3 =>
      .ok { w3 with ds := { w3.ds with dependers := mapDelete w3.ds.dependers (w3.heap.ID e) } }
  | none => .ok w2

/-- An entry of the reverse index that the unlink loop for `e` stores back as
it found it: no element equal to `e`, or a single element equal to `e`. -/
def Stable (h : Heap) (e : Ref) (l : List Ref) : Prop :=
  (∀ x ∈ l, h.Equal x e = false) ∨ ∃ x, l = [x] ∧ h.Equal x e = true

/-- Distinct entities carry distinct identifiers; 0 is no identifier. -/
def DistinctIDs {U : Type} (w : World U) : Prop :=
  ∀ a b : Ref, w.heap.ID a = w.heap.ID b → w.heap.ID a ≠ 0 → a = b

/-- Some occurrence of `x` in the pool has an entity with the identifier `k` at
or below it. -/
def Above (h : Heap) (pool : List Ref) (x : Ref) (k : Nat) : Prop :=
  ∃ (i j : Nat) (t : Ref), j ≤ i ∧ pool[i]? = some x ∧ pool[j]? = some t ∧ h.ID t = k

/-- Invariant of the engine states reached with distinct identifiers: every
pool entity has an identifier; a listed dependent stands under the identifier
of a pool entity; a pool entity stands above the targets of its slots; a listed
dependent that is in the pool stands above the entity it is listed under. -/
def PoolInv {U : Type} (w : World U) : Prop :=
  (∀ x ∈ w.ds.entities, w.heap.ID x ≠ 0) ∧
  (∀ k l x, w.ds.dependers k = some l → x ∈ l → ∃ t ∈ w.ds.entities, w.heap.ID t = k) ∧
  (∀ y ∈ w.ds.entities, ∀ t, some t ∈ slotsOf w y →
    Above w.heap w.ds.entities y (w.heap.ID t)) ∧
  ∀ k l x, w.ds.dependers k = some l → x ∈ l →
    x ∉ w.ds.entities ∨ Above w.heap w.ds.entities x k

/-- Engine states reached from an empty engine by calls of `State.Add` and
`State.Remove` that returned, on the registry that holds the engine only, in a
program whose entities carry distinct identifiers: after every `State.Add` the
entity has an identifier other than 0 and no two entities share one. -/
inductive Reached {U : Type} (p : Int) : World U → Prop where
  | fresh (w : World U) (hpool : w.ds.entities = [])
      (hmap : ∀ k, w.ds.dependers k = none) (hd : DistinctIDs w) : Reached p w
  | add (w w1 : World U) (e : Ref) (fuel : Nat) (err : Option Err) (tr : List Call)
      (hw : Reached p w)
      (hadd : State.Add [DependsSystem.toSystem p] fuel e w = .ok (w1, err, tr))
      (hid : w1.heap.ID e ≠ 0) (hd : DistinctIDs w1) : Reached p w1
  | remove (w w1 : World U) (e : Ref) (fuel : Nat) (hw : Reached p w)
      (hrem : State.Remove [DependsSystem.toSystem p] fuel e w = .ok w1) : Reached p w1

/-- The second world has the heap, the `Depends` components and the stored
`*State` of the first. -/
def SameFrame {U : Type} (w w1 : World U) : Prop :=
  w1.heap = w.heap ∧ w1.depends = w.depends ∧ w1.ds.stateSet = w.ds.stateSet

/-- The entity `e` is listed under its own identifier, and the unlink loop for
`e` leaves it there: no slot of `e` has that key, or the entry is `[e]`. -/
def SelfListed {U : Type} (e : Ref) (v : World U) : Prop :=
  (∃ l, v.ds.dependers (v.heap.ID e) = some l ∧ e ∈ l) ∧
  ((∀ t, some t ∈ slotsOf v e → v.heap.ID t ≠ v.heap.ID e) ∨
    v.ds.dependers (v.heap.ID e) = some [e])

/-- The state after `Add(entX)`, `Add(entY)`, `Remove(entY)`: the pool is
`[entX]` and the reverse index still lists `entY` under the identifier of
`entX`. -/
def worldXstale : World Unit := afterRemove entY worldXY

/-- The same three calls in a new program, where no entity has an identifier
before it is admitted and `State.Add` draws the identifiers from the counter. -/
def issuedXstale : World Unit :=
  afterRemove entY (afterAdd entY (afterAdd entX unassignedWorld))

theorem Res.bind_eq_ok {α β : Type} (x : Res α) (f : α → Res β) (b : β) :
    x.bind f = .ok b ↔ ∃ a, x = .ok a ∧ f a = .ok b := by
  cases x <;> simp [Res.bind]

theorem resolved_le (l : List (Option Ref)) : resolved l ≤ l.length := by
  induction l with
  | nil => simp [resolved]
  | cons a l ih => cases a <;> simp [resolved] <;> omega

theorem resolved_full (l : List (Option Ref)) (hl : resolved l = l.length) :
    ∀ x ∈ l, ∃ t, x = some t := by
  induction l with
  | nil => simp
  | cons a l ih =>
    have hle := resolved_le l
    cases a with
    | none => simp [resolved] at hl; omega
    | some t =>
      simp [resolved] at hl
      intro x hx
      rcases List.mem_cons.1 hx with rfl | hx
      · exact ⟨t, rfl⟩
      · exact ih hl x hx

theorem resolved_lt (l : List (Option Ref)) (hl : resolved l < l.length) : none ∈ l := by
  induction l with
  | nil => simp at hl
  | cons a l ih =>
    cases a with
    | none => simp
    | some t =>
      simp [resolved] at hl
      exact List.mem_cons_of_mem _ (ih hl)

theorem zipWith_stepSlot_full (h : Heap) (c : Ref) :
    ∀ (fs : List Filter) (slots : List (Option Ref)), slots.length = fs.length →
      resolved slots = slots.length → List.zipWith (stepSlot h c) fs slots = slots := by
  intro fs
  induction fs with
  | nil => intro slots hlen _; cases slots <;> simp_all
  | cons f fs ih =>
    intro slots hlen hres
    cases slots with
    | nil => simp at hlen
    | cons a slots =>
      have hle := resolved_le slots
      cases a with
      | none => simp [resolved] at hres; omega
      | some t =>
        simp [resolved] at hres hlen
        simp [stepSlot, ih slots hlen hres]

theorem bindSlots_spec (h : Heap) (d c n : Nat) :
    ∀ (fs : List Filter) (slots : List (Option Ref)) (m : Nat → Option (List Ref)) (hv p q : Nat),
      slots.length = fs.length → hv = q + resolved slots → n = p + fs.length → q ≤ p → hv < n →
      ∃ r, bindSlots h d (some c) n fs slots m hv = .ok r ∧
        r.Entities = List.zipWith (stepSlot h c) fs slots ∧
        r.have_ = q + resolved r.Entities ∧
        (r.returned = true → r.have_ = n) ∧ (r.returned = false → r.have_ < n) := by
  intro fs
  induction fs with
  | nil =>
    intro slots m hv p q hlen hhv hn hq hlt
    cases slots with
    | nil =>
      exact ⟨{ Entities := [], dependers := m, have_ := hv, returned := false },
        by simp [bindSlots], by simp, by simpa [resolved] using hhv, by simp, by simpa using hlt⟩
    | cons a l => simp at hlen
  | cons f fs ih =>
    intro slots m hv p q hlen hhv hn hq hlt
    cases slots with
    | nil => simp at hlen
    | cons a slots =>
      simp at hlen
      have hle := resolved_le slots
      cases a with
      | some t =>
        obtain ⟨r, hr, hE, hH, hT, hF⟩ := ih slots m hv (p + 1) (q + 1) hlen
          (by simp [resolved] at hhv; omega) (by simp at hn; omega) (by omega) hlt
        refine ⟨{ r with Entities := some t :: r.Entities }, ?_, ?_, ?_, hT, hF⟩
        · simp [bindSlots, hr, Res.bind]
        · simp [hE, stepSlot]
        · simp [resolved, hH]; omega
      | none =>
        by_cases hs : f.Satisfies h c = true
        · by_cases he : hv + 1 = n
          · have hfull : resolved slots = slots.length := by
              simp [resolved] at hhv; simp at hn; omega
            refine ⟨{ Entities := some c :: slots, dependers := mapAppend m (h.ID c) d,
                      have_ := hv + 1, returned := true },
              by simp [bindSlots, hs, he], ?_, ?_, by simp [he], by simp⟩
            · simp [stepSlot, hs, zipWith_stepSlot_full h c fs slots hlen hfull]
            · simp [resolved] at hhv ⊢; omega
          · obtain ⟨r, hr, hE, hH, hT, hF⟩ := ih slots (mapAppend m (h.ID c) d) (hv + 1) (p + 1)
              (q + 1) hlen (by simp [resolved] at hhv; omega) (by simp at hn; omega) (by omega)
              (by omega)
            refine ⟨{ r with Entities := some c :: r.Entities }, ?_, ?_, ?_, hT, hF⟩
            · simp [bindSlots, hs, he, hr, Res.bind]
            · simp [hE, stepSlot, hs]
            · simp [resolved, hH]; omega
        · obtain ⟨r, hr, hE, hH, hT, hF⟩ := ih slots m hv (p + 1) q hlen
            (by simp [resolved] at hhv; omega) (by simp at hn; omega) (by omega) hlt
          refine ⟨{ r with Entities := none :: r.Entities }, ?_, ?_, ?_, hT, hF⟩
          · simp [bindSlots, hs, hr, Res.bind]
          · simp [hE, stepSlot, hs]
          · simp [resolved, hH]

theorem firstMatch_append_of_some (h : Heap) (l l2 : List Ref) (f : Filter) (t : Ref)
    (ht : firstMatch h l f = some t) : firstMatch h (l ++ l2) f = some t := by
  simp [firstMatch, List.find?_append] at ht ⊢
  simp [ht]

theorem zipWith_stepSlot_firstMatch (h : Heap) (c : Ref) (done : List Ref) (fs : List Filter) :
    List.zipWith (stepSlot h c) fs (fs.map (firstMatch h done)) =
      fs.map (firstMatch h (done ++ [c])) := by
  induction fs with
  | nil => simp
  | cons f fs ih =>
    simp only [List.map_cons, List.zipWith_cons_cons, ih]
    congr 1
    simp only [firstMatch, List.find?_append, stepSlot]
    cases hd : List.find? (fun c => f.Satisfies h c) done with
    | some t => simp
    | none => by_cases hs : f.Satisfies h c = true <;> simp [hs]

theorem map_firstMatch_full (h : Heap) (l l2 : List Ref) (fs : List Filter)
    (hfull : resolved (fs.map (firstMatch h l)) = fs.length) :
    fs.map (firstMatch h (l ++ l2)) = fs.map (firstMatch h l) := by
  apply List.map_congr_left
  intro f hf
  obtain ⟨t, ht⟩ := resolved_full _ (by simpa using hfull) (firstMatch h l f)
    (List.mem_map_of_mem _ hf)
  rw [ht, firstMatch_append_of_some h l l2 f t ht]

theorem scanPool_spec (h : Heap) (d : Ref) (pool : List Ref) (fs : List Filter) :
    ∀ (es : List Nat) (s : Scan) (done : List Ref), s.returned = false →
      s.Entities = fs.map (firstMatch h done) → s.have_ = resolved s.Entities →
      s.have_ < fs.length → (∀ e ∈ es, e < pool.length) →
      ∃ r, scanPool h d pool fs es s = .ok r ∧
        r.Entities = fs.map (firstMatch h (done ++ es.filterMap fun e => pool[e]?)) ∧
        r.have_ = resolved r.Entities ∧
        (r.returned = true → r.have_ = fs.length) ∧ (r.returned = false → r.have_ < fs.length) := by
  intro es
  induction es with
  | nil =>
    intro s done hret hE hH hlt _
    exact ⟨s, by simp [scanPool], by simpa using hE, hH, by simp [hret], fun _ => hlt⟩
  | cons e es ih =>
    intro s done hret hE hH hlt hin
    have he : e < pool.length := hin e (by simp)
    have hget : pool[e]? = some pool[e] := List.getElem?_eq_getElem he
    obtain ⟨r1, hr1, hE1, hH1, hT1, hF1⟩ := bindSlots_spec h d pool[e] fs.length fs s.Entities
      s.dependers s.have_ 0 0 (by simp [hE]) (by simpa using hH) (by simp) (le_refl _) hlt
    rw [hE, zipWith_stepSlot_firstMatch] at hE1
    simp only [Nat.zero_add] at hH1
    by_cases hret1 : r1.returned = true
    · refine ⟨r1, by simp [scanPool, hget, hr1, Res.bind, hret1], ?_, hH1, hT1, hF1⟩
      have hfull : resolved (fs.map (firstMatch h (done ++ [pool[e]]))) = fs.length := by
        rw [← hE1, ← hH1]; exact hT1 hret1
      rw [hE1]
      simp only [List.filterMap_cons, hget]
      have := map_firstMatch_full h (done ++ [pool[e]]) (es.filterMap fun e => pool[e]?) fs hfull
      simpa using this.symm
    · have hret1 : r1.returned = false := by simpa using hret1
      obtain ⟨r, hr, hE2, hH2, hT2, hF2⟩ := ih r1 (done ++ [pool[e]]) hret1 hE1 hH1 (hF1 hret1)
        (fun x hx => hin x (List.mem_cons_of_mem _ hx))
      refine ⟨r, by simp [scanPool, hget, hr1, Res.bind, hret1, hr], ?_, hH2, hT2, hF2⟩
      rw [hE2]
      simp [List.filterMap_cons, hget]

theorem MapGrows.refl (m : Nat → Option (List Ref)) : MapGrows m m :=
  fun _ l hl => ⟨l, hl, fun _ hx => hx⟩

theorem MapGrows.trans {m1 m2 m3 : Nat → Option (List Ref)} (h12 : MapGrows m1 m2)
    (h23 : MapGrows m2 m3) : MapGrows m1 m3 := by
  intro k l hl
  obtain ⟨l2, hl2, hsub⟩ := h12 k l hl
  obtain ⟨l3, hl3, hsub3⟩ := h23 k l2 hl2
  exact ⟨l3, hl3, fun x hx => hsub3 x (hsub x hx)⟩

theorem mapAppend_grows (m : Nat → Option (List Ref)) (k x : Nat) : MapGrows m (mapAppend m k x) := by
  intro k2 l hl
  by_cases hk : k2 = k
  · subst hk
    exact ⟨l ++ [x], by simp [mapAppend, hl], fun y hy => by simp [hy]⟩
  · exact ⟨l, by simp [mapAppend, hk, hl], fun _ hy => hy⟩

theorem mapAppend_linked (m : Nat → Option (List Ref)) (k x : Nat) :
    ∃ l, mapAppend m k x k = some l ∧ x ∈ l :=
  ⟨(m k).getD [] ++ [x], by simp [mapAppend], by simp⟩

theorem Linked.grows {h : Heap} {d : Ref} {ents : List (Option Ref)}
    {m1 m2 : Nat → Option (List Ref)} (hl : Linked h d ents m1) (hg : MapGrows m1 m2) :
    Linked h d ents m2 := by
  intro t ht
  obtain ⟨l, hl1, hd⟩ := hl t ht
  obtain ⟨l2, hl2, hsub⟩ := hg _ l hl1
  exact ⟨l2, hl2, hsub d hd⟩

theorem bindSlots_linked (h : Heap) (d : Ref) (cand : Option Ref) (n : Nat) :
    ∀ (fs : List Filter) (slots : List (Option Ref)) (m : Nat → Option (List Ref)) (hv : Nat)
      (r : Scan), bindSlots h d cand n fs slots m hv = .ok r → Linked h d slots m →
      MapGrows m r.dependers ∧ Linked h d r.Entities r.dependers := by
  intro fs
  induction fs with
  | nil =>
    intro slots m hv r hr hl
    simp [bindSlots] at hr
    subst hr
    exact ⟨MapGrows.refl m, hl⟩
  | cons f fs ih =>
    intro slots m hv r hr hl
    cases slots with
    | nil =>
      simp [bindSlots] at hr
      subst hr
      exact ⟨MapGrows.refl m, hl⟩
    | cons a slots =>
      have hl2 : Linked h d slots m := fun t ht => hl t (List.mem_cons_of_mem _ ht)
      cases a with
      | some t =>
        simp only [bindSlots, Res.bind_eq_ok] at hr
        obtain ⟨r1, hr1, hr⟩ := hr
        simp at hr
        subst hr
        obtain ⟨hg, hlk⟩ := ih slots m hv r1 hr1 hl2
        refine ⟨hg, ?_⟩
        intro t2 ht2
        rcases List.mem_cons.1 ht2 with heq | hmem
        · have : Linked h d (some t :: slots) r1.dependers := hl.grows hg
          exact this t2 (by simp [heq])
        · exact hlk t2 hmem
      | none =>
        cases cand with
        | none => simp [bindSlots] at hr
        | some c =>
          by_cases hs : f.Satisfies h c = true
          · by_cases he : hv + 1 = n
            · simp [bindSlots, hs, he] at hr
              subst hr
              refine ⟨mapAppend_grows m _ d, ?_⟩
              intro t2 ht2
              rcases List.mem_cons.1 ht2 with heq | hmem
              · simp at heq
                subst heq
                exact mapAppend_linked m _ d
              · exact (hl2.grows (mapAppend_grows m _ d)) t2 hmem
            · simp only [bindSlots, hs, he, if_true, if_false, Res.bind_eq_ok] at hr
              obtain ⟨r1, hr1, hr⟩ := hr
              simp at hr
              subst hr
              obtain ⟨hg, hlk⟩ := ih slots _ _ r1 hr1 (hl2.grows (mapAppend_grows m _ d))
              refine ⟨(mapAppend_grows m _ d).trans hg, ?_⟩
              intro t2 ht2
              rcases List.mem_cons.1 ht2 with heq | hmem
              · simp at heq
                subst heq
                obtain ⟨l, hl1, hd⟩ := mapAppend_linked m (h.ID t2) d
                obtain ⟨l2, hl22, hsub⟩ := hg _ l hl1
                exact ⟨l2, hl22, hsub d hd⟩
              · exact hlk t2 hmem
          · have hs2 : f.Satisfies h c = false := by simpa using hs
            simp only [bindSlots, hs2, Bool.false_eq_true, if_false, Res.bind_eq_ok] at hr
            obtain ⟨r1, hr1, hr⟩ := hr
            simp at hr
            subst hr
            obtain ⟨hg, hlk⟩ := ih slots m hv r1 hr1 hl2
            refine ⟨hg, ?_⟩
            intro t2 ht2
            rcases List.mem_cons.1 ht2 with heq | hmem
            · simp at heq
            · exact hlk t2 hmem

theorem scanPool_linked (h : Heap) (d : Ref) (pool : List Ref) (fs : List Filter) :
    ∀ (es : List Nat) (s r : Scan), scanPool h d pool fs es s = .ok r →
      Linked h d s.Entities s.dependers →
      MapGrows s.dependers r.dependers ∧ Linked h d r.Entities r.dependers := by
  intro es
  induction es with
  | nil =>
    intro s r hr hl
    simp [scanPool] at hr
    subst hr
    exact ⟨MapGrows.refl _, hl⟩
  | cons e es ih =>
    intro s r hr hl
    simp only [scanPool, Res.bind_eq_ok] at hr
    obtain ⟨r1, hr1, hr⟩ := hr
    obtain ⟨hg1, hl1⟩ := bindSlots_linked h d _ _ fs _ _ _ r1 hr1 hl
    by_cases hret : r1.returned = true
    · simp [hret] at hr
      subst hr
      exact ⟨hg1, hl1⟩
    · simp [hret] at hr
      obtain ⟨hg2, hl2⟩ := ih r1 r hr hl1
      exact ⟨hg1.trans hg2, hl2⟩

theorem mem_scanned_iff (pool : List Ref) (perm : List Nat)
    (hperm : perm.Perm (List.range pool.length)) (x : Ref) :
    x ∈ perm.filterMap (fun e => pool[e]?) ↔ x ∈ pool := by
  rw [List.mem_filterMap, List.mem_iff_getElem?]
  constructor
  · rintro ⟨i, _, hi⟩
    exact ⟨i, hi⟩
  · rintro ⟨i, hi⟩
    refine ⟨i, ?_, hi⟩
    rw [hperm.mem_iff, List.mem_range]
    by_contra hge
    rw [List.getElem?_eq_none (by omega)] at hi
    exact absurd hi (by simp)

theorem Linked_replicate_none (h : Heap) (d : Ref) (n : Nat) (m : Nat → Option (List Ref)) :
    Linked h d (List.replicate n none) m := by
  intro t ht
  have := List.eq_of_mem_replicate ht
  simp at this

theorem resolved_replicate_none (n : Nat) : resolved (List.replicate n none) = 0 := by
  induction n with
  | zero => simp [resolved]
  | succ n ih => simpa [List.replicate_succ, resolved] using ih

theorem map_firstMatch_nil (h : Heap) (fs : List Filter) :
    fs.map (firstMatch h []) = List.replicate fs.length none := by
  induction fs with
  | nil => simp
  | cons f fs ih => simp [List.replicate_succ, firstMatch, ih]

theorem DependsSystem.Add_depender {U : Type} (w : World U) (e : Ref) (dep : Depends)
    (hdep : w.depends e = some dep) :
    DependsSystem.Add e w =
      (scanPool w.heap e (w.ds.entities ++ [e]) dep.Dependancies
          (w.ds.shuffeler w.ds.draws (w.ds.entities ++ [e]).length)
          { Entities := List.replicate dep.Dependancies.length none,
            dependers := w.ds.dependers, have_ := 0, returned := false }).bind fun r =>
        .ok (addedWorld w e dep r, if r.returned then none else some Err.ErrUnmetDependancy) := by
  simp only [DependsSystem.Add, hdep, addedWorld]

theorem DependsSystem.Add_scan {U : Type} (w : World U) (e : Ref) (dep : Depends)
    (hv : w.ds.ValidShuffler) (hdep : w.depends e = some dep) (hne : dep.Dependancies ≠ []) :
    ∃ r : Scan,
      DependsSystem.Add e w =
        .ok (addedWorld w e dep r, if r.returned then none else some Err.ErrUnmetDependancy) ∧
      r.Entities = dep.Dependancies.map (firstMatch w.heap
        ((w.ds.shuffeler w.ds.draws (w.ds.entities ++ [e]).length).filterMap
          fun i => (w.ds.entities ++ [e])[i]?)) ∧
      (r.returned = true → resolved r.Entities = dep.Dependancies.length) ∧
      (r.returned = false → resolved r.Entities < dep.Dependancies.length) := by
  have hperm := hv w.ds.draws (w.ds.entities ++ [e]).length
  have hpos : 0 < dep.Dependancies.length := List.length_pos.2 hne
  obtain ⟨r, hr, hE, hH, hT, hF⟩ := scanPool_spec w.heap e (w.ds.entities ++ [e]) dep.Dependancies
    (w.ds.shuffeler w.ds.draws (w.ds.entities ++ [e]).length)
    { Entities := List.replicate dep.Dependancies.length none,
      dependers := w.ds.dependers, have_ := 0, returned := false } [] rfl
    (by simp [map_firstMatch_nil]) (by simp [resolved_replicate_none]) hpos
    (fun i hi => by simpa using (hperm.mem_iff.1 hi))
  refine ⟨r, ?_, by simpa using hE, fun h1 => by rw [← hH]; exact hT h1,
    fun h1 => by rw [← hH]; exact hF h1⟩
  rw [DependsSystem.Add_depender w e dep hdep, hr]
  rfl

theorem SortContract.sorted {U : Type} {sortFn : State U → State U} (hc : SortContract sortFn)
    (s : State U) : (sortFn s).Pairwise fun a b => a.priority ≤ b.priority := by
  rw [List.pairwise_iff_getElem]
  intro i j hi hj hij
  have h1 := (hc s).2 i j hij hj
  simp only [State.LessCalling, Prioritizer.methods, List.getElem?_eq_getElem hi,
    List.getElem?_eq_getElem hj] at h1
  simpa using h1

theorem State.register_snoc {U : Type} (sortFn : State U → State U) (s : State U)
    (l : List (System U)) (x : System U) :
    State.register sortFn s (l ++ [x]) = sortFn (State.register sortFn s l ++ [x]) := by
  simp [State.register, State.AddSystem, List.foldl_append]

theorem State.register_sorted {U : Type} {sortFn : State U → State U} (hc : SortContract sortFn)
    (systems : List (System U)) :
    (State.register sortFn [] systems).Pairwise fun a b => a.priority ≤ b.priority := by
  rcases List.eq_nil_or_concat systems with rfl | ⟨l, x, rfl⟩
  · simp [State.register]
  · rw [List.concat_eq_append, State.register_snoc]
    exact hc.sorted _

theorem State.register_perm {U : Type} {sortFn : State U → State U} (hc : SortContract sortFn)
    (systems : List (System U)) : (State.register sortFn [] systems).Perm systems := by
  induction systems using List.reverseRecOn with
  | nil => simp [State.register]
  | append_singleton l x ih =>
    rw [State.register_snoc]
    exact ((hc _).1).trans (ih.append_right [x])

theorem sortByPriority_contract {U : Type} : SortContract (sortByPriority : State U → State U) := by
  intro s
  refine ⟨List.perm_insertionSort _ s, ?_⟩
  have hsorted : (sortByPriority s).Pairwise fun a b => a.priority ≤ b.priority := by
    have : IsTotal (System U) fun a b => a.priority ≤ b.priority := ⟨fun a b => le_total _ _⟩
    have : IsTrans (System U) fun a b => a.priority ≤ b.priority :=
      ⟨fun a b c hab hbc => le_trans hab hbc⟩
    exact List.sorted_insertionSort (fun a b : System U => a.priority ≤ b.priority) s
  intro i j hij hj
  have hi : i < (sortByPriority s).length := by omega
  have := List.pairwise_iff_getElem.1 hsorted i j hi hj hij
  simp only [State.LessCalling, Prioritizer.methods, List.getElem?_eq_getElem hi,
    List.getElem?_eq_getElem hj]
  simpa using this

theorem sorted_pair {U : Type} (A B : System U) (l : State U) (hA : A.priority = 1)
    (hB : B.priority = 0) (hp : l.Perm [A, B])
    (hs : l.Pairwise fun a b => a.priority ≤ b.priority) : l = [B, A] := by
  have hlen := hp.length_eq
  match l, hlen with
  | [x, y], _ =>
    have hx : x ∈ [A, B] := hp.mem_iff.1 (by simp)
    have hy : y ∈ [A, B] := hp.mem_iff.1 (by simp)
    have hAm : A ∈ [x, y] := hp.mem_iff.2 (by simp)
    have hBm : B ∈ [x, y] := hp.mem_iff.2 (by simp)
    have hle : x.priority ≤ y.priority := by simpa using hs
    simp only [List.mem_cons, List.mem_singleton, List.not_mem_nil, or_false] at hx hy hAm hBm
    rcases hx with rfl | rfl
    · rcases hy with rfl | rfl
      · rcases hBm with h | h <;> (rw [h] at hB; omega)
      · omega
    · rcases hy with rfl | rfl
      · rfl
      · rcases hAm with h | h <;> (rw [h] at hA; omega)

theorem removeLoop_overrun (h : Heap) (e : Ref) :
    ∀ (k i : Nat) (pool : List Ref), pool.length < i + (k + 1) →
      removeLoop h e (k + 1) i pool = .fault := by
  intro k
  induction k with
  | zero =>
    intro i pool hlen
    have hnone : pool[i]? = none := List.getElem?_eq_none (by omega)
    simp [removeLoop, hnone]
  | succ k ih =>
    intro i pool hlen
    cases hget : pool[i]? with
    | none => simp [removeLoop, hget]
    | some x =>
      have hle : (pool.eraseIdx i).length ≤ pool.length := by
        rw [List.length_eraseIdx]
        split <;> omega
      by_cases heq : h.Equal x e = true
      · rw [removeLoop]
        simp only [hget, heq, if_true]
        exact ih (i + 1) _ (by omega)
      · rw [removeLoop]
        simp only [hget, heq, if_false, Bool.false_eq_true]
        exact ih (i + 1) _ (by omega)

theorem removeLoop_skip (h : Heap) (e : Ref) (n : Nat) (pool : List Ref) :
    ∀ (k i : Nat), (∀ j, i ≤ j → j < i + k → ∃ x, pool[j]? = some x ∧ h.Equal x e = false) →
      removeLoop h e (k + n) i pool = removeLoop h e n (i + k) pool := by
  intro k
  induction k with
  | zero => intro i _; simp
  | succ k ih =>
    intro i hno
    obtain ⟨x, hx, hne⟩ := hno i (le_refl _) (by omega)
    have hk : k + 1 + n = (k + n) + 1 := by omega
    rw [hk, removeLoop]
    simp only [hx, hne, Bool.false_eq_true, if_false]
    rw [ih (i + 1) (fun j h1 h2 => hno j (by omega) (by omega))]
    congr 1
    omega

/-- The pool loop of `Remove` panics whenever the first entity equal to `e`
is not the last entity of the pool. -/
theorem removeLoop_match_not_last (h : Heap) (e : Ref) (pool : List Ref) (i : Nat) (x : Ref)
    (hx : pool[i]? = some x) (heq : h.Equal x e = true)
    (hbefore : ∀ j, j < i → ∃ y, pool[j]? = some y ∧ h.Equal y e = false)
    (hlast : i + 1 < pool.length) :
    removeLoop h e pool.length 0 pool = .fault := by
  have hlen : pool.length = i + ((pool.length - i - 2) + 1 + 1) := by omega
  have hskip := removeLoop_skip h e ((pool.length - i - 2) + 1 + 1) pool i 0
    (fun j _ h2 => hbefore j (by omega))
  rw [← hlen] at hskip
  rw [hskip, removeLoop]
  simp only [Nat.zero_add, hx, heq, if_true]
  apply removeLoop_overrun
  rw [List.length_eraseIdx]
  split <;> omega

theorem DependsSystem.Remove_match_not_last {U : Type} (cb : Ref → World U → Res (World U))
    (w : World U) (e : Ref) (i : Nat) (x : Ref)
    (hx : w.ds.entities[i]? = some x) (heq : w.heap.Equal x e = true)
    (hbefore : ∀ j, j < i → ∃ y, w.ds.entities[j]? = some y ∧ w.heap.Equal y e = false)
    (hlast : i + 1 < w.ds.entities.length) :
    DependsSystem.Remove cb e w = .fault := by
  simp [DependsSystem.Remove, removeLoop_match_not_last w.heap e w.ds.entities i x hx heq hbefore
    hlast, Res.bind]

theorem removeLoop_returns_or_panics (h : Heap) (e : Ref) :
    ∀ (k i : Nat) (pool : List Ref), removeLoop h e k i pool ≠ .outOfFuel := by
  intro k
  induction k with
  | zero => intro i pool; simp [removeLoop]
  | succ k ih =>
    intro i pool
    rw [removeLoop]
    cases pool[i]? with
    | none => simp
    | some x =>
      by_cases heq : h.Equal x e = true
      · simpa [heq] using ih (i + 1) _
      · simpa [heq] using ih (i + 1) _

theorem unlinkLoop_returns_or_panics (h : Heap) (d : Ref) :
    ∀ (k j : Nat) (ds : List Ref), unlinkLoop h d k j ds ≠ .outOfFuel := by
  intro k
  induction k with
  | zero => intro j ds; simp [unlinkLoop]
  | succ k ih =>
    intro j ds
    rw [unlinkLoop]
    cases ds[j]? with
    | none => simp
    | some x =>
      by_cases heq : h.Equal x d = true
      · by_cases hone : ds.length = 1
        · simp [heq, hone]
        · simpa [heq, hone] using ih (j + 1) _
      · simpa [heq] using ih (j + 1) _

/-- The unlink loop of `Remove` panics whenever a slot is nil. -/
theorem unlinkAll_nil_slot (h : Heap) (d : Ref) :
    ∀ (slots : List (Option Ref)) (m : Nat → Option (List Ref)), none ∈ slots →
      unlinkAll h d slots m = .fault := by
  intro slots
  induction slots with
  | nil => intro m hm; simp at hm
  | cons slot slots ih =>
    intro m hm
    cases slot with
    | none => simp [unlinkAll]
    | some t =>
      have hm2 : none ∈ slots := by simpa using hm
      rw [unlinkAll]
      simp only
      cases hloop : unlinkLoop h d ((m (h.ID t)).getD []).length 0 ((m (h.ID t)).getD []) with
      | ok r => simp [Res.bind, ih _ hm2]
      | fault => simp [Res.bind]
      | outOfFuel => exact absurd hloop (unlinkLoop_returns_or_panics h d _ _ _)

theorem DependsSystem.Remove_nil_slot {U : Type} (cb : Ref → World U → Res (World U))
    (w : World U) (e : Ref) (dep : Depends) (hdep : w.depends e = some dep)
    (hnil : none ∈ dep.Entities) : DependsSystem.Remove cb e w = .fault := by
  rw [DependsSystem.Remove]
  cases hloop : removeLoop w.heap e w.ds.entities.length 0 w.ds.entities with
  | ok pool => simp [Res.bind, hdep, unlinkAll_nil_slot _ _ _ _ hnil]
  | fault => simp [Res.bind]
  | outOfFuel => exact absurd hloop (removeLoop_returns_or_panics _ _ _ _ _)

theorem scanPool_no_filters (h : Heap) (d : Ref) (pool : List Ref) :
    ∀ (es : List Nat) (s : Scan), s.returned = false → scanPool h d pool [] es s = .ok s := by
  intro es
  induction es with
  | nil => intro s _; rfl
  | cons e es ih =>
    intro s hs
    have hb : bindSlots h d pool[e]? 0 [] s.Entities s.dependers s.have_ = .ok s := by
      cases s
      simp only [bindSlots]
      simp_all
    simp only [scanPool, List.length_nil, hb, Res.bind, hs]
    simpa using ih s hs

theorem DependsSystem.Add_no_filters {U : Type} (w : World U) (e : Ref) (dep : Depends)
    (hdep : w.depends e = some dep) (hnil : dep.Dependancies = []) :
    ∃ w1, DependsSystem.Add e w = .ok (w1, some Err.ErrUnmetDependancy) := by
  rw [DependsSystem.Add_depender w e dep hdep, hnil, scanPool_no_filters _ _ _ _ _ rfl]
  exact ⟨_, rfl⟩

/-- C3: when `DependsSystem.Add(e)` returns nil for a `Depender` `e`, its
`Entities` list is as long as its `Dependancies` list, and every slot `j` holds
an entity of the pool (the prior pool with `e` appended) that satisfies
`Dependancies[j]`. -/
theorem DependsSystem_Add_full_resolution {U : Type} (w w1 : World U) (e : Ref) (dep : Depends)
    (hv : w.ds.ValidShuffler) (hdep : w.depends e = some dep)
    (hok : DependsSystem.Add e w = .ok (w1, none)) :
    ∃ ents, w1.depends e = some { Dependancies := dep.Dependancies, Entities := ents } ∧
      ents.length = dep.Dependancies.length ∧
      w1.ds.entities = w.ds.entities ++ [e] ∧
      ∀ (j : Nat) (f : Filter), dep.Dependancies[j]? = some f →
        ∃ t, ents[j]? = some (some t) ∧ t ∈ w1.ds.entities ∧ f.Satisfies w1.heap t = true := by
  by_cases hne : dep.Dependancies = []
  · obtain ⟨w2, hw2⟩ := DependsSystem.Add_no_filters w e dep hdep hne
    rw [hw2] at hok
    simp at hok
  · obtain ⟨r, hr, hE, hT, _⟩ := DependsSystem.Add_scan w e dep hv hdep hne
    rw [hr] at hok
    have hret : r.returned = true := by
      by_contra hc
      simp [hc] at hok
    have hw : w1 = addedWorld w e dep r := by
      simp at hok
      exact hok.1.symm
    subst hw
    refine ⟨r.Entities, by simp [addedWorld], by simp [hE], by simp [addedWorld], ?_⟩
    intro j f hj
    have hfull := hT hret
    have hlen : r.Entities.length = dep.Dependancies.length := by simp [hE]
    have hslot : r.Entities[j]? = some (firstMatch w.heap
        ((w.ds.shuffeler w.ds.draws (w.ds.entities ++ [e]).length).filterMap
          fun i => (w.ds.entities ++ [e])[i]?) f) := by
      rw [hE, List.getElem?_map, hj]
      rfl
    obtain ⟨t, ht⟩ := resolved_full r.Entities (by omega) _ (List.mem_iff_getElem?.2 ⟨j, hslot⟩)
    refine ⟨t, by rw [hslot, ht], ?_, ?_⟩
    · have := List.mem_of_find?_eq_some ht
      exact (mem_scanned_iff _ _ (hv w.ds.draws _) t).1 this
    · have := List.find?_some ht
      simpa [addedWorld] using this

/-- C4: for a `Depender` with at least one filter, `DependsSystem.Add` returns
`ErrUnmetDependancy` exactly when some filter is satisfied by no entity of the
pool with `e` appended, and nil otherwise; the permutation plays no part. -/
theorem DependsSystem_Add_unmet_iff {U : Type} (w : World U) (e : Ref) (dep : Depends)
    (hv : w.ds.ValidShuffler) (hdep : w.depends e = some dep) (hne : dep.Dependancies ≠ []) :
    ∃ w1 err, DependsSystem.Add e w = .ok (w1, err) ∧
      (err = some Err.ErrUnmetDependancy ↔
        ∃ f ∈ dep.Dependancies, ∀ x ∈ w.ds.entities ++ [e], f.Satisfies w.heap x = false) ∧
      (err ≠ some Err.ErrUnmetDependancy → err = none) := by
  obtain ⟨r, hr, hE, hT, hF⟩ := DependsSystem.Add_scan w e dep hv hdep hne
  refine ⟨_, _, hr, ?_, ?_⟩
  · constructor
    · intro herr
      have hret : r.returned = false := by
        by_contra hc
        simp at hc
        simp [hc] at herr
      have hlen : r.Entities.length = dep.Dependancies.length := by simp [hE]
      have hnone := resolved_lt r.Entities (by rw [hlen]; exact hF hret)
      rw [hE, List.mem_map] at hnone
      obtain ⟨f, hf, hfm⟩ := hnone
      refine ⟨f, hf, fun x hx => ?_⟩
      have hx2 := (mem_scanned_iff _ _ (hv w.ds.draws _) x).2 hx
      have := List.find?_eq_none.1 hfm x hx2
      simpa using this
    · rintro ⟨f, hf, hall⟩
      have hfm : firstMatch w.heap
          ((w.ds.shuffeler w.ds.draws (w.ds.entities ++ [e]).length).filterMap
            fun i => (w.ds.entities ++ [e])[i]?) f = none := by
        apply List.find?_eq_none.2
        intro x hx
        have := hall x ((mem_scanned_iff _ _ (hv w.ds.draws _) x).1 hx)
        simp [this]
      have hmem : none ∈ r.Entities := by
        rw [hE, List.mem_map]
        exact ⟨f, hf, hfm⟩
      have hret : r.returned = false := by
        by_contra hc
        simp at hc
        obtain ⟨t, ht⟩ := resolved_full r.Entities (by rw [hT hc]; simp [hE]) none hmem
        simp at ht
      simp [hret]
  · intro hn
    by_cases hret : r.returned = true
    · simp [hret]
    · simp [hret] at hn

/-- C6: after `DependsSystem.Add(Y)` returned nil, the reverse index has an
entry under the identifier of every entity bound to a slot of `Y`, and that
entry contains `Y`. -/
theorem DependsSystem_Add_reverse_index {U : Type} (w w1 : World U) (e : Ref)
    (hok : DependsSystem.Add e w = .ok (w1, none)) (dep1 : Depends) (t : Ref)
    (hdep1 : w1.depends e = some dep1) (ht : some t ∈ dep1.Entities) :
    ∃ l, w1.ds.dependers (w1.heap.ID t) = some l ∧ e ∈ l := by
  cases hdep : w.depends e with
  | none =>
    simp [DependsSystem.Add, hdep] at hok
    rw [← hok] at hdep1
    simp [hdep] at hdep1
  | some dep =>
    rw [DependsSystem.Add_depender w e dep hdep, Res.bind_eq_ok] at hok
    obtain ⟨r, hr, hok⟩ := hok
    simp at hok
    obtain ⟨hw, _⟩ := hok
    subst hw
    obtain ⟨_, hl⟩ := scanPool_linked w.heap e _ _ _ _ r hr (Linked_replicate_none _ _ _ _)
    simp [addedWorld] at hdep1
    subst hdep1
    exact hl t ht

theorem DependsSystem.Add_unmet {U : Type} (w : World U) (e : Ref) (dep : Depends)
    (hv : w.ds.ValidShuffler) (hdep : w.depends e = some dep)
    (hunmet : ∃ f ∈ dep.Dependancies, ∀ x ∈ w.ds.entities ++ [e], f.Satisfies w.heap x = false) :
    ∃ r : Scan, DependsSystem.Add e w
        = .ok (addedWorld w e dep r, some Err.ErrUnmetDependancy) ∧ none ∈ r.Entities := by
  obtain ⟨f, hf, hall⟩ := hunmet
  have hne : dep.Dependancies ≠ [] := List.ne_nil_of_mem hf
  obtain ⟨r, hr, hE, hT, _⟩ := DependsSystem.Add_scan w e dep hv hdep hne
  have hfm : firstMatch w.heap
      ((w.ds.shuffeler w.ds.draws (w.ds.entities ++ [e]).length).filterMap
        fun i => (w.ds.entities ++ [e])[i]?) f = none := by
    apply List.find?_eq_none.2
    intro x hx
    have := hall x ((mem_scanned_iff _ _ (hv w.ds.draws _) x).1 hx)
    simp [this]
  have hmem : none ∈ r.Entities := by
    rw [hE, List.mem_map]
    exact ⟨f, hf, hfm⟩
  have hret : r.returned = false := by
    by_contra hc
    simp at hc
    obtain ⟨t, ht⟩ := resolved_full r.Entities (by rw [hT hc]; simp [hE]) none hmem
    simp at ht
  refine ⟨r, ?_, hmem⟩
  rw [hr]
  simp [hret]

/-- Whenever the engine is the only system and refuses an entity that already
has an identifier because one of its filters is unmet, `State.Add` panics in
the roll-back instead of returning the error. -/
theorem State.Add_unmet_panics {U : Type} (w : World U) (e : Ref) (dep : Depends) (p : Int)
    (fuel : Nat) (hid : w.heap.ID e ≠ 0) (hv : w.ds.ValidShuffler)
    (hdep : w.depends e = some dep)
    (hunmet : ∃ f ∈ dep.Dependancies, ∀ x ∈ w.ds.entities ++ [e], f.Satisfies w.heap x = false) :
    State.Add [DependsSystem.toSystem p] fuel e w = .fault := by
  obtain ⟨r, hr, hmem⟩ := DependsSystem.Add_unmet w e dep hv hdep hunmet
  have hrem := DependsSystem.Remove_nil_slot
    (fun x w2 => State.Remove [DependsSystem.toSystem p] fuel x w2) (addedWorld w e dep r) e
    { dep with Entities := r.Entities } (by simp [addedWorld]) hmem
  have hadd : (DependsSystem.toSystem p : System U).Add e w
      = .ok (addedWorld w e dep r, some Err.ErrUnmetDependancy) := hr
  have hrem2 : (DependsSystem.toSystem p : System U).Remove
      (fun x w2 => State.Remove [DependsSystem.toSystem p] fuel x w2) e (addedWorld w e dep r)
      = .fault := hrem
  simp only [State.Add, hid, if_false, State.addLoop, hadd, Res.bind, State.rollback,
    List.getElem?_cons_zero, hrem2]

theorem idShuffler_valid (d : DependsSystem) (hd : d.shuffeler = idShuffler) : d.ValidShuffler := by
  intro k n
  rw [hd]
  exact List.Perm.refl _

/-- C1, evaluated: `entZ` declares a filter that nothing satisfies.  The engine's
`Add` returns `ErrUnmetDependancy` and leaves the slot nil; the roll-back of
`State.Add` then calls the engine's `Remove`, which reads the identifier of that
nil slot and panics, so `State.Add` does not return the error. -/
theorem State_Add_unmet_dependency_panics :
    (∃ w1, DependsSystem.Add entZ demoWorld = .ok (w1, some Err.ErrUnmetDependancy) ∧
      (w1.depends entZ).map Depends.Entities = some [none] ∧
      ∀ fuel, DependsSystem.Remove (demoRemove fuel) entZ w1 = .fault) ∧
    ∀ fuel, State.Add demoState fuel entZ demoWorld = .fault :=
  ⟨⟨_, rfl, rfl, fun _ => rfl⟩, fun _ => rfl⟩

/-- C3 at the scenario `entX` admitted, then `entY` whose filter matches `entX`. -/
theorem DependsSystem_Add_full_resolution_witness :
    ∃ ents, worldXY.depends entY =
        some { Dependancies := [Filter.IDFilter entX], Entities := ents } ∧
      ents.length = [Filter.IDFilter entX].length ∧
      worldXY.ds.entities = worldX.ds.entities ++ [entY] ∧
      ∀ (j : Nat) (f : Filter), [Filter.IDFilter entX][j]? = some f →
        ∃ t, ents[j]? = some (some t) ∧ t ∈ worldXY.ds.entities ∧
          f.Satisfies worldXY.heap t = true :=
  DependsSystem_Add_full_resolution worldX worldXY entY (NewDepends [Filter.IDFilter entX])
    (idShuffler_valid _ rfl) rfl rfl

/-- C4 at `entZ`, whose only filter nothing satisfies. -/
theorem DependsSystem_Add_unmet_iff_witness :
    ∃ w1 err, DependsSystem.Add entZ worldX = .ok (w1, err) ∧
      (err = some Err.ErrUnmetDependancy ↔
        ∃ f ∈ [Filter.NameFilter "missing"], ∀ x ∈ worldX.ds.entities ++ [entZ],
          f.Satisfies worldX.heap x = false) ∧
      (err ≠ some Err.ErrUnmetDependancy → err = none) :=
  DependsSystem_Add_unmet_iff worldX entZ (NewDepends [Filter.NameFilter "missing"])
    (idShuffler_valid _ rfl) rfl (by simp [NewDepends])

/-- C5, evaluated: an entity that is not a `Depender` is admitted, but a
`Depender` without any filter is refused with `ErrUnmetDependancy`, as `entE`
(built with `NewDepends()`) is by the engine and by `State.Add`. -/
theorem DependsSystem_Add_no_dependencies_refused :
    (∀ (w : World Unit) (e : Ref), w.depends e = none →
      ∃ w1, DependsSystem.Add e w = .ok (w1, none)) ∧
    (∀ (w : World Unit) (e : Ref) (dep : Depends), w.depends e = some dep →
      dep.Dependancies = [] →
      ∃ w1, DependsSystem.Add e w = .ok (w1, some Err.ErrUnmetDependancy)) ∧
    (∃ w1, DependsSystem.Add entE demoWorld = .ok (w1, some Err.ErrUnmetDependancy)) ∧
    (∃ w1 tr, State.Add demoState 1 entE demoWorld
      = .ok (w1, some Err.ErrUnmetDependancy, tr)) :=
  ⟨fun w e hdep => ⟨{ w with ds := { w.ds with entities := w.ds.entities ++ [e] } },
      by simp only [DependsSystem.Add, hdep]⟩,
    fun w e dep hdep hnil => DependsSystem.Add_no_filters w e dep hdep hnil,
    ⟨_, rfl⟩, ⟨_, _, rfl⟩⟩

/-- C6 at the scenario: `entX` admitted, `entY` declares one filter matching
`entX` only; `Add(entY)` returns nil, the slot of `entY` is `entX`, and the
reverse-index entry of `entX` lists `entY`. -/
theorem DependsSystem_Add_reverse_index_witness :
    DependsSystem.Add entY worldX = .ok (worldXY, none) ∧
    (worldXY.depends entY).map Depends.Entities = some [some entX] ∧
    ∃ l, worldXY.ds.dependers (worldXY.heap.ID entX) = some l ∧ entY ∈ l :=
  ⟨rfl, rfl,
    DependsSystem_Add_reverse_index worldX worldXY entY rfl
      { Dependancies := [Filter.IDFilter entX], Entities := [some entX] } entX rfl (by simp)⟩

/-- C7, evaluated: `entY` is the only dependent of `entX`.  `Remove(entY)`
returns, yet the reverse index still has the key of `entX`, and its entry still
lists `entY`: the entry deleted inside the loop is stored back after it. -/
theorem DependsSystem_Remove_keeps_link :
    worldXY.ds.dependers (worldXY.heap.ID entX) = some [entY] ∧
    ∀ fuel, ∃ w1, DependsSystem.Remove (demoRemove fuel) entY worldXY = .ok w1 ∧
      w1.ds.entities = [entX] ∧ w1.ds.dependers (w1.heap.ID entX) = some [entY] :=
  ⟨rfl, fun _ => ⟨_, rfl, rfl, rfl⟩⟩

/-- C8, evaluated: `entX` admitted, then `entY` bound to it.  `State.Remove(entX)`
panics in the pool loop of the engine (index 1 of a pool of length 1) instead of
removing both entities. -/
theorem State_Remove_cascade_panics :
    worldXY.ds.entities = [entX, entY] ∧
    worldXY.ds.stateSet = true ∧
    ∀ fuel, State.Remove demoState (fuel + 1) entX worldXY = .fault :=
  ⟨rfl, rfl, fun _ => rfl⟩

/-- C9, evaluated: the pool holds `entX` and `entV`, neither has dependencies or
dependents.  `Remove(entX)` panics (index 1 of a pool of length 1) instead of
leaving the pool `[entV]`; removing the last entity of the pool works. -/
theorem DependsSystem_Remove_not_last_panics :
    worldXV.ds.entities = [entX, entV] ∧
    (∀ fuel, DependsSystem.Remove (demoRemove fuel) entX worldXV = .fault) ∧
    ∀ fuel, ∃ w1, DependsSystem.Remove (demoRemove fuel) entV worldXV = .ok w1 ∧
      w1.ds.entities = [entX] :=
  ⟨rfl, fun _ => rfl, fun _ => ⟨_, rfl, rfl⟩⟩

theorem Filter.allSatisfies_iff (h : Heap) (e : Ref) :
    ∀ fs : List Filter, Filter.allSatisfies h fs e = true ↔ ∀ f ∈ fs, f.Satisfies h e = true := by
  intro fs
  induction fs with
  | nil => simp [Filter.allSatisfies]
  | cons f fs ih =>
    by_cases hf : f.Satisfies h e = true
    · simp [Filter.allSatisfies, hf, ih]
    · simp [Filter.allSatisfies, hf]

/-- C11, evaluated: `AddSystem` appends and sorts, and makes no call of `Init`.
After registering a new engine its `*State` is still nil, so the first cascade
(`entX` removed while the reverse index still lists `entY`) panics, whereas the
same calls return once `Init` has been called by hand. -/
theorem State_AddSystem_skips_Init :
    (State.AddSystemIn sortByPriority [] (DependsSystem.toSystem 0) rawWorld).2.2 = 0 ∧
    (State.AddSystemIn sortByPriority [] (DependsSystem.toSystem 0) rawWorld).2.1.ds.stateSet
      = false ∧
    (∃ w1, State.Remove demoState 2 entY (afterAdd entY (afterAdd entX rawWorld)) = .ok w1 ∧
      ∀ fuel, State.Remove demoState (fuel + 1) entX w1 = .fault) ∧
    ∃ w1 w2, State.Remove demoState 2 entY (afterAdd entY (afterAdd entX demoWorld)) = .ok w1 ∧
      State.Remove demoState 2 entX w1 = .ok w2 ∧ w2.ds.entities = [] :=
  ⟨rfl, rfl, ⟨_, rfl, fun _ => rfl⟩, ⟨_, _, rfl, rfl, rfl⟩⟩

/-- C14: `NewMultiFilter(fs...).Satisfies(e)` is true exactly when every filter
of `fs` is satisfied by `e`; the empty `MultiFilter` satisfies every entity, and
rearranging `fs` does not change the result. -/
theorem MultiFilter_Satisfies_conjunction (h : Heap) (fs : List Filter) (e : Ref) :
    ((NewMultiFilter fs).Satisfies h e = true ↔ ∀ f ∈ fs, f.Satisfies h e = true) ∧
    (NewMultiFilter []).Satisfies h e = true ∧
    ∀ fs2 : List Filter, fs.Perm fs2 →
      (NewMultiFilter fs2).Satisfies h e = (NewMultiFilter fs).Satisfies h e := by
  have key : ∀ l : List Filter, (NewMultiFilter l).Satisfies h e = true ↔
      ∀ f ∈ l, f.Satisfies h e = true := by
    intro l
    simp only [NewMultiFilter, Filter.Satisfies]
    exact Filter.allSatisfies_iff h e l
  refine ⟨key fs, (key []).2 (by simp), ?_⟩
  intro fs2 hperm
  rw [Bool.eq_iff_iff, key fs2, key fs]
  exact ⟨fun hall f hf => hall f (hperm.mem_iff.1 hf), fun hall f hf => hall f (hperm.mem_iff.2 hf)⟩

/-- C15, evaluated: `entX` admitted, `entY` bound to it, then `State.Remove(entY)`.
The call returns and the pool is `[entX]`, yet the identifier of `entX` is still
a key of the reverse index although no entity of the pool holds a slot bound to
`entX`. -/
theorem reverse_index_key_outlives_dependent :
    ∃ w1, State.Remove demoState 2 entY worldXY = .ok w1 ∧
      w1.ds.entities = [entX] ∧
      w1.ds.dependers (w1.heap.ID entX) = some [entY] ∧
      ∀ d ∈ w1.ds.entities, boundTo w1 d entX = false :=
  ⟨_, rfl, rfl, rfl, by decide⟩

/-- C16: after `DependsSystem.Add(e)` every slot `j` of the `Depender` `e` holds
the first entity, in the order the permutation scans the pool, that satisfies
`Dependancies[j]` (nil when there is none), and the same holds after the scan of
every initial part of the permutation: a bound slot keeps its entity, and a
scanned entity is bound to every slot it is the first to satisfy. -/
theorem DependsSystem_Add_first_match {U : Type} (w : World U) (e : Ref) (dep : Depends)
    (hv : w.ds.ValidShuffler) (hdep : w.depends e = some dep) :
    (∃ w1 err, DependsSystem.Add e w = .ok (w1, err) ∧
      w1.depends e =
        some ⟨dep.Dependancies, dep.Dependancies.map (firstMatch w.heap (scanOrder w e))⟩) ∧
    ∀ p1 p2 : List Nat, w.ds.shuffeler w.ds.draws (w.ds.entities ++ [e]).length = p1 ++ p2 →
      ∃ r, scanPool w.heap e (w.ds.entities ++ [e]) dep.Dependancies p1
          { Entities := List.replicate dep.Dependancies.length none,
            dependers := w.ds.dependers, have_ := 0, returned := false } = .ok r ∧
        r.Entities = dep.Dependancies.map
          (firstMatch w.heap (p1.filterMap fun i => (w.ds.entities ++ [e])[i]?)) := by
  by_cases hne : dep.Dependancies = []
  · constructor
    · obtain ⟨w1, hw1⟩ := DependsSystem.Add_no_filters w e dep hdep hne
      rw [DependsSystem.Add_depender w e dep hdep, hne, scanPool_no_filters _ _ _ _ _ rfl]
      exact ⟨_, _, rfl, by simp [addedWorld, hne]⟩
    · intro p1 p2 _
      rw [hne, scanPool_no_filters _ _ _ _ _ rfl]
      exact ⟨_, rfl, by simp⟩
  · constructor
    · obtain ⟨r, hr, hE, _, _⟩ := DependsSystem.Add_scan w e dep hv hdep hne
      exact ⟨_, _, hr, by simp [addedWorld, hE, scanOrder]⟩
    · intro p1 p2 hsplit
      have hperm := hv w.ds.draws (w.ds.entities ++ [e]).length
      obtain ⟨r, hr, hE, _⟩ := scanPool_spec w.heap e (w.ds.entities ++ [e]) dep.Dependancies p1
        { Entities := List.replicate dep.Dependancies.length none,
          dependers := w.ds.dependers, have_ := 0, returned := false } [] rfl
        (by simp [map_firstMatch_nil]) (by simp [resolved_replicate_none])
        (List.length_pos.2 hne)
        (fun i hi => by
          have : i ∈ w.ds.shuffeler w.ds.draws (w.ds.entities ++ [e]).length := by
            rw [hsplit]; exact List.mem_append_left _ hi
          simpa using (hperm.mem_iff.1 this))
      exact ⟨r, hr, by simpa using hE⟩

/-- C16 at the scenario `entX` admitted, then `entY` whose filter matches `entX`. -/
theorem DependsSystem_Add_first_match_witness :
    (∃ w1 err, DependsSystem.Add entY worldX = .ok (w1, err) ∧
      w1.depends entY =
        some ⟨[Filter.IDFilter entX],
          [Filter.IDFilter entX].map (firstMatch worldX.heap (scanOrder worldX entY))⟩) ∧
    ∀ p1 p2 : List Nat,
      worldX.ds.shuffeler worldX.ds.draws (worldX.ds.entities ++ [entY]).length = p1 ++ p2 →
      ∃ r, scanPool worldX.heap entY (worldX.ds.entities ++ [entY]) [Filter.IDFilter entX] p1
          { Entities := List.replicate [Filter.IDFilter entX].length none,
            dependers := worldX.ds.dependers, have_ := 0, returned := false } = .ok r ∧
        r.Entities = [Filter.IDFilter entX].map
          (firstMatch worldX.heap (p1.filterMap fun i => (worldX.ds.entities ++ [entY])[i]?)) :=
  DependsSystem_Add_first_match worldX entY (NewDepends [Filter.IDFilter entX])
    (idShuffler_valid _ rfl) rfl

/-- C17: `DependsSystem.Add(e)` returns nil or `ErrUnmetDependancy`, and in both
cases the pool afterwards is the previous pool with `e` appended; when `e` is
not a `Depender` the reverse index is unchanged. -/
theorem DependsSystem_Add_appends {U : Type} (w : World U) (e : Ref) (hv : w.ds.ValidShuffler) :
    ∃ w1 err, DependsSystem.Add e w = .ok (w1, err) ∧
      (err = none ∨ err = some Err.ErrUnmetDependancy) ∧
      w1.ds.entities = w.ds.entities ++ [e] ∧
      (w.depends e = none → w1.ds.dependers = w.ds.dependers) := by
  cases hdep : w.depends e with
  | none =>
    exact ⟨{ w with ds := { w.ds with entities := w.ds.entities ++ [e] } }, none,
      by simp only [DependsSystem.Add, hdep], Or.inl rfl, rfl, fun _ => rfl⟩
  | some dep =>
    by_cases hne : dep.Dependancies = []
    · rw [DependsSystem.Add_depender w e dep hdep, hne, scanPool_no_filters _ _ _ _ _ rfl]
      exact ⟨_, _, rfl, Or.inr rfl, rfl, fun hc => by simp at hc⟩
    · obtain ⟨r, hr, _⟩ := DependsSystem.Add_scan w e dep hv hdep hne
      refine ⟨_, _, hr, ?_, rfl, fun hc => by simp at hc⟩
      by_cases hret : r.returned = true
      · exact Or.inl (by simp [hret])
      · exact Or.inr (by simp [hret])

/-- C17 at `entZ`, which is refused, added to the pool holding `entX`. -/
theorem DependsSystem_Add_appends_witness :
    ∃ w1 err, DependsSystem.Add entZ worldX = .ok (w1, err) ∧
      (err = none ∨ err = some Err.ErrUnmetDependancy) ∧
      w1.ds.entities = worldX.ds.entities ++ [entZ] ∧
      (worldX.depends entZ = none → w1.ds.dependers = worldX.ds.dependers) :=
  DependsSystem_Add_appends worldX entZ (idShuffler_valid _ rfl)

/-- C18: `entS` carries an `IDFilter` on its own identifier and is admitted into
an empty pool; `Add` returns nil, the slot of `entS` is `entS` itself, and the
reverse-index entry under the identifier of `entS` lists `entS`. -/
theorem DependsSystem_Add_self_match :
    demoWorld2.ds.entities = [] ∧
    ∃ w1, DependsSystem.Add entS demoWorld2 = .ok (w1, none) ∧
      (w1.depends entS).map Depends.Entities = some [some entS] ∧
      w1.ds.dependers (w1.heap.ID entS) = some [entS] :=
  ⟨rfl, _, rfl, rfl, rfl⟩

/-- C20, evaluated: three reachable calls of `DependsSystem.Remove` on an entity
of the pool that fault.  With the pool `[entX, entV]`, `Remove(entX)` indexes
past the end of the pool.  With `entW` bound to `entX` in two slots (entry
`[entW, entW]`), `Remove(entW)` passes the pool loop and indexes past the end of
the entry in the unlink loop.  With `entZ` refused by `Add` and still in the
pool, `Remove(entZ)` reads the identifier of its nil slot. -/
theorem DependsSystem_Remove_faults :
    (worldXV.ds.entities = [entX, entV] ∧
      removeLoop worldXV.heap entX 2 0 worldXV.ds.entities = .fault ∧
      ∀ fuel, DependsSystem.Remove (demoRemove fuel) entX worldXV = .fault) ∧
    (∃ w1, State.Add demoState 1 entW (afterAdd entX demoWorld2) = .ok (w1, none, [Call.Add 0 none]) ∧
      w1.ds.entities = [entX, entW] ∧
      w1.ds.dependers (w1.heap.ID entX) = some [entW, entW] ∧
      removeLoop w1.heap entW 2 0 w1.ds.entities = .ok [entX] ∧
      unlinkLoop w1.heap entW 2 0 [entW, entW] = .fault ∧
      ∀ fuel, DependsSystem.Remove (demoRemove fuel) entW w1 = .fault) ∧
    ∃ w1, DependsSystem.Add entZ demoWorld = .ok (w1, some Err.ErrUnmetDependancy) ∧
      w1.ds.entities = [entZ] ∧
      (w1.depends entZ).map Depends.Entities = some [none] ∧
      ∀ fuel, DependsSystem.Remove (demoRemove fuel) entZ w1 = .fault :=
  ⟨⟨rfl, rfl, fun _ => rfl⟩, ⟨_, rfl, rfl, rfl, rfl, rfl, fun _ => rfl⟩,
    ⟨_, rfl, rfl, rfl, fun _ => rfl⟩⟩

theorem issuedBy_succ (c0 n : Nat) :
    issuedBy c0 (n + 1) = (c0 + 1) % 2 ^ 64 :: issuedBy ((c0 + 1) % 2 ^ 64) n := by
  simp only [issuedBy, List.range_succ_eq_map, List.map_cons, List.map_map]
  congr 1
  apply List.map_congr_left
  intro k _
  simp only [Function.comp, Nat.succ_eq_add_one]
  have h1 : (c0 + 1) % 2 ^ 64 + k + 1 = (c0 + 1) % 2 ^ 64 + (k + 1) := by omega
  have h2 : c0 + (k + 1) + 1 = (c0 + 1) + (k + 1) := by omega
  rw [h1, h2, Nat.mod_add_mod]

/-- The list `issuedBy` is what repeated calls of `NewID` hand out, and the
counter afterwards has advanced by the number of calls, modulo `2^64`. -/
theorem NewID.run_spec {U : Type} :
    ∀ (n : Nat) (w : World U), (NewID.run n w).1 = issuedBy w.idSrc n ∧
      (NewID.run n w).2.idSrc % 2 ^ 64 = (w.idSrc + n) % 2 ^ 64 := by
  intro n
  induction n with
  | zero => intro w; exact ⟨rfl, rfl⟩
  | succ n ih =>
    intro w
    obtain ⟨h1, h2⟩ := ih (NewID w).2
    refine ⟨by simp only [NewID.run, h1, issuedBy_succ]; rfl, ?_⟩
    simp only [NewID.run, h2]
    show ((w.idSrc + 1) % 2 ^ 64 + n) % 2 ^ 64 = (w.idSrc + (n + 1)) % 2 ^ 64
    rw [Nat.mod_add_mod]
    congr 1
    omega

theorem not_mem_issuedBy (n : Nat) (hn : n + 2 < 2 ^ 64) : n + 2 ∉ issuedBy 1 n := by
  simp only [issuedBy, List.mem_map, List.mem_range, not_exists, not_and]
  intro k hk
  rw [Nat.mod_eq_of_lt (by omega)]
  omega

theorem cascade_keeps {U : Type} (cb : Ref → World U → Res (World U))
    (hcb : ∀ x v v1, cb x v = .ok v1 → v1.heap.ID = v.heap.ID) :
    ∀ (xs : List Ref) (w w1 : World U), cascade cb xs w = .ok w1 → w1.heap.ID = w.heap.ID := by
  intro xs
  induction xs with
  | nil => intro w w1 h; simp [cascade] at h; rw [h]
  | cons x xs ih =>
    intro w w1 h
    simp only [cascade, Res.bind_eq_ok] at h
    obtain ⟨v, hv, hrest⟩ := h
    by_cases hset : w.ds.stateSet = true
    · simp only [hset, if_true] at hv
      rw [ih v w1 hrest, hcb x w v hv]
    · simp [hset] at hv

theorem DependsSystem.Add_keeps {U : Type} (e : Ref) (w : World U) (r : World U × Option Err)
    (h : DependsSystem.Add e w = .ok r) : r.1.heap = w.heap ∧ r.1.idSrc = w.idSrc := by
  cases hdep : w.depends e with
  | none =>
    simp only [DependsSystem.Add, hdep] at h
    cases h
    exact ⟨rfl, rfl⟩
  | some dep =>
    rw [DependsSystem.Add_depender w e dep hdep, Res.bind_eq_ok] at h
    obtain ⟨s, _, h⟩ := h
    cases h
    exact ⟨rfl, rfl⟩

theorem DependsSystem.Remove_keepsIDs {U : Type} (cb : Ref → World U → Res (World U))
    (hcb : ∀ x v v1, cb x v = .ok v1 → v1.heap.ID = v.heap.ID) (e : Ref) (w w1 : World U)
    (h : DependsSystem.Remove cb e w = .ok w1) : w1.heap.ID = w.heap.ID := by
  simp only [DependsSystem.Remove, Res.bind_eq_ok] at h
  obtain ⟨pool, _, w2, hw2, h⟩ := h
  have h2 : w2.heap.ID = w.heap.ID := by
    cases hdep : w.depends e with
    | none => simp only [hdep] at hw2; cases hw2; rfl
    | some dep =>
      simp only [hdep, Res.bind_eq_ok] at hw2
      obtain ⟨m, _, hw2⟩ := hw2
      cases hw2; rfl
  cases hkey : w2.ds.dependers (w2.heap.ID e) with
  | none => simp only [hkey] at h; cases h; exact h2
  | some l =>
    simp only [hkey, Res.bind_eq_ok] at h
    obtain ⟨w3, hw3, h⟩ := h
    cases h
    show w3.heap.ID = w.heap.ID
    rw [cascade_keeps cb hcb l w2 w3 hw3, h2]

theorem DependsSystem.toSystem_keepsIDs {U : Type} (p : Int) :
    (DependsSystem.toSystem p : System U).KeepsIDs :=
  ⟨fun e w r h => by rw [(DependsSystem.Add_keeps e w r h).1],
    fun cb e w w1 hcb h => DependsSystem.Remove_keepsIDs cb hcb e w w1 h⟩

theorem State.removeEach_keeps {U : Type} (cb : Ref → World U → Res (World U))
    (hcb : ∀ x v v1, cb x v = .ok v1 → v1.heap.ID = v.heap.ID) (e : Ref) :
    ∀ (l : List (System U)), (∀ sys ∈ l, sys.KeepsIDs) → ∀ (w w1 : World U),
      State.removeEach cb e l w = .ok w1 → w1.heap.ID = w.heap.ID := by
  intro l
  induction l with
  | nil => intro _ w w1 h; simp [State.removeEach] at h; rw [h]
  | cons sys rest ih =>
    intro hl w w1 h
    simp only [State.removeEach, Res.bind_eq_ok] at h
    obtain ⟨v, hv, hrest⟩ := h
    rw [ih (fun x hx => hl x (List.mem_cons_of_mem _ hx)) v w1 hrest,
      (hl sys (by simp)).2 cb e w v hcb hv]

theorem State.Remove_keeps {U : Type} (s : State U) (hs : ∀ sys ∈ s, sys.KeepsIDs) :
    ∀ (fuel : Nat) (e : Ref) (w w1 : World U), State.Remove s fuel e w = .ok w1 →
      w1.heap.ID = w.heap.ID := by
  intro fuel
  induction fuel with
  | zero => intro e w w1 h; simp [State.Remove] at h
  | succ fuel ih =>
    intro e w w1 h
    simp only [State.Remove] at h
    exact State.removeEach_keeps _ (fun x v v1 hx => ih x v v1 hx) e s hs w w1 h

theorem State.rollback_keeps {U : Type} (cb : Ref → World U → Res (World U))
    (hcb : ∀ x v v1, cb x v = .ok v1 → v1.heap.ID = v.heap.ID) (e : Ref) (s : State U)
    (hs : ∀ sys ∈ s, sys.KeepsIDs) :
    ∀ (i : Nat) (w : World U) (tr : List Call) (q : World U × List Call),
      State.rollback cb e s i w tr = .ok q → q.1.heap.ID = w.heap.ID := by
  intro i
  induction i with
  | zero =>
    intro w tr q h
    cases hget : s[0]? with
    | none => simp [State.rollback, hget] at h
    | some sys =>
      simp only [State.rollback, hget, Res.bind_eq_ok] at h
      obtain ⟨v, hv, h⟩ := h
      cases h
      exact (hs sys (List.mem_iff_getElem?.2 ⟨0, hget⟩)).2 cb e w v hcb hv
  | succ i ih =>
    intro w tr q h
    cases hget : s[i + 1]? with
    | none => simp [State.rollback, hget] at h
    | some sys =>
      simp only [State.rollback, hget, Res.bind_eq_ok] at h
      obtain ⟨v, hv, h⟩ := h
      rw [ih v _ q h, (hs sys (List.mem_iff_getElem?.2 ⟨i + 1, hget⟩)).2 cb e w v hcb hv]

theorem State.addLoop_keeps {U : Type} (cb : Ref → World U → Res (World U))
    (hcb : ∀ x v v1, cb x v = .ok v1 → v1.heap.ID = v.heap.ID) (e : Ref) (s : State U)
    (hs : ∀ sys ∈ s, sys.KeepsIDs) :
    ∀ (rest : List (System U)), (∀ sys ∈ rest, sys ∈ s) → ∀ (i : Nat) (w : World U)
      (tr : List Call) (q : World U × Option Err × List Call),
      State.addLoop cb e s rest i w tr = .ok q → q.1.heap.ID = w.heap.ID := by
  intro rest
  induction rest with
  | nil => intro _ i w tr q h; simp [State.addLoop] at h; rw [← h]
  | cons sys rest ih =>
    intro hrest i w tr q h
    simp only [State.addLoop, Res.bind_eq_ok] at h
    obtain ⟨r, hr, h⟩ := h
    have h1 := (hs sys (hrest sys (by simp))).1 e w r hr
    cases herr : r.2 with
    | none =>
      simp only [herr] at h
      rw [ih (fun x hx => hrest x (List.mem_cons_of_mem _ hx)) _ _ _ q h, h1]
    | some err =>
      simp only [herr, Res.bind_eq_ok] at h
      obtain ⟨v, hv, h⟩ := h
      cases h
      show v.1.heap.ID = w.heap.ID
      rw [State.rollback_keeps cb hcb e s hs i r.1 _ v hv, h1]

/-- C12, the counterexample: the counter stands at `2^64 - 1`, as after
`2^64 - 2` calls of `NewID`; `State.Add` of an entity without identifier
returns nil, and the identifier of the entity is still 0. -/
theorem State_Add_identifier_wraps :
    wrapWorld.heap.ID entX = 0 ∧
    (NewID wrapWorld).1 = 0 ∧
    ∃ w1, State.Add demoState 1 entX wrapWorld = .ok (w1, none, [Call.Add 0 none]) ∧
      w1.heap.IsZero entX = true :=
  ⟨rfl, rfl, _, rfl, rfl⟩

/-- C12, amended: let every system of the registry leave identifiers alone and
let `State.Add(e)` return.  If the identifier of `e` was not 0 it is unchanged,
whatever `Add` returned.  If it was 0 and `n` identifiers were issued before
(the counter stands at `n + 1`) with `n + 2 < 2^64`, then afterwards it is
`n + 2`, not 0, and none of the `n` identifiers issued before. -/
theorem State_Add_assigns_identifier {U : Type} (s : State U) (fuel : Nat) (e : Ref)
    (w w1 : World U) (err : Option Err) (tr : List Call)
    (hs : ∀ sys ∈ s, sys.KeepsIDs) (hok : State.Add s fuel e w = .ok (w1, err, tr)) :
    (w.heap.ID e ≠ 0 → w1.heap.ID e = w.heap.ID e) ∧
    (w.heap.ID e = 0 → ∀ n : Nat, n + 2 < 2 ^ 64 → w.idSrc = n + 1 →
      w1.heap.ID e = n + 2 ∧ w1.heap.IsZero e = false ∧ w1.heap.ID e ∉ issuedBy 1 n) := by
  have hcb : ∀ x v v1, State.Remove s fuel x v = .ok v1 → v1.heap.ID = v.heap.ID :=
    fun x v v1 h => State.Remove_keeps s hs fuel x v v1 h
  simp only [State.Add] at hok
  have hkeep := State.addLoop_keeps (fun x w2 => State.Remove s fuel x w2) hcb e s hs s
    (fun _ hx => hx) 0 _ [] _ hok
  simp only at hkeep
  constructor
  · intro hne
    rw [hkeep]
    simp [hne]
  · intro hz n hn hc
    have hid : w1.heap.ID e = n + 2 := by
      rw [hkeep]
      simp only [hz, if_true, NewID, hc]
      rw [Nat.mod_eq_of_lt (by omega)]
    refine ⟨hid, by simp [Heap.IsZero, hid], ?_⟩
    rw [hid]
    exact not_mem_issuedBy n hn

/-- C12, amended, at a new program: the first entity admitted gets identifier 2. -/
theorem State_Add_assigns_identifier_witness :
    (unassignedWorld.heap.ID entX ≠ 0 →
      (afterAdd entX unassignedWorld).heap.ID entX = unassignedWorld.heap.ID entX) ∧
    (unassignedWorld.heap.ID entX = 0 → ∀ n : Nat, n + 2 < 2 ^ 64 →
      unassignedWorld.idSrc = n + 1 →
      (afterAdd entX unassignedWorld).heap.ID entX = n + 2 ∧
      (afterAdd entX unassignedWorld).heap.IsZero entX = false ∧
      (afterAdd entX unassignedWorld).heap.ID entX ∉ issuedBy 1 n) :=
  State_Add_assigns_identifier demoState 1 entX unassignedWorld (afterAdd entX unassignedWorld)
    none [Call.Add 0 none]
    (by
      intro sys hsys
      simp only [demoState, List.mem_singleton] at hsys
      rw [hsys]
      exact DependsSystem.toSystem_keepsIDs 0)
    rfl

theorem State.Add_eq_addLoop {U : Type} (s : State U) (fuel : Nat) (e : Ref) (w : World U) :
    State.Add s fuel e w =
      State.addLoop (fun x w2 => State.Remove s fuel x w2) e s s 0 (State.assignID e w) [] :=
  rfl

theorem exists_first_match (h : Heap) (e : Ref) (pool : List Ref) :
    ∀ (i : Nat) (x : Ref), pool[i]? = some x → h.Equal x e = true →
      ∃ i0 x0, i0 ≤ i ∧ pool[i0]? = some x0 ∧ h.Equal x0 e = true ∧
        ∀ j, j < i0 → ∃ y, pool[j]? = some y ∧ h.Equal y e = false := by
  intro i
  induction i using Nat.strong_induction_on with
  | _ i ih =>
    intro x hx heq
    by_cases hex : ∃ j y, j < i ∧ pool[j]? = some y ∧ h.Equal y e = true
    · obtain ⟨j, y, hj, hy, hye⟩ := hex
      obtain ⟨i0, x0, hle, hx0, he0, hfirst⟩ := ih j hj y hy hye
      exact ⟨i0, x0, by omega, hx0, he0, hfirst⟩
    · refine ⟨i, x, le_refl _, hx, heq, ?_⟩
      intro j hj
      have hlen : i < pool.length := by
        by_contra hc
        rw [List.getElem?_eq_none (by omega)] at hx
        exact absurd hx (by simp)
      refine ⟨pool[j], List.getElem?_eq_getElem (by omega), ?_⟩
      by_contra hc
      exact hex ⟨j, pool[j], hj, List.getElem?_eq_getElem (by omega), by simpa using hc⟩

/-- A key that is absent, or present with an empty entry, before the unlink
loop is absent or empty after it. -/
theorem unlinkAll_fresh_key (h : Heap) (d : Ref) (k : Nat) :
    ∀ (slots : List (Option Ref)) (m m1 : Nat → Option (List Ref)),
      unlinkAll h d slots m = .ok m1 → (m k = none ∨ m k = some []) →
      m1 k = none ∨ m1 k = some [] := by
  intro slots
  induction slots with
  | nil =>
    intro m m1 hm hk
    simp [unlinkAll] at hm
    rw [← hm]
    exact hk
  | cons slot slots ih =>
    intro m m1 hm hk
    cases slot with
    | none => simp [unlinkAll] at hm
    | some t =>
      rw [unlinkAll] at hm
      simp only [Res.bind_eq_ok] at hm
      obtain ⟨r, hr, hm⟩ := hm
      apply ih _ m1 hm
      by_cases hkey : k = h.ID t
      · subst hkey
        have hnil : (m (h.ID t)).getD [] = [] := by
          rcases hk with h1 | h1 <;> simp [h1]
        rw [hnil] at hr
        simp [unlinkLoop] at hr
        right
        simp [mapSet, ← hr]
      · by_cases hdel : r.2 = true
        · simpa [mapSet, mapDelete, hkey, hdel] using hk
        · simpa [mapSet, mapDelete, hkey, hdel] using hk

theorem State.Update_eq_foldl {U : Type} (u : Nat) :
    ∀ (s : State U) (w : World U),
      State.Update u s w = s.foldl (fun v sys => sys.Update u v) w := by
  intro s
  induction s with
  | nil => intro w; rfl
  | cons sys rest ih => intro w; simp [State.Update, ih]

theorem State.removeEach_singleton {U : Type} (cb : Ref → World U → Res (World U)) (e : Ref)
    (sys : System U) (w : World U) :
    State.removeEach cb e [sys] w = sys.Remove cb e w := by
  simp only [State.removeEach]
  cases sys.Remove cb e w <;> rfl

/-- The roll-back loop entered at position `i` is the chain of `Remove` calls on
the systems `i, i-1, ..., 0`, each on the world the previous one left. -/
theorem State.rollback_eq {U : Type} (cb : Ref → World U → Res (World U)) (e : Ref)
    (s : State U) :
    ∀ (i : Nat) (w : World U) (tr : List Call), i < s.length →
      State.rollback cb e s i w tr =
        (State.removeEach cb e (s.take (i + 1)).reverse w).bind fun w1 =>
          .ok (w1, tr ++ (List.range (i + 1)).reverse.map Call.Remove) := by
  intro i
  induction i with
  | zero =>
    intro w tr hi
    have hget : s[0]? = some s[0] := List.getElem?_eq_getElem hi
    have htake : s.take 1 = [s[0]] := by
      cases s with
      | nil => simp at hi
      | cons a l => simp
    simp only [State.rollback, hget, Nat.zero_add, htake, List.reverse_singleton,
      State.removeEach_singleton]
    cases s[0].Remove cb e w <;> simp [Res.bind, List.range_succ]
  | succ i ih =>
    intro w tr hi
    have hget : s[i + 1]? = some s[i + 1] := List.getElem?_eq_getElem hi
    have htake : (s.take (i + 1 + 1)).reverse = s[i + 1] :: (s.take (i + 1)).reverse := by
      rw [List.take_succ, hget]
      simp
    simp only [State.rollback, hget, htake, State.removeEach]
    cases s[i + 1].Remove cb e w with
    | ok w1 =>
      show State.rollback cb e s i w1 (tr ++ [Call.Remove (i + 1)]) =
        (State.removeEach cb e (s.take (i + 1)).reverse w1).bind _
      have hr : (List.range (i + 1 + 1)).reverse.map Call.Remove =
          Call.Remove (i + 1) :: (List.range (i + 1)).reverse.map Call.Remove := by
        rw [List.range_succ (i + 1)]
        simp
      rw [ih w1 _ (by omega), hr]
      simp only [List.append_assoc, List.singleton_append]
    | fault => rfl
    | outOfFuel => rfl

theorem State.addLoop_all {U : Type} (cb : Ref → World U → Res (World U)) (e : Ref)
    (s : State U) :
    ∀ (rest : List (System U)) (i : Nat) (w w1 : World U) (tr : List Call),
      State.addAll e rest w = some w1 →
      State.addLoop cb e s rest i w tr =
        .ok (w1, none, tr ++ (List.range' i rest.length).map fun k => Call.Add k none) := by
  intro rest
  induction rest with
  | nil =>
    intro i w w1 tr h
    simp only [State.addAll, Option.some.injEq] at h
    simp [State.addLoop, h]
  | cons sys rest ih =>
    intro i w w1 tr h
    simp only [State.addAll] at h
    cases hadd : sys.Add e w with
    | ok r =>
      obtain ⟨v, err⟩ := r
      cases err with
      | none =>
        rw [hadd] at h
        rw [State.addLoop, hadd]
        show State.addLoop cb e s rest (i + 1) v (tr ++ [Call.Add i none]) = _
        rw [ih (i + 1) v w1 _ h]
        simp [List.range'_succ]
      | some x => rw [hadd] at h; simp at h
    | fault => rw [hadd] at h; simp at h
    | outOfFuel => rw [hadd] at h; simp at h

theorem State.addLoop_first_error {U : Type} (cb : Ref → World U → Res (World U)) (e : Ref)
    (s : State U) :
    ∀ (pre : List (System U)) (sys : System U) (post : List (System U)) (i : Nat)
      (w w1 w2 : World U) (err : Err) (tr : List Call),
      State.addAll e pre w = some w1 → sys.Add e w1 = .ok (w2, some err) →
      State.addLoop cb e s (pre ++ sys :: post) i w tr =
        (State.rollback cb e s (i + pre.length) w2
          (tr ++ ((List.range' i pre.length).map fun k => Call.Add k none) ++
            [Call.Add (i + pre.length) (some err)])).bind fun q => .ok (q.1, some err, q.2) := by
  intro pre
  induction pre with
  | nil =>
    intro sys post i w w1 w2 err tr h hadd
    simp only [State.addAll, Option.some.injEq] at h
    subst h
    simp [State.addLoop, hadd, Res.bind]
  | cons sys0 pre ih =>
    intro sys post i w w1 w2 err tr h hadd
    simp only [State.addAll] at h
    cases hadd0 : sys0.Add e w with
    | ok r =>
      obtain ⟨v, err0⟩ := r
      cases err0 with
      | none =>
        rw [hadd0] at h
        rw [List.cons_append, State.addLoop, hadd0]
        show State.addLoop cb e s (pre ++ sys :: post) (i + 1) v (tr ++ [Call.Add i none]) = _
        rw [ih sys post (i + 1) v w1 w2 err _ h hadd]
        have hi : i + 1 + pre.length = i + (sys0 :: pre).length := by simp; omega
        rw [hi]
        simp [List.range'_succ]
      | some x => rw [hadd0] at h; simp at h
    | fault => rw [hadd0] at h; simp at h
    | outOfFuel => rw [hadd0] at h; simp at h

/-- Every returning run of the loop of `State.Add` is of one of two kinds: each
system returned nil from `Add`, or a first system returned an error and the
roll-back loop entered at its position returned. -/
theorem State.addLoop_ok_cases {U : Type} (cb : Ref → World U → Res (World U)) (e : Ref)
    (s : State U) :
    ∀ (rest : List (System U)) (i : Nat) (w w3 : World U) (err : Option Err)
      (tr tr3 : List Call), State.addLoop cb e s rest i w tr = .ok (w3, err, tr3) →
      (err = none ∧ State.addAll e rest w = some w3) ∨
      ∃ pre sys post w1 w2 x tr2, rest = pre ++ sys :: post ∧
        State.addAll e pre w = some w1 ∧ sys.Add e w1 = .ok (w2, some x) ∧ err = some x ∧
        State.rollback cb e s (i + pre.length) w2 tr2 = .ok (w3, tr3) := by
  intro rest
  induction rest with
  | nil =>
    intro i w w3 err tr tr3 h
    simp [State.addLoop] at h
    exact Or.inl ⟨h.2.1.symm, by simp [State.addAll, h.1]⟩
  | cons sys rest ih =>
    intro i w w3 err tr tr3 h
    simp only [State.addLoop, Res.bind_eq_ok] at h
    obtain ⟨r, hr, h⟩ := h
    obtain ⟨v, err0⟩ := r
    cases err0 with
    | none =>
      rcases ih (i + 1) v w3 err _ tr3 h with ⟨h1, h2⟩ | ⟨pre, sys1, post, w1, w2, x, tr2, h1, h2, h3, h4, h5⟩
      · exact Or.inl ⟨h1, by simp [State.addAll, hr, h2]⟩
      · refine Or.inr ⟨sys :: pre, sys1, post, w1, w2, x, tr2, by simp [h1],
          by simp [State.addAll, hr, h2], h3, h4, ?_⟩
        have hi : i + (sys :: pre).length = i + 1 + pre.length := by simp; omega
        rw [hi]
        exact h5
    | some x =>
      simp only [Res.bind_eq_ok] at h
      obtain ⟨q, hq, h⟩ := h
      simp at h
      obtain ⟨h1, h2, h3⟩ := h
      refine Or.inr ⟨[], sys, rest, w, v, x, tr ++ [Call.Add i (some x)], rfl, rfl, hr,
        h2.symm, ?_⟩
      rw [← h1, ← h3]
      exact hq

/-- C2, the counterexample: the registry holds a system that admits everything
and, after it, the dependency engine; `entZ` declares a filter that nothing
satisfies.  The first system whose `Add` returns an error is the engine, at
position 1, with `ErrUnmetDependancy`; the roll-back then calls the engine's
`Remove`, which panics on the nil slot, so `State.Add` does not return that
error: it does not return at all. -/
theorem State_Add_rollback_panics :
    (∃ w1 w2, (plainSystem none none).Add entZ demoWorld = .ok (w1, none) ∧
      (DependsSystem.toSystem 0 : System Unit).Add entZ w1
        = .ok (w2, some Err.ErrUnmetDependancy) ∧
      ∀ cb, (DependsSystem.toSystem 0 : System Unit).Remove cb entZ w2 = .fault) ∧
    ∀ fuel, State.Add [plainSystem none none, DependsSystem.toSystem 0] fuel entZ demoWorld
      = .fault :=
  ⟨⟨_, _, rfl, rfl, fun _ => rfl⟩, fun _ => rfl⟩

/-- C2, amended: the calls `State.Add` makes, read off the worlds they leave.
If `Add` returns nil on every system, each call starting in the world the
previous one left, `State.Add` returns nil and that last world.  If `Add`
returns nil on the systems before position `i` and an error on the system at
position `i`, and the `Remove` calls on the systems `i, i-1, ..., 0`, made in
that order from the world the failing `Add` left, all return, then `State.Add`
returns that error and the world the last `Remove` left; the systems after
position `i` are arbitrary and take no part.  Every returning run of
`State.Add` is of one of these two kinds. -/
theorem State_Add_rollback_order {U : Type} (s : State U) (fuel : Nat) (e : Ref) (w : World U) :
    (∀ w1, State.addAll e s (State.assignID e w) = some w1 →
      State.Add s fuel e w =
        .ok (w1, none, (List.range s.length).map fun k => Call.Add k none)) ∧
    (∀ (pre : List (System U)) (sys : System U) (post : List (System U)) (w1 w2 w3 : World U)
      (err : Err), s = pre ++ sys :: post →
      State.addAll e pre (State.assignID e w) = some w1 →
      sys.Add e w1 = .ok (w2, some err) →
      State.removeEach (fun x v => State.Remove s fuel x v) e (sys :: pre.reverse) w2 = .ok w3 →
      State.Add s fuel e w =
        .ok (w3, some err,
          ((List.range pre.length).map fun k => Call.Add k none) ++
            [Call.Add pre.length (some err)] ++
            (List.range (pre.length + 1)).reverse.map Call.Remove)) ∧
    ∀ (w3 : World U) (err : Option Err) (tr : List Call),
      State.Add s fuel e w = .ok (w3, err, tr) →
      (err = none ∧ State.addAll e s (State.assignID e w) = some w3) ∨
      ∃ pre sys post w1 w2 x, s = pre ++ sys :: post ∧
        State.addAll e pre (State.assignID e w) = some w1 ∧
        sys.Add e w1 = .ok (w2, some x) ∧ err = some x ∧
        State.removeEach (fun x v => State.Remove s fuel x v) e (sys :: pre.reverse) w2
          = .ok w3 := by
  have htake : ∀ (pre : List (System U)) (sys : System U) (post : List (System U)),
      ((pre ++ sys :: post).take (pre.length + 1)).reverse = sys :: pre.reverse := by
    intro pre sys post
    have h1 : pre ++ sys :: post = (pre ++ [sys]) ++ post := by simp
    rw [h1, List.take_left' (by simp)]
    simp
  refine ⟨?_, ?_, ?_⟩
  · intro w1 h
    rw [State.Add_eq_addLoop, State.addLoop_all _ e s s 0 _ w1 [] h]
    simp [List.range_eq_range']
  · intro pre sys post w1 w2 w3 err hs h hadd hrem
    subst hs
    rw [State.Add_eq_addLoop,
      State.addLoop_first_error _ e (pre ++ sys :: post) pre sys post 0
        (State.assignID e w) w1 w2 err [] h hadd,
      State.rollback_eq _ e (pre ++ sys :: post) (0 + pre.length) w2 _ (by simp)]
    simp only [Nat.zero_add]
    rw [htake pre sys post, hrem]
    simp [Res.bind, List.range_eq_range']
  · intro w3 err tr h
    rw [State.Add_eq_addLoop] at h
    rcases State.addLoop_ok_cases _ e s s 0 _ w3 err [] tr h with h1 |
      ⟨pre, sys, post, w1, w2, x, tr2, h1, h2, h3, h4, h5⟩
    · exact Or.inl h1
    · refine Or.inr ⟨pre, sys, post, w1, w2, x, h1, h2, h3, h4, ?_⟩
      subst h1
      rw [State.rollback_eq _ e (pre ++ sys :: post) (0 + pre.length) w2 _ (by simp),
        Res.bind_eq_ok] at h5
      obtain ⟨v, hv, h5⟩ := h5
      simp only [Nat.zero_add] at hv
      rw [htake pre sys post] at hv
      simp at h5
      rw [← h5.1]
      exact hv

/-- C2, amended, at a registry of three systems: the dependency engine, a
system that refuses the entity, and a third system.  The engine admits `entX`
into its pool, the second system returns its error, and the roll-back calls
`Remove` on the second system and then on the engine, which takes `entX` out
of the pool again; the third system is never called. -/
theorem State_Add_rollback_order_witness :
    ∃ w1 w3, (DependsSystem.toSystem 0 : System Unit).Add entX demoWorld = .ok (w1, none) ∧
      w1.ds.entities = [entX] ∧
      State.Add [DependsSystem.toSystem 0, plainSystem none (some (Err.other 7)),
          plainSystem none none] 1 entX demoWorld =
        .ok (w3, some (Err.other 7),
          [Call.Add 0 none, Call.Add 1 (some (Err.other 7)), Call.Remove 1, Call.Remove 0]) ∧
      w3.ds.entities = [] :=
  ⟨_, _, rfl, rfl,
    (State_Add_rollback_order
      [DependsSystem.toSystem 0, plainSystem none (some (Err.other 7)), plainSystem none none]
      1 entX demoWorld).2.1 [DependsSystem.toSystem 0] (plainSystem none (some (Err.other 7)))
      [plainSystem none none] _ _ _ (Err.other 7) rfl rfl rfl rfl,
    rfl⟩

/-- C10, evaluated: `State.Less` calls `p.Priority()`, and neither the interface
`Prioritizer` nor `*DependsSystem` has a method of that name (both have
`GetPriority() int`): the function is rejected by the compiler, so `Less` has no
value for any registry and `sort.Sort` in `AddSystem` has nothing to order the
systems by.  Only with the call read as `p.GetPriority()` does the claimed order
arise: then, for every sorting function that keeps the promise of `sort.Sort`,
the registry after any sequence of `AddSystem` calls is a rearrangement of the
registered systems in non-decreasing priority order, registering `A`
(priority 1) then `B` (priority 0) leaves the registry `[B, A]`, `Update` calls
`Update` of each system in registry order, and two logging systems registered
in the order 1, 0 are updated in the order 0, 1. -/
theorem State_Less_calls_undeclared_method :
    State.Less.called ∉ Prioritizer.methods.map Prod.fst ∧
    State.Less.called ∉ DependsSystem.methods.map Prod.fst ∧
    ("GetPriority", "", "int") ∈ Prioritizer.methods ∧
    ("GetPriority", "", "int") ∈ DependsSystem.methods ∧
    (∀ (s : State (List Nat)) (i j : Nat), State.Less s i j = none) ∧
    (∀ sortFn : State (List Nat) → State (List Nat), SortContract sortFn →
      (∀ systems : List (System (List Nat)),
        (State.register sortFn [] systems).Pairwise (fun a b => a.priority ≤ b.priority) ∧
        (State.register sortFn [] systems).Perm systems) ∧
      ∀ A B : System (List Nat), A.priority = 1 → B.priority = 0 →
        State.register sortFn [] [A, B] = [B, A]) ∧
    (∀ (u : Nat) (s : State (List Nat)) (w : World (List Nat)),
      State.Update u s w = s.foldl (fun v sys => sys.Update u v) w) ∧
    (State.register sortByPriority [] [DependsSystem.toSystem 1, logSystem none 0]).map
      System.priority = [0, 1] ∧
    (State.Update 0 (State.register sortByPriority [] [logSystem (some 1) 1, logSystem none 0])
      logWorld).ext = [0, 1] := by
  refine ⟨by decide, by decide, by decide, by decide, fun _ _ _ => rfl, ?_,
    fun u s w => State.Update_eq_foldl u s w, rfl, rfl⟩
  intro sortFn hc
  exact ⟨fun systems => ⟨State.register_sorted hc systems, State.register_perm hc systems⟩,
    fun A B hA hB => sorted_pair A B _ hA hB (State.register_perm hc [A, B])
      (State.register_sorted hc [A, B])⟩

/-- C19, evaluated: `entX`, `entY` and `entC` are admitted in this order, every
`State.Add` returning nil; `entY` is bound to `entX` and `entC` to `entY`, no
entity is bound to itself, and the longest dependency chain rooted at `entX`
has length 2.  `State.Remove(entX)` does not terminate normally: it panics in
the pool loop of the engine (index 2 of a pool of length 2), before the cascade
loop is reached, so no nested `State.Remove` call is ever made and `entY`,
`entC` stay in the pool.  `State.Remove(entY)` panics in the same way; only
removing the entities in the reverse order of admission returns. -/
theorem State_Remove_chain_panics :
    (∃ w1 w2, State.Add demoState 1 entX chainWorld = .ok (w1, none, [Call.Add 0 none]) ∧
      State.Add demoState 1 entY w1 = .ok (w2, none, [Call.Add 0 none]) ∧
      State.Add demoState 1 entC w2 = .ok (chainXYC, none, [Call.Add 0 none])) ∧
    chainXYC.ds.entities = [entX, entY, entC] ∧
    (∀ d ∈ chainXYC.ds.entities, boundTo chainXYC d d = false) ∧
    boundTo chainXYC entY entX = true ∧ boundTo chainXYC entC entY = true ∧
    chainXYC.ds.dependers (chainXYC.heap.ID entX) = some [entY] ∧
    chainXYC.ds.dependers (chainXYC.heap.ID entY) = some [entC] ∧
    removeLoop chainXYC.heap entX 3 0 chainXYC.ds.entities = .fault ∧
    (∀ fuel, State.Remove demoState (fuel + 1) entX chainXYC = .fault) ∧
    (∀ fuel, State.Remove demoState (fuel + 1) entY chainXYC = .fault) ∧
    ∃ w1 w2 w3, State.Remove demoState 2 entC chainXYC = .ok w1 ∧
      State.Remove demoState 2 entY w1 = .ok w2 ∧
      State.Remove demoState 2 entX w2 = .ok w3 ∧ w3.ds.entities = [] :=
  ⟨⟨_, _, rfl, rfl, rfl⟩, rfl, by decide, rfl, rfl, rfl, rfl, rfl, fun _ => rfl, fun _ => rfl,
    ⟨_, _, _, rfl, rfl, rfl, rfl⟩⟩

theorem mapSet_if_mapDelete (m : Nat → Option (List Ref)) (k : Nat) (v : List Ref) (b : Bool) :
    mapSet (if b = true then mapDelete m k else m) k v = mapSet m k v := by
  funext k'
  by_cases hk : k' = k <;> cases b <;> simp [mapSet, mapDelete, hk]

theorem mapSet_same (m : Nat → Option (List Ref)) (k : Nat) (v : List Ref)
    (h : m k = some v) : mapSet m k v = m := by
  funext k'
  by_cases hk : k' = k
  · simp [mapSet, hk, h]
  · simp [mapSet, hk]

theorem mapDelete_absent (m : Nat → Option (List Ref)) (k : Nat) (h : m k = none) :
    mapDelete m k = m := by
  funext k'
  by_cases hk : k' = k
  · simp [mapDelete, hk, h]
  · simp [mapDelete, hk]

theorem Stable.sublist (h : Heap) (e : Ref) (l l1 : List Ref) (hs : Stable h e l)
    (hsub : l1.Sublist l) : Stable h e l1 := by
  rcases hs with hno | ⟨x, rfl, hx⟩
  · exact Or.inl fun y hy => hno y (hsub.subset hy)
  · cases l1 with
    | nil => exact Or.inl (by simp)
    | cons a l2 =>
      have hlen := hsub.length_le
      cases l2 with
      | nil =>
        have : a ∈ [x] := hsub.subset (by simp)
        simp at this
        subst this
        exact Or.inr ⟨a, rfl, hx⟩
      | cons b l3 => simp at hlen

/-- The pool loop returns in two cases only: no entity of the pool equals `e`
and the pool is left as it is, or the only entity equal to `e` is the last one
and it is cut off. -/
theorem removeLoop_ok_cases (h : Heap) (e : Ref) (pool pool1 : List Ref)
    (hok : removeLoop h e pool.length 0 pool = .ok pool1) :
    (pool1 = pool ∧ ∀ x ∈ pool, h.Equal x e = false) ∨
    ∃ z, pool = pool1 ++ [z] ∧ h.Equal z e = true ∧ ∀ x ∈ pool1, h.Equal x e = false := by
  by_cases hex : ∃ (i : Nat) (x : Ref), pool[i]? = some x ∧ h.Equal x e = true
  · obtain ⟨i, x, hx, hxe⟩ := hex
    obtain ⟨i0, x0, _, hx0, he0, hfirst⟩ := exists_first_match h e pool i x hx hxe
    have hlen : i0 < pool.length := by
      by_contra hc
      rw [List.getElem?_eq_none (by omega)] at hx0
      exact absurd hx0 (by simp)
    by_cases hlast : i0 + 1 < pool.length
    · rw [removeLoop_match_not_last h e pool i0 x0 hx0 he0 hfirst hlast] at hok
      exact absurd hok (by simp)
    · right
      have hi0 : pool.length = i0 + 1 := by omega
      have hskip := removeLoop_skip h e 1 pool i0 0 (fun j _ h2 => hfirst j (by omega))
      rw [← hi0] at hskip
      rw [hskip] at hok
      simp only [removeLoop, Nat.zero_add, hx0, he0, if_true, Res.ok.injEq] at hok
      have hsplit : pool = pool.take i0 ++ [x0] := by
        have h1 : pool = pool.take i0 ++ pool.drop i0 := (List.take_append_drop i0 pool).symm
        have h2 : pool.drop i0 = [x0] := by
          rw [List.drop_eq_getElem_cons hlen]
          have h3 : pool[i0] = x0 := by
            rw [List.getElem?_eq_getElem hlen] at hx0
            exact Option.some.inj hx0
          rw [h3, List.drop_eq_nil_of_le (by omega)]
        rw [h2] at h1
        exact h1
      have herase : pool.eraseIdx i0 = pool.take i0 := by
        rw [List.eraseIdx_eq_take_drop_succ, List.drop_eq_nil_of_le (by omega)]
        simp
      rw [herase] at hok
      subst hok
      refine ⟨x0, hsplit, he0, ?_⟩
      intro y hy
      obtain ⟨j, hj⟩ := List.mem_iff_getElem?.1 hy
      have hjlt : j < i0 := by
        by_contra hc
        rw [List.getElem?_take_eq_none (by omega)] at hj
        exact absurd hj (by simp)
      rw [List.getElem?_take_of_lt hjlt] at hj
      obtain ⟨y2, hy2, hne⟩ := hfirst j hjlt
      rw [hj] at hy2
      cases hy2
      exact hne
  · left
    have hno : ∀ x ∈ pool, h.Equal x e = false := by
      intro x hx
      obtain ⟨i, hi⟩ := List.mem_iff_getElem?.1 hx
      by_contra hc
      exact hex ⟨i, x, hi, by simpa using hc⟩
    have hskip := removeLoop_skip h e 0 pool pool.length 0 (fun j _ h2 => by
      have hj : j < pool.length := by omega
      exact ⟨pool[j], List.getElem?_eq_getElem hj, hno _ (List.getElem_mem _)⟩)
    simp only [Nat.add_zero, Nat.zero_add] at hskip
    rw [hskip] at hok
    simp only [removeLoop, Res.ok.injEq] at hok
    exact ⟨hok.symm, hno⟩

theorem removeLoop_no_match (h : Heap) (e : Ref) (pool : List Ref)
    (hno : ∀ x ∈ pool, h.Equal x e = false) :
    removeLoop h e pool.length 0 pool = .ok pool := by
  have hskip := removeLoop_skip h e 0 pool pool.length 0 (fun j _ h2 => by
    have hj : j < pool.length := by omega
    exact ⟨pool[j], List.getElem?_eq_getElem hj, hno _ (List.getElem_mem _)⟩)
  simp only [Nat.add_zero, Nat.zero_add] at hskip
  rw [hskip]
  rfl

theorem unlinkLoop_skip (h : Heap) (d : Ref) (n : Nat) (ds : List Ref) :
    ∀ (k i : Nat), (∀ j, i ≤ j → j < i + k → ∃ x, ds[j]? = some x ∧ h.Equal x d = false) →
      unlinkLoop h d (k + n) i ds = unlinkLoop h d n (i + k) ds := by
  intro k
  induction k with
  | zero => intro i _; simp
  | succ k ih =>
    intro i hno
    obtain ⟨x, hx, hne⟩ := hno i (le_refl _) (by omega)
    have hk : k + 1 + n = (k + n) + 1 := by omega
    rw [hk, unlinkLoop]
    simp only [hx, hne, Bool.false_eq_true, if_false]
    rw [ih (i + 1) (fun j h1 h2 => hno j (by omega) (by omega))]
    congr 1
    omega

theorem unlinkLoop_overrun (h : Heap) (d : Ref) :
    ∀ (k i : Nat) (ds : List Ref), 1 ≤ i → ds.length < i + (k + 1) →
      unlinkLoop h d (k + 1) i ds = .fault := by
  intro k
  induction k with
  | zero =>
    intro i ds _ hlen
    have hnone : ds[i]? = none := List.getElem?_eq_none (by omega)
    simp [unlinkLoop, hnone]
  | succ k ih =>
    intro i ds hi hlen
    cases hget : ds[i]? with
    | none => simp [unlinkLoop, hget]
    | some x =>
      have hilt : i < ds.length := by
        by_contra hc
        rw [List.getElem?_eq_none (by omega)] at hget
        exact absurd hget (by simp)
      have hle : (ds.eraseIdx i).length ≤ ds.length := by
        rw [List.length_eraseIdx]
        split <;> omega
      have hone : ds.length ≠ 1 := by omega
      by_cases heq : h.Equal x d = true
      · rw [unlinkLoop]
        simp only [hget, heq, if_true, hone, if_false]
        exact ih (i + 1) _ (by omega) (by omega)
      · rw [unlinkLoop]
        simp only [hget, heq, if_false, Bool.false_eq_true]
        exact ih (i + 1) _ (by omega) (by omega)

theorem unlinkLoop_no_match (h : Heap) (d : Ref) (l : List Ref)
    (hno : ∀ x ∈ l, h.Equal x d = false) :
    unlinkLoop h d l.length 0 l = .ok (l, false) := by
  have hskip := unlinkLoop_skip h d 0 l l.length 0 (fun j _ h2 => by
    have hj : j < l.length := by omega
    exact ⟨l[j], List.getElem?_eq_getElem hj, hno _ (List.getElem_mem _)⟩)
  simp only [Nat.add_zero, Nat.zero_add] at hskip
  rw [hskip]
  rfl

/-- A stable entry is stored back as it was found. -/
theorem unlinkLoop_stable (h : Heap) (d : Ref) (l : List Ref) (hs : Stable h d l) :
    ∃ b, unlinkLoop h d l.length 0 l = .ok (l, b) := by
  rcases hs with hno | ⟨x, rfl, hx⟩
  · exact ⟨false, unlinkLoop_no_match h d l hno⟩
  · exact ⟨true, by simp [unlinkLoop, hx]⟩

/-- What the inner unlink loop returns when it returns: a stable entry that is
the given one, or the given one without its last element. -/
theorem unlinkLoop_ok_spec (h : Heap) (d : Ref) (l l1 : List Ref) (b : Bool)
    (hok : unlinkLoop h d l.length 0 l = .ok (l1, b)) :
    Stable h d l1 ∧ l1.Sublist l ∧ (∀ y ∈ l, h.Equal y d = false → y ∈ l1) ∧
      (Stable h d l → l1 = l) := by
  by_cases hex : ∃ (i : Nat) (x : Ref), l[i]? = some x ∧ h.Equal x d = true
  · obtain ⟨i, x, hx, hxe⟩ := hex
    obtain ⟨i0, x0, _, hx0, he0, hfirst⟩ := exists_first_match h d l i x hx hxe
    have hlen : i0 < l.length := by
      by_contra hc
      rw [List.getElem?_eq_none (by omega)] at hx0
      exact absurd hx0 (by simp)
    have hx0mem : x0 ∈ l := List.mem_iff_getElem?.2 ⟨i0, hx0⟩
    by_cases hone : l.length = 1
    · have hi0 : i0 = 0 := by omega
      subst hi0
      have hl : l = [x0] := by
        match l, hone, hx0 with
        | [a], _, hx0 => simp at hx0; rw [hx0]
      subst hl
      simp only [List.length_singleton, unlinkLoop, List.getElem?_cons_zero, he0, if_true,
        Res.ok.injEq, Prod.mk.injEq] at hok
      obtain ⟨hl1, _⟩ := hok
      subst hl1
      exact ⟨Or.inr ⟨x0, rfl, he0⟩, List.Sublist.refl _, fun y hy _ => hy, fun _ => rfl⟩
    · have hskip := unlinkLoop_skip h d (l.length - i0) l i0 0
        (fun j _ h2 => hfirst j (by omega))
      have hl2 : i0 + (l.length - i0) = l.length := by omega
      rw [hl2] at hskip
      rw [hskip] at hok
      by_cases hlast : i0 + 1 < l.length
      · have hk : l.length - i0 = (l.length - i0 - 2) + 1 + 1 := by omega
        rw [hk, unlinkLoop] at hok
        simp only [Nat.zero_add, hx0, he0, if_true, hone, if_false] at hok
        rw [unlinkLoop_overrun h d _ _ _ (by omega) (by
          rw [List.length_eraseIdx]
          split <;> omega)] at hok
        exact absurd hok (by simp)
      · have hk : l.length - i0 = 0 + 1 := by omega
        rw [hk, unlinkLoop] at hok
        simp only [Nat.zero_add, hx0, he0, if_true, hone, if_false, unlinkLoop, Res.ok.injEq,
          Prod.mk.injEq] at hok
        obtain ⟨hl1, _⟩ := hok
        have herase : l.eraseIdx i0 = l.take i0 := by
          rw [List.eraseIdx_eq_take_drop_succ, List.drop_eq_nil_of_le (by omega)]
          simp
        rw [herase] at hl1
        subst hl1
        have hsplit : l = l.take i0 ++ [x0] := by
          have h1 : l = l.take i0 ++ l.drop i0 := (List.take_append_drop i0 l).symm
          have h2 : l.drop i0 = [x0] := by
            rw [List.drop_eq_getElem_cons hlen]
            have h3 : l[i0] = x0 := by
              rw [List.getElem?_eq_getElem hlen] at hx0
              exact Option.some.inj hx0
            rw [h3, List.drop_eq_nil_of_le (by omega)]
          rw [h2] at h1
          exact h1
        have hnom : ∀ y ∈ l.take i0, h.Equal y d = false := by
          intro y hy
          obtain ⟨j, hj⟩ := List.mem_iff_getElem?.1 hy
          have hjlt : j < i0 := by
            by_contra hc
            rw [List.getElem?_take_eq_none (by omega)] at hj
            exact absurd hj (by simp)
          rw [List.getElem?_take_of_lt hjlt] at hj
          obtain ⟨y2, hy2, hne⟩ := hfirst j hjlt
          rw [hj] at hy2
          cases hy2
          exact hne
        refine ⟨Or.inl hnom, List.take_sublist _ _, ?_, ?_⟩
        · intro y hy hne
          rw [hsplit] at hy
          rcases List.mem_append.1 hy with h1 | h1
          · exact h1
          · simp at h1
            rw [h1, he0] at hne
            exact absurd hne (by simp)
        · intro hs
          rcases hs with hno | ⟨x1, hl, _⟩
          · rw [hno x0 hx0mem] at he0
            exact absurd he0 (by simp)
          · rw [hl] at hone
            simp at hone
  · have hno : ∀ x ∈ l, h.Equal x d = false := by
      intro x hx
      obtain ⟨i, hi⟩ := List.mem_iff_getElem?.1 hx
      by_contra hc
      exact hex ⟨i, x, hi, by simpa using hc⟩
    rw [unlinkLoop_no_match h d l hno] at hok
    simp only [Res.ok.injEq, Prod.mk.injEq] at hok
    obtain ⟨hl1, _⟩ := hok
    subst hl1
    exact ⟨Or.inl hno, List.Sublist.refl _, fun y hy _ => hy, fun _ => rfl⟩

/-- What the unlink loop of `Remove` leaves when it returns: every key is kept,
every entry is a sublist of what it was, the entry under the identifier of
every slot target exists and is stable, the dependents other than the removed
one are kept, keys of no slot are untouched, stable entries are unchanged, and
no slot was nil. -/
theorem unlinkAll_ok_spec (h : Heap) (d : Ref) :
    ∀ (slots : List (Option Ref)) (m m1 : Nat → Option (List Ref)),
      unlinkAll h d slots m = .ok m1 →
      (∀ k, m k ≠ none → m1 k ≠ none) ∧
      (∀ k l1, m1 k = some l1 → l1.Sublist ((m k).getD [])) ∧
      (∀ t, some t ∈ slots → ∃ l1, m1 (h.ID t) = some l1 ∧ Stable h d l1) ∧
      (∀ k l y, m k = some l → y ∈ l → h.Equal y d = false → ∃ l1, m1 k = some l1 ∧ y ∈ l1) ∧
      (∀ k, (∀ t, some t ∈ slots → h.ID t ≠ k) → m1 k = m k) ∧
      (∀ k l, m k = some l → Stable h d l → m1 k = some l) ∧
      none ∉ slots := by
  intro slots
  induction slots with
  | nil =>
    intro m m1 hm
    simp only [unlinkAll, Res.ok.injEq] at hm
    subst hm
    refine ⟨fun _ hk => hk, ?_, ?_, ?_, fun _ _ => rfl, fun _ _ hl _ => hl, by simp⟩
    · intro k l1 hl1
      rw [hl1]
      exact List.Sublist.refl _
    · intro t ht
      simp at ht
    · intro k l y hl hy _
      exact ⟨l, hl, hy⟩
  | cons slot slots ih =>
    intro m m1 hm
    cases slot with
    | none => simp [unlinkAll] at hm
    | some t =>
      rw [unlinkAll] at hm
      simp only [Res.bind_eq_ok] at hm
      obtain ⟨r, hr, hm⟩ := hm
      obtain ⟨l1, b⟩ := r
      rw [mapSet_if_mapDelete] at hm
      simp only at hm
      obtain ⟨hst, hsub, hkeep, hstab⟩ := unlinkLoop_ok_spec h d _ l1 b hr
      obtain ⟨i1, i2, i3, i4, i5, i6, i7⟩ := ih _ m1 hm
      have hset : mapSet m (h.ID t) l1 (h.ID t) = some l1 := by simp [mapSet]
      have hother : ∀ k, k ≠ h.ID t → mapSet m (h.ID t) l1 k = m k := by
        intro k hk
        simp [mapSet, hk]
      refine ⟨?_, ?_, ?_, ?_, ?_, ?_, ?_⟩
      · intro k hk
        apply i1
        by_cases hkey : k = h.ID t
        · rw [hkey, hset]; simp
        · rw [hother k hkey]; exact hk
      · intro k l2 hl2
        have h2 := i2 k l2 hl2
        by_cases hkey : k = h.ID t
        · rw [hkey, hset] at h2
          rw [hkey]
          exact h2.trans hsub
        · rw [hother k hkey] at h2
          exact h2
      · intro t2 ht2
        rcases List.mem_cons.1 ht2 with heq | hmem
        · have : t2 = t := by simpa using heq
          subst this
          exact ⟨l1, i6 _ l1 hset hst, hst⟩
        · exact i3 t2 hmem
      · intro k l y hl hy hne
        by_cases hkey : k = h.ID t
        · subst hkey
          have hy1 : y ∈ l1 := hkeep y (by rw [hl]; exact hy) hne
          exact i4 _ l1 y hset hy1 hne
        · exact i4 k l y (by rw [hother k hkey]; exact hl) hy hne
      · intro k hk
        have hkey : k ≠ h.ID t := fun hc => hk t (by simp) hc.symm
        rw [i5 k (fun t2 ht2 => hk t2 (List.mem_cons_of_mem _ ht2)), hother k hkey]
      · intro k l hl hs
        by_cases hkey : k = h.ID t
        · subst hkey
          have : l1 = l := by
            have := hstab (by rw [hl]; exact hs)
            rw [hl] at this
            exact this
          subst this
          exact i6 _ l1 hset hs
        · exact i6 k l (by rw [hother k hkey]; exact hl) hs
      · intro hc
        rcases List.mem_cons.1 hc with heq | hmem
        · simp at heq
        · exact i7 hmem

/-- The unlink loop run on a reverse index in which the entry of every slot
target is stable, the key `k0` apart, which is absent or empty: the loop
returns, changes no key other than `k0`, and leaves `k0` absent or empty. -/
theorem unlinkAll_second (h : Heap) (d : Ref) (k0 : Nat) :
    ∀ (slots : List (Option Ref)) (m : Nat → Option (List Ref)), none ∉ slots →
      (∀ t, some t ∈ slots → h.ID t ≠ k0 → ∃ l, m (h.ID t) = some l ∧ Stable h d l) →
      (m k0 = none ∨ m k0 = some []) →
      ∃ m1, unlinkAll h d slots m = .ok m1 ∧ (∀ k, k ≠ k0 → m1 k = m k) ∧
        (m1 k0 = none ∨ m1 k0 = some []) := by
  intro slots
  induction slots with
  | nil =>
    intro m _ _ hk0
    exact ⟨m, rfl, fun _ _ => rfl, hk0⟩
  | cons slot slots ih =>
    intro m hnil hst hk0
    cases slot with
    | none => simp at hnil
    | some t =>
      have hnil2 : none ∉ slots := fun hc => hnil (List.mem_cons_of_mem _ hc)
      by_cases hkey : h.ID t = k0
      · have hl : (m (h.ID t)).getD [] = [] := by
          rw [hkey]
          rcases hk0 with h1 | h1 <;> simp [h1]
        obtain ⟨m1, hm1, hsame, hk1⟩ := ih (mapSet m k0 []) hnil2
          (fun t2 ht2 hne => by
            obtain ⟨l, hl2, hs⟩ := hst t2 (List.mem_cons_of_mem _ ht2) hne
            exact ⟨l, by simp [mapSet, hne, hl2], hs⟩)
          (Or.inr (by simp [mapSet]))
        refine ⟨m1, ?_, ?_, hk1⟩
        · rw [unlinkAll]
          simp only [hl, List.length_nil, unlinkLoop, Res.bind, Bool.false_eq_true, if_false]
          rw [hkey]
          exact hm1
        · intro k hk
          rw [hsame k hk]
          simp [mapSet, hk]
      · obtain ⟨l, hl, hs⟩ := hst t (by simp) hkey
        obtain ⟨b, hb⟩ := unlinkLoop_stable h d l hs
        obtain ⟨m1, hm1, hsame, hk1⟩ := ih m hnil2
          (fun t2 ht2 hne => hst t2 (List.mem_cons_of_mem _ ht2) hne) hk0
        refine ⟨m1, ?_, hsame, hk1⟩
        rw [unlinkAll]
        simp only [hl, Option.getD_some, hb, Res.bind]
        rw [mapSet_if_mapDelete, mapSet_same m _ l hl]
        exact hm1

theorem DependsSystem.Remove_eq {U : Type} (cb : Ref → World U → Res (World U)) (e : Ref)
    (w : World U) :
    DependsSystem.Remove cb e w =
      (removeLoop w.heap e w.ds.entities.length 0 w.ds.entities).bind fun pool =>
        (unlinkAll w.heap e (slotsOf w e) w.ds.dependers).bind fun m =>
          finishRemove cb e (w.setEngine pool m) := by
  unfold DependsSystem.Remove slotsOf
  cases removeLoop w.heap e w.ds.entities.length 0 w.ds.entities with
  | ok pool =>
    simp only [Res.bind]
    cases hdep : w.depends e with
    | none => rfl
    | some dep =>
      simp only
      cases unlinkAll w.heap e dep.Entities w.ds.dependers with
      | ok m => rfl
      | fault => rfl
      | outOfFuel => rfl
  | fault => rfl
  | outOfFuel => rfl

theorem State.Remove_engine {U : Type} (p : Int) (g : Nat) (x : Ref) (v : World U) :
    State.Remove [DependsSystem.toSystem p] (g + 1) x v =
      DependsSystem.Remove (fun y u => State.Remove [DependsSystem.toSystem p] g y u) x v := by
  rw [State.Remove, State.removeEach_singleton]
  rfl

theorem SameFrame.rfl_frame {U : Type} (w : World U) : SameFrame w w := ⟨rfl, rfl, rfl⟩

theorem SameFrame.chain {U : Type} {w w1 w2 : World U} (h1 : SameFrame w w1)
    (h2 : SameFrame w1 w2) : SameFrame w w2 :=
  ⟨h2.1.trans h1.1, h2.2.1.trans h1.2.1, h2.2.2.trans h1.2.2⟩

theorem cascade_frame {U : Type} (cb : Ref → World U → Res (World U))
    (hcb : ∀ x v v1, cb x v = .ok v1 → SameFrame v v1) :
    ∀ (xs : List Ref) (w w1 : World U), cascade cb xs w = .ok w1 → SameFrame w w1 := by
  intro xs
  induction xs with
  | nil =>
    intro w w1 h
    simp only [cascade, Res.ok.injEq] at h
    rw [h]
    exact SameFrame.rfl_frame _
  | cons x xs ih =>
    intro w w1 h
    simp only [cascade, Res.bind_eq_ok] at h
    obtain ⟨v, hv, hrest⟩ := h
    by_cases hset : w.ds.stateSet = true
    · simp only [hset, if_true] at hv
      exact SameFrame.chain (hcb x w v hv) (ih v w1 hrest)
    · simp [hset] at hv

theorem finishRemove_frame {U : Type} (cb : Ref → World U → Res (World U))
    (hcb : ∀ x v v1, cb x v = .ok v1 → SameFrame v v1) (e : Ref) (w w1 : World U)
    (h : finishRemove cb e w = .ok w1) : SameFrame w w1 := by
  unfold finishRemove at h
  cases hk : w.ds.dependers (w.heap.ID e) with
  | none =>
    simp only [hk, Res.ok.injEq] at h
    rw [h]
    exact SameFrame.rfl_frame _
  | some l =>
    simp only [hk, Res.bind_eq_ok, Res.ok.injEq] at h
    obtain ⟨w3, hw3, h⟩ := h
    have hf := cascade_frame cb hcb l w w3 hw3
    rw [← h]
    exact hf

theorem DependsSystem.Remove_frame {U : Type} (cb : Ref → World U → Res (World U))
    (hcb : ∀ x v v1, cb x v = .ok v1 → SameFrame v v1) (e : Ref) (w w1 : World U)
    (h : DependsSystem.Remove cb e w = .ok w1) : SameFrame w w1 := by
  rw [DependsSystem.Remove_eq] at h
  simp only [Res.bind_eq_ok] at h
  obtain ⟨pool, _, m, _, h⟩ := h
  have h0 : SameFrame w (w.setEngine pool m) := ⟨rfl, rfl, rfl⟩
  exact SameFrame.chain h0 (finishRemove_frame cb hcb e _ w1 h)

theorem State.Remove_sameFrame {U : Type} (p : Int) :
    ∀ (fuel : Nat) (x : Ref) (v v1 : World U),
      State.Remove [DependsSystem.toSystem p] fuel x v = .ok v1 → SameFrame v v1 := by
  intro fuel
  induction fuel with
  | zero => intro x v v1 h; simp [State.Remove] at h
  | succ g ih =>
    intro x v v1 h
    rw [State.Remove_engine] at h
    exact DependsSystem.Remove_frame _ (fun y u u1 hu => ih y u u1 hu) x v v1 h

/-- A removal that finds nothing to take out of the pool and no dependent
under the identifier of its entity only unlinks the entity and deletes its
key; it makes no nested call. -/
theorem DependsSystem.Remove_shallow {U : Type} (cb : Ref → World U → Res (World U)) (x : Ref)
    (v v1 : World U) (hpool : ∀ y ∈ v.ds.entities, v.heap.Equal y x = false)
    (hkey : v.ds.dependers (v.heap.ID x) = none ∨ v.ds.dependers (v.heap.ID x) = some [])
    (hok : DependsSystem.Remove cb x v = .ok v1) :
    ∃ mu, unlinkAll v.heap x (slotsOf v x) v.ds.dependers = .ok mu ∧
      v1 = v.setEngine v.ds.entities (mapDelete mu (v.heap.ID x)) := by
  rw [DependsSystem.Remove_eq, removeLoop_no_match v.heap x _ hpool] at hok
  have hok2 : (unlinkAll v.heap x (slotsOf v x) v.ds.dependers).bind
      (fun m => finishRemove cb x (v.setEngine v.ds.entities m)) = .ok v1 := hok
  rw [Res.bind_eq_ok] at hok2
  obtain ⟨mu, hmu, hok⟩ := hok2
  refine ⟨mu, hmu, ?_⟩
  unfold finishRemove at hok
  have hk : (v.setEngine v.ds.entities mu).ds.dependers ((v.setEngine v.ds.entities mu).heap.ID x)
      = mu (v.heap.ID x) := rfl
  rcases unlinkAll_fresh_key v.heap x (v.heap.ID x) _ _ mu hmu hkey with h1 | h1
  · rw [hk, h1] at hok
    simp only [Res.ok.injEq] at hok
    rw [mapDelete_absent mu _ h1, ← hok]
  · rw [hk, h1] at hok
    simp only [cascade, Res.bind, Res.ok.injEq] at hok
    rw [← hok]
    rfl

/-- A cascade over dependents none of which is in the pool or has dependents of
its own: the pool is left as it is, the keys other than those of the cascaded
entities are kept, and every entry is a sublist of what it was. -/
theorem cascade_shallow {U : Type} (p : Int) (f : Nat) :
    ∀ (L : List Ref) (v v3 : World U),
      (∀ x ∈ L, (∀ y ∈ v.ds.entities, v.heap.Equal y x = false) ∧
        (v.ds.dependers (v.heap.ID x) = none ∨ v.ds.dependers (v.heap.ID x) = some [])) →
      cascade (fun x w => State.Remove [DependsSystem.toSystem p] f x w) L v = .ok v3 →
      ∃ m3, v3 = v.setEngine v.ds.entities m3 ∧
        (∀ k, (∀ x ∈ L, v.heap.ID x ≠ k) → v.ds.dependers k ≠ none → m3 k ≠ none) ∧
        ∀ k l3, m3 k = some l3 → l3.Sublist ((v.ds.dependers k).getD []) := by
  intro L
  induction L with
  | nil =>
    intro v v3 _ h
    simp only [cascade, Res.ok.injEq] at h
    subst h
    refine ⟨v.ds.dependers, rfl, fun _ _ hk => hk, ?_⟩
    intro k l3 hl3
    rw [hl3]
    exact List.Sublist.refl _
  | cons x L ih =>
    intro v v3 hall h
    simp only [cascade, Res.bind_eq_ok] at h
    obtain ⟨v1, hv1, hrest⟩ := h
    by_cases hset : v.ds.stateSet = true
    · simp only [hset, if_true] at hv1
      cases f with
      | zero => simp [State.Remove] at hv1
      | succ g =>
        rw [State.Remove_engine] at hv1
        obtain ⟨hpx, hkx⟩ := hall x (by simp)
        obtain ⟨mu, hmu, hv1eq⟩ := DependsSystem.Remove_shallow _ x v v1 hpx hkx hv1
        obtain ⟨u1, u2, _, _, _, _, _⟩ := unlinkAll_ok_spec v.heap x _ _ mu hmu
        subst hv1eq
        obtain ⟨m3, hm3, hkeys, hsub⟩ := ih _ v3 (by
          intro x2 hx2
          obtain ⟨hp2, hk2⟩ := hall x2 (List.mem_cons_of_mem _ hx2)
          refine ⟨hp2, ?_⟩
          show mapDelete mu (v.heap.ID x) (v.heap.ID x2) = none ∨
            mapDelete mu (v.heap.ID x) (v.heap.ID x2) = some []
          by_cases hk : v.heap.ID x2 = v.heap.ID x
          · left; simp [mapDelete, hk]
          · simpa [mapDelete, hk] using
              unlinkAll_fresh_key v.heap x (v.heap.ID x2) _ _ mu hmu hk2) hrest
        refine ⟨m3, hm3, ?_, ?_⟩
        · intro k hk hne
          apply hkeys k (fun x2 hx2 => hk x2 (List.mem_cons_of_mem _ hx2))
          show mapDelete mu (v.heap.ID x) k ≠ none
          have hkx2 : k ≠ v.heap.ID x := fun hc => hk x (by simp) hc.symm
          simpa [mapDelete, hkx2] using u1 k hne
        · intro k l3 hl3
          have h3 := hsub k l3 hl3
          have h4 : (mapDelete mu (v.heap.ID x) k).getD [] = [] ∨
              mapDelete mu (v.heap.ID x) k = mu k := by
            by_cases hk : k = v.heap.ID x
            · left; simp [mapDelete, hk]
            · right; simp [mapDelete, hk]
          change l3.Sublist ((mapDelete mu (v.heap.ID x) k).getD []) at h3
          rcases h4 with h4 | h4
          · rw [h4] at h3
            rw [List.sublist_nil.1 h3]
            exact List.nil_sublist _
          · rw [h4] at h3
            cases hmk : mu k with
            | none =>
              rw [hmk] at h3
              simp only [Option.getD_none] at h3
              rw [List.sublist_nil.1 h3]
              exact List.nil_sublist _
            | some l1 =>
              rw [hmk] at h3
              exact h3.trans (u2 k l1 hmk)
    · simp [hset] at hv1

theorem DistinctIDs.of_frame {U : Type} {v v1 : World U} (hf : SameFrame v v1)
    (hd : DistinctIDs v) : DistinctIDs v1 := by
  intro a b hab ha
  rw [hf.1] at hab ha
  exact hd a b hab ha

theorem DistinctIDs.equal_iff {U : Type} {v : World U} (hd : DistinctIDs v) (a b : Ref)
    (ha : v.heap.ID a ≠ 0) : v.heap.Equal a b = true ↔ a = b := by
  constructor
  · intro h
    exact hd a b (by simpa [Heap.Equal] using h) ha
  · intro h
    subst h
    simp [Heap.Equal]

theorem sublist_singleton_mem {l : List Ref} {e : Ref} (hsub : l.Sublist [e]) (he : e ∈ l) :
    l = [e] := by
  cases l with
  | nil => simp at he
  | cons a l2 =>
    have hlen := hsub.length_le
    cases l2 with
    | nil =>
      have : a ∈ [e] := hsub.subset (by simp)
      simp at this
      rw [this]
    | cons b l3 => simp at hlen

theorem SelfListed.unlink_other {U : Type} (e x : Ref) (v : World U) (pool : List Ref)
    (mu : Nat → Option (List Ref)) (hs : SelfListed e v) (hne : v.heap.Equal e x = false)
    (hmu : unlinkAll v.heap x (slotsOf v x) v.ds.dependers = .ok mu) :
    SelfListed e (v.setEngine pool mu) := by
  obtain ⟨_, u2, _, u4, _, _, _⟩ := unlinkAll_ok_spec v.heap x _ _ mu hmu
  obtain ⟨⟨l, hl, hel⟩, hkeep⟩ := hs
  obtain ⟨l1, hl1, hel1⟩ := u4 _ l e hl hel hne
  refine ⟨⟨l1, hl1, hel1⟩, ?_⟩
  rcases hkeep with h1 | h1
  · exact Or.inl h1
  · right
    have hsub := u2 _ l1 hl1
    rw [h1] at hsub
    simp only [Option.getD_some] at hsub
    show mu (v.heap.ID e) = some [e]
    rw [hl1, sublist_singleton_mem hsub hel1]

theorem SelfListed.unlink_self {U : Type} (e : Ref) (v : World U) (pool : List Ref)
    (mu : Nat → Option (List Ref)) (hs : SelfListed e v)
    (hmu : unlinkAll v.heap e (slotsOf v e) v.ds.dependers = .ok mu) :
    SelfListed e (v.setEngine pool mu) := by
  obtain ⟨_, _, _, _, u5, u6, _⟩ := unlinkAll_ok_spec v.heap e _ _ mu hmu
  obtain ⟨⟨l, hl, hel⟩, hkeep⟩ := hs
  rcases hkeep with h1 | h1
  · have hsame := u5 (v.heap.ID e) h1
    exact ⟨⟨l, by show mu (v.heap.ID e) = some l; rw [hsame, hl], hel⟩, Or.inl h1⟩
  · have hsame := u6 (v.heap.ID e) [e] h1 (Or.inr ⟨e, rfl, by simp [Heap.Equal]⟩)
    exact ⟨⟨[e], hsame, by simp⟩, Or.inr hsame⟩

theorem SelfListed.delete_other {U : Type} (e : Ref) (w3 : World U) (k : Nat)
    (hs : SelfListed e w3) (hk : w3.heap.ID e ≠ k) :
    SelfListed e { w3 with ds := { w3.ds with dependers := mapDelete w3.ds.dependers k } } := by
  obtain ⟨⟨l, hl, hel⟩, hkeep⟩ := hs
  have hsame : mapDelete w3.ds.dependers k (w3.heap.ID e) = w3.ds.dependers (w3.heap.ID e) := by
    simp [mapDelete, hk]
  refine ⟨⟨l, by show mapDelete w3.ds.dependers k (w3.heap.ID e) = some l; rw [hsame, hl], hel⟩,
    ?_⟩
  rcases hkeep with h1 | h1
  · exact Or.inl h1
  · right
    show mapDelete w3.ds.dependers k (w3.heap.ID e) = some [e]
    rw [hsame, h1]

theorem cascade_selfListed {U : Type} (cb : Ref → World U → Res (World U)) (e : Ref)
    (hframe : ∀ x v v1, cb x v = .ok v1 → SameFrame v v1)
    (hcb : ∀ (x : Ref) (v : World U), DistinctIDs v → v.heap.ID e ≠ 0 → SelfListed e v →
      (x = e → ∀ v1, cb x v ≠ .ok v1) ∧ (x ≠ e → ∀ v1, cb x v = .ok v1 → SelfListed e v1)) :
    ∀ (L : List Ref) (v v3 : World U), DistinctIDs v → v.heap.ID e ≠ 0 → SelfListed e v →
      cascade cb L v = .ok v3 → e ∉ L ∧ SelfListed e v3 := by
  intro L
  induction L with
  | nil =>
    intro v v3 _ _ hs h
    simp only [cascade, Res.ok.injEq] at h
    subst h
    exact ⟨by simp, hs⟩
  | cons x L ih =>
    intro v v3 hd hid hs h
    simp only [cascade, Res.bind_eq_ok] at h
    obtain ⟨v1, hv1, hrest⟩ := h
    by_cases hset : v.ds.stateSet = true
    · simp only [hset, if_true] at hv1
      obtain ⟨hself, hother⟩ := hcb x v hd hid hs
      by_cases hxe : x = e
      · exact absurd hv1 (hself hxe v1)
      · have hs1 := hother hxe v1 hv1
        have hf := hframe x v v1 hv1
        obtain ⟨hnot, hs3⟩ := ih v1 v3 (DistinctIDs.of_frame hf hd) (by rw [hf.1]; exact hid)
          hs1 hrest
        refine ⟨?_, hs3⟩
        intro hc
        rcases List.mem_cons.1 hc with h1 | h1
        · exact hxe h1.symm
        · exact hnot h1
    · simp [hset] at hv1

/-- An entity that is listed under its own identifier, where the unlink loop
leaves it, is never removed by a call that returns: the cascade calls
`State.Remove` on it again and again.  Removing another entity keeps it listed. -/
theorem State.Remove_selfListed {U : Type} (p : Int) (e : Ref) :
    ∀ (g : Nat) (x : Ref) (v : World U), DistinctIDs v → v.heap.ID e ≠ 0 → SelfListed e v →
      (x = e → ∀ v1, State.Remove [DependsSystem.toSystem p] g x v ≠ .ok v1) ∧
      (x ≠ e → ∀ v1, State.Remove [DependsSystem.toSystem p] g x v = .ok v1 →
        SelfListed e v1) := by
  intro g
  induction g with
  | zero =>
    intro x v _ _ _
    exact ⟨fun _ v1 => by simp [State.Remove], fun _ v1 h => by simp [State.Remove] at h⟩
  | succ g ih =>
    intro x v hd hid hs
    have hcasc := cascade_selfListed
      (fun y u => State.Remove [DependsSystem.toSystem p] g y u) e
      (fun y u u1 hu => State.Remove_sameFrame p g y u u1 hu) (fun y u => ih y u)
    refine ⟨?_, ?_⟩
    · intro hxe v1 hok
      subst hxe
      rw [State.Remove_engine, DependsSystem.Remove_eq] at hok
      simp only [Res.bind_eq_ok] at hok
      obtain ⟨pool, _, mu, hmu, hok⟩ := hok
      have hs2 := SelfListed.unlink_self x v pool mu hs hmu
      obtain ⟨⟨l, hl, hel⟩, _⟩ := hs2
      unfold finishRemove at hok
      rw [hl] at hok
      simp only [Res.bind_eq_ok] at hok
      obtain ⟨w3, hw3, _⟩ := hok
      exact (hcasc l (v.setEngine pool mu) w3 hd hid
        (SelfListed.unlink_self x v pool mu hs hmu) hw3).1 hel
    · intro hxe v1 hok
      have hne : v.heap.Equal e x = false := by
        by_contra hc
        exact hxe ((DistinctIDs.equal_iff hd e x hid).1 (by simpa using hc)).symm
      have hidne : v.heap.ID e ≠ v.heap.ID x := by
        intro hc
        exact hxe (hd e x hc hid).symm
      rw [State.Remove_engine, DependsSystem.Remove_eq] at hok
      simp only [Res.bind_eq_ok] at hok
      obtain ⟨pool, _, mu, hmu, hok⟩ := hok
      have hs2 := SelfListed.unlink_other e x v pool mu hs hne hmu
      unfold finishRemove at hok
      cases hk : (v.setEngine pool mu).ds.dependers ((v.setEngine pool mu).heap.ID x) with
      | none =>
        rw [hk] at hok
        simp only [Res.ok.injEq] at hok
        rw [← hok]
        exact hs2
      | some l =>
        rw [hk] at hok
        simp only [Res.bind_eq_ok, Res.ok.injEq] at hok
        obtain ⟨w3, hw3, hok⟩ := hok
        have hs3 := (hcasc l (v.setEngine pool mu) w3 hd hid hs2 hw3).2
        have hf : SameFrame (v.setEngine pool mu) w3 :=
          cascade_frame _ (fun y u u1 hu => State.Remove_sameFrame p g y u u1 hu) l _ w3 hw3
        rw [← hok]
        apply SelfListed.delete_other e w3 _ hs3
        rw [hf.1]
        exact hidne

theorem Above.drop_last (h : Heap) (pool : List Ref) (z y : Ref) (k : Nat) (hy : y ≠ z)
    (ha : Above h (pool ++ [z]) y k) : Above h pool y k := by
  obtain ⟨i, j, t, hji, hi, hj, ht⟩ := ha
  have hilt : i < pool.length := by
    by_contra hc
    have hlen : i < (pool ++ [z]).length := by
      by_contra hc2
      rw [List.getElem?_eq_none (by omega)] at hi
      exact absurd hi (by simp)
    have hieq : i = pool.length := by simp at hlen; omega
    rw [hieq, List.getElem?_concat_length] at hi
    exact hy (Option.some.inj hi).symm
  rw [List.getElem?_append_left hilt] at hi
  rw [List.getElem?_append_left (by omega)] at hj
  exact ⟨i, j, t, hji, hi, hj, ht⟩

theorem Above.mono (h : Heap) (pool : List Ref) (z y : Ref) (k : Nat)
    (ha : Above h pool y k) : Above h (pool ++ [z]) y k := by
  obtain ⟨i, j, t, hji, hi, hj, ht⟩ := ha
  have hilt : i < pool.length := by
    by_contra hc
    rw [List.getElem?_eq_none (by omega)] at hi
    exact absurd hi (by simp)
  exact ⟨i, j, t, hji, by rw [List.getElem?_append_left hilt]; exact hi,
    by rw [List.getElem?_append_left (by omega)]; exact hj, ht⟩

theorem mem_getD_nil {m : Nat → Option (List Ref)} {k : Nat} {x : Ref}
    (hx : x ∈ (m k).getD []) : ∃ l, m k = some l ∧ x ∈ l := by
  cases hm : m k with
  | none => rw [hm] at hx; simp at hx
  | some l => rw [hm] at hx; exact ⟨l, rfl, hx⟩

/-- What a returning `DependsSystem.Remove(e)` leaves in a state that satisfies
the invariant: the pool the pool loop returned, and a reverse index in which
every entry is a sublist of what it was, the key of `e` is absent, and the
entry of every slot target of `e` exists and is stable. -/
theorem DependsSystem.Remove_first {U : Type} (p : Int) (f : Nat) (e : Ref) (w w1 : World U)
    (hinv : PoolInv w) (hd : DistinctIDs w)
    (hok : DependsSystem.Remove
      (fun x v => State.Remove [DependsSystem.toSystem p] f x v) e w = .ok w1) :
    ∃ pool1 m1, w1 = w.setEngine pool1 m1 ∧
      removeLoop w.heap e w.ds.entities.length 0 w.ds.entities = .ok pool1 ∧
      (∀ k l1, m1 k = some l1 → l1.Sublist ((w.ds.dependers k).getD [])) ∧
      m1 (w.heap.ID e) = none ∧
      (∀ t, some t ∈ slotsOf w e → w.heap.ID t ≠ w.heap.ID e →
        ∃ l1, m1 (w.heap.ID t) = some l1 ∧ Stable w.heap e l1) ∧
      none ∉ slotsOf w e := by
  obtain ⟨hZ, hI1, hI2, hI3⟩ := hinv
  rw [DependsSystem.Remove_eq] at hok
  simp only [Res.bind_eq_ok] at hok
  obtain ⟨pool1, hpool, mu, hmu, hfin⟩ := hok
  obtain ⟨u1, u2, u3, _, _, _, u7⟩ := unlinkAll_ok_spec w.heap e _ _ mu hmu
  have hcases := removeLoop_ok_cases w.heap e _ pool1 hpool
  have hsubset : ∀ y ∈ pool1, y ∈ w.ds.entities := by
    intro y hy
    rcases hcases with ⟨h1, _⟩ | ⟨z, h1, _, _⟩
    · rw [← h1]; exact hy
    · rw [h1]; exact List.mem_append_left _ hy
  unfold finishRemove at hfin
  have hkey : (w.setEngine pool1 mu).ds.dependers ((w.setEngine pool1 mu).heap.ID e)
      = mu (w.heap.ID e) := rfl
  rw [hkey] at hfin
  cases hk : mu (w.heap.ID e) with
  | none =>
    rw [hk] at hfin
    simp only [Res.ok.injEq] at hfin
    exact ⟨pool1, mu, hfin.symm, hpool, u2, hk, fun t ht _ => u3 t ht, u7⟩
  | some L =>
    rw [hk] at hfin
    simp only [Res.bind_eq_ok, Res.ok.injEq] at hfin
    obtain ⟨w3, hw3, hfin⟩ := hfin
    -- every cascaded entity is outside the pool, and `e` is the last pool entity
    have hfacts : ∀ x ∈ L, e ∈ w.ds.entities ∧ x ∉ w.ds.entities := by
      intro x hx
      obtain ⟨l0, hl0, hxl0⟩ := mem_getD_nil ((u2 _ L hk).subset hx)
      obtain ⟨t0, ht0, hidt0⟩ := hI1 _ l0 x hl0 hxl0
      have ht0e : t0 = e := hd t0 e hidt0 (hZ t0 ht0)
      subst ht0e
      have hide : w.heap.ID t0 ≠ 0 := hZ t0 ht0
      rcases hcases with ⟨_, hno⟩ | ⟨z, hsplit, hze, hno⟩
      · have := hno t0 ht0
        simp [Heap.Equal] at this
      · have hz : z = t0 := by
          have hzmem : z ∈ w.ds.entities := by rw [hsplit]; simp
          exact (DistinctIDs.equal_iff hd z t0 (hZ z hzmem)).1 hze
        subst hz
        have hznot : z ∉ pool1 := by
          intro hc
          have := hno z hc
          simp [Heap.Equal] at this
        have hxne : x ≠ z := by
          intro hxe
          subst hxe
          have hself : SelfListed x (w.setEngine pool1 mu) := by
            refine ⟨⟨L, hk, hx⟩, ?_⟩
            by_cases hslot : ∃ t, some t ∈ slotsOf w x ∧ w.heap.ID t = w.heap.ID x
            · right
              obtain ⟨t, ht, hidt⟩ := hslot
              obtain ⟨l1, hl1, hst⟩ := u3 t ht
              rw [hidt, hk] at hl1
              cases hl1
              rcases hst with hno2 | ⟨a, hla, _⟩
              · have := hno2 x hx
                simp [Heap.Equal] at this
              · subst hla
                simp at hx
                subst hx
                exact hk
            · left
              intro t ht hidt
              exact hslot ⟨t, ht, hidt⟩
          exact (cascade_selfListed
            (fun y u => State.Remove [DependsSystem.toSystem p] f y u) x
            (fun y u u1 hu => State.Remove_sameFrame p f y u u1 hu)
            (fun y u => State.Remove_selfListed p x f y u) L (w.setEngine pool1 mu) w3
            hd hide hself hw3).1 hx
        refine ⟨ht0, ?_⟩
        intro hxP
        rcases hI3 _ l0 x hl0 hxl0 with h1 | h1
        · exact h1 hxP
        · obtain ⟨i, j, t, hji, hi, hj, ht⟩ := h1
          have htmem : t ∈ w.ds.entities := List.mem_iff_getElem?.2 ⟨j, hj⟩
          have htz : t = z := hd t z ht (hZ t htmem)
          subst htz
          rw [hsplit] at hi hj
          have hjge : pool1.length ≤ j := by
            by_contra hc
            rw [List.getElem?_append_left (by omega)] at hj
            exact hznot (List.mem_iff_getElem?.2 ⟨j, hj⟩)
          have hilt : i < (pool1 ++ [t]).length := by
            by_contra hc
            rw [List.getElem?_eq_none (by omega)] at hi
            exact absurd hi (by simp)
          have hieq : i = pool1.length := by simp at hilt; omega
          rw [hieq, List.getElem?_concat_length] at hi
          exact hxne (Option.some.inj hi).symm
    have hall : ∀ x ∈ L,
        (∀ y ∈ (w.setEngine pool1 mu).ds.entities, (w.setEngine pool1 mu).heap.Equal y x = false) ∧
        ((w.setEngine pool1 mu).ds.dependers ((w.setEngine pool1 mu).heap.ID x) = none ∨
          (w.setEngine pool1 mu).ds.dependers ((w.setEngine pool1 mu).heap.ID x) = some []) := by
      intro x hx
      obtain ⟨_, hxP⟩ := hfacts x hx
      refine ⟨?_, ?_⟩
      · intro y hy
        have hyP : y ∈ w.ds.entities := hsubset y hy
        by_contra hc
        have : y = x := (DistinctIDs.equal_iff hd y x (hZ y hyP)).1 (by simpa using hc)
        subst this
        exact hxP hyP
      · show mu (w.heap.ID x) = none ∨ mu (w.heap.ID x) = some []
        cases hmx : mu (w.heap.ID x) with
        | none => exact Or.inl rfl
        | some lx =>
          right
          cases lx with
          | nil => rfl
          | cons a lx2 =>
            exfalso
            obtain ⟨l0, hl0, hal0⟩ := mem_getD_nil ((u2 _ _ hmx).subset (List.mem_cons_self a lx2))
            obtain ⟨t, ht, hidt⟩ := hI1 _ l0 a hl0 hal0
            have : t = x := hd t x hidt (hZ t ht)
            subst this
            exact hxP ht
    obtain ⟨m3, hm3, hkeys, hsub⟩ := cascade_shallow p f L _ w3 hall hw3
    subst hm3
    refine ⟨pool1, mapDelete m3 (w.heap.ID e), hfin.symm, hpool, ?_, by simp [mapDelete], ?_, u7⟩
    · intro k l1 hl1
      have hke : k ≠ w.heap.ID e := by
        intro hc
        simp [mapDelete, hc] at hl1
      have hl3 : m3 k = some l1 := by simpa [mapDelete, hke] using hl1
      have h3 := hsub k l1 hl3
      change l1.Sublist ((mu k).getD []) at h3
      cases hmk : mu k with
      | none =>
        rw [hmk] at h3
        simp only [Option.getD_none] at h3
        rw [List.sublist_nil.1 h3]
        exact List.nil_sublist _
      | some l2 =>
        rw [hmk] at h3
        exact h3.trans (u2 k l2 hmk)
    · intro t ht hidt
      obtain ⟨l2, hl2, hst⟩ := u3 t ht
      have hne : m3 (w.heap.ID t) ≠ none := by
        apply hkeys (w.heap.ID t)
        · intro x hx hc
          obtain ⟨heP, hxP⟩ := hfacts x hx
          obtain ⟨i, j, t2, _, _, hj, hidt2⟩ := hI2 e heP t ht
          have ht2mem : t2 ∈ w.ds.entities := List.mem_iff_getElem?.2 ⟨j, hj⟩
          have : t2 = x := hd t2 x (by rw [hidt2]; exact hc.symm) (hZ t2 ht2mem)
          subst this
          exact hxP ht2mem
        · show mu (w.heap.ID t) ≠ none
          rw [hl2]
          simp
      cases hm3 : m3 (w.heap.ID t) with
      | none => exact absurd hm3 hne
      | some l3 =>
        have h3 := hsub _ l3 hm3
        change l3.Sublist ((mu (w.heap.ID t)).getD []) at h3
        rw [hl2] at h3
        exact ⟨l3, by simp [mapDelete, hidt, hm3], Stable.sublist _ _ _ _ hst h3⟩

/-- In a state that satisfies the invariant, a `DependsSystem.Remove(e)` that
returned is followed by a `DependsSystem.Remove(e)` that returns and changes
nothing. -/
theorem DependsSystem.Remove_again {U : Type} (p : Int) (f : Nat) (e : Ref) (w w1 : World U)
    (hinv : PoolInv w) (hd : DistinctIDs w)
    (hok : DependsSystem.Remove
      (fun x v => State.Remove [DependsSystem.toSystem p] f x v) e w = .ok w1) :
    DependsSystem.Remove (fun x v => State.Remove [DependsSystem.toSystem p] f x v) e w1
      = .ok w1 := by
  obtain ⟨pool1, m1, hw1, hpool, _, hc, hst, hnil⟩ :=
    DependsSystem.Remove_first p f e w w1 hinv hd hok
  subst hw1
  have hno : ∀ x ∈ pool1, w.heap.Equal x e = false := by
    rcases removeLoop_ok_cases w.heap e _ pool1 hpool with ⟨h1, h2⟩ | ⟨z, _, _, h2⟩
    · rw [h1]; exact h2
    · exact h2
  obtain ⟨m2, hm2, hsame, hk0⟩ := unlinkAll_second w.heap e (w.heap.ID e) (slotsOf w e) m1 hnil
    hst (Or.inl hc)
  have hm21 : mapDelete m2 (w.heap.ID e) = m1 := by
    funext k
    by_cases hk : k = w.heap.ID e
    · simp [mapDelete, hk, hc]
    · simp [mapDelete, hk, hsame k hk]
  rw [DependsSystem.Remove_eq]
  have h1 : removeLoop (w.setEngine pool1 m1).heap e (w.setEngine pool1 m1).ds.entities.length 0
      (w.setEngine pool1 m1).ds.entities = .ok pool1 := removeLoop_no_match w.heap e pool1 hno
  have h2 : unlinkAll (w.setEngine pool1 m1).heap e (slotsOf (w.setEngine pool1 m1) e)
      (w.setEngine pool1 m1).ds.dependers = .ok m2 := hm2
  rw [h1, h2]
  show finishRemove _ e (w.setEngine pool1 m2) = _
  unfold finishRemove
  have hkey : (w.setEngine pool1 m2).ds.dependers ((w.setEngine pool1 m2).heap.ID e)
      = m2 (w.heap.ID e) := rfl
  rw [hkey]
  rcases hk0 with h0 | h0
  · rw [h0]
    rw [← hm21, mapDelete_absent m2 _ h0]
  · rw [h0]
    simp only [cascade, Res.bind]
    rw [← hm21]
    rfl

theorem DependsSystem.Remove_poolInv {U : Type} (p : Int) (f : Nat) (e : Ref) (w w1 : World U)
    (hinv : PoolInv w) (hd : DistinctIDs w)
    (hok : DependsSystem.Remove
      (fun x v => State.Remove [DependsSystem.toSystem p] f x v) e w = .ok w1) :
    PoolInv w1 := by
  obtain ⟨pool1, m1, hw1, hpool, hsub, hc, _, _⟩ :=
    DependsSystem.Remove_first p f e w w1 hinv hd hok
  obtain ⟨hZ, hI1, hI2, hI3⟩ := hinv
  subst hw1
  have hcases := removeLoop_ok_cases w.heap e _ pool1 hpool
  have hsubset : ∀ y ∈ pool1, y ∈ w.ds.entities := by
    intro y hy
    rcases hcases with ⟨h1, _⟩ | ⟨z, h1, _, _⟩
    · rw [← h1]; exact hy
    · rw [h1]; exact List.mem_append_left _ hy
  have hentry : ∀ k l x, m1 k = some l → x ∈ l → ∃ l0, w.ds.dependers k = some l0 ∧ x ∈ l0 :=
    fun k l x hl hx => mem_getD_nil ((hsub k l hl).subset hx)
  refine ⟨fun x hx => hZ x (hsubset x hx), ?_, ?_, ?_⟩
  · intro k l x hl hx
    obtain ⟨l0, hl0, hx0⟩ := hentry k l x hl hx
    obtain ⟨t, ht, hidt⟩ := hI1 k l0 x hl0 hx0
    rcases hcases with ⟨h1, _⟩ | ⟨z, hsplit, hze, _⟩
    · exact ⟨t, by show t ∈ pool1; rw [h1]; exact ht, hidt⟩
    · rw [hsplit] at ht
      rcases List.mem_append.1 ht with h2 | h2
      · exact ⟨t, h2, hidt⟩
      · exfalso
        simp at h2
        subst h2
        have : k = w.heap.ID e := by
          rw [← hidt]
          simpa [Heap.Equal] using hze
        rw [this] at hl
        change m1 (w.heap.ID e) = some l at hl
        rw [hc] at hl
        exact absurd hl (by simp)
  · intro y hy t ht
    have ha := hI2 y (hsubset y hy) t ht
    rcases hcases with ⟨h1, _⟩ | ⟨z, hsplit, hze, hno⟩
    · show Above w.heap pool1 y (w.heap.ID t)
      rw [h1]; exact ha
    · rw [hsplit] at ha
      apply Above.drop_last w.heap pool1 z y _ _ ha
      intro hyz
      subst hyz
      rw [hno y hy] at hze
      exact absurd hze (by simp)
  · intro k l x hl hx
    obtain ⟨l0, hl0, hx0⟩ := hentry k l x hl hx
    rcases hI3 k l0 x hl0 hx0 with h1 | h1
    · exact Or.inl fun hxp => h1 (hsubset x hxp)
    · rcases hcases with ⟨h2, _⟩ | ⟨z, hsplit, hze, hno⟩
      · right
        show Above w.heap pool1 x k
        rw [h2]; exact h1
      · by_cases hxz : x = z
        · left
          intro hxp
          subst hxz
          change x ∈ pool1 at hxp
          rw [hno x hxp] at hze
          exact absurd hze (by simp)
        · right
          rw [hsplit] at h1
          exact Above.drop_last w.heap pool1 z x k hxz h1

theorem mapAppend_entry (m : Nat → Option (List Ref)) (k0 : Nat) (d : Ref) (k : Nat)
    (l : List Ref) (x : Ref) (hl : mapAppend m k0 d k = some l) (hx : x ∈ l) :
    (∃ l0, m k = some l0 ∧ x ∈ l0) ∨ (x = d ∧ k = k0) := by
  by_cases hk : k = k0
  · subst hk
    simp only [mapAppend, if_true, Option.some.injEq] at hl
    subst hl
    rcases List.mem_append.1 hx with h1 | h1
    · exact Or.inl (mem_getD_nil h1)
    · exact Or.inr ⟨by simpa using h1, rfl⟩
  · simp only [mapAppend, hk, if_false] at hl
    exact Or.inl ⟨l, hl, hx⟩

/-- The inner matching loop binds slots to the scanned entity only, and lists
the depender only under the identifier of the scanned entity. -/
theorem bindSlots_entries (h : Heap) (d : Ref) (cand : Option Ref) (n : Nat) :
    ∀ (fs : List Filter) (slots : List (Option Ref)) (m : Nat → Option (List Ref)) (hv : Nat)
      (r : Scan), bindSlots h d cand n fs slots m hv = .ok r →
      (∀ t, some t ∈ r.Entities → some t ∈ slots ∨ cand = some t) ∧
      ∀ k l x, r.dependers k = some l → x ∈ l →
        (∃ l0, m k = some l0 ∧ x ∈ l0) ∨ (x = d ∧ ∃ c, cand = some c ∧ h.ID c = k) := by
  intro fs
  induction fs with
  | nil =>
    intro slots m hv r hr
    simp [bindSlots] at hr
    subst hr
    exact ⟨fun _ ht => Or.inl ht, fun k l x hl hx => Or.inl ⟨l, hl, hx⟩⟩
  | cons f fs ih =>
    intro slots m hv r hr
    cases slots with
    | nil =>
      simp [bindSlots] at hr
      subst hr
      exact ⟨fun _ ht => Or.inl ht, fun k l x hl hx => Or.inl ⟨l, hl, hx⟩⟩
    | cons a slots =>
      cases a with
      | some t =>
        simp only [bindSlots, Res.bind_eq_ok] at hr
        obtain ⟨r1, hr1, hr⟩ := hr
        simp at hr
        subst hr
        obtain ⟨hslots, hent⟩ := ih slots m hv r1 hr1
        refine ⟨?_, hent⟩
        intro t2 ht2
        rcases List.mem_cons.1 ht2 with heq | hmem
        · exact Or.inl (by rw [heq]; simp)
        · rcases hslots t2 hmem with h1 | h1
          · exact Or.inl (List.mem_cons_of_mem _ h1)
          · exact Or.inr h1
      | none =>
        cases cand with
        | none => simp [bindSlots] at hr
        | some c =>
          by_cases hs : f.Satisfies h c = true
          · by_cases he : hv + 1 = n
            · simp [bindSlots, hs, he] at hr
              subst hr
              refine ⟨?_, ?_⟩
              · intro t2 ht2
                rcases List.mem_cons.1 ht2 with heq | hmem
                · exact Or.inr heq.symm
                · exact Or.inl (List.mem_cons_of_mem _ hmem)
              · intro k l x hl hx
                rcases mapAppend_entry m _ d k l x hl hx with h1 | ⟨h1, h2⟩
                · exact Or.inl h1
                · exact Or.inr ⟨h1, c, rfl, h2.symm⟩
            · simp only [bindSlots, hs, he, if_true, if_false, Res.bind_eq_ok] at hr
              obtain ⟨r1, hr1, hr⟩ := hr
              simp at hr
              subst hr
              obtain ⟨hslots, hent⟩ := ih slots _ _ r1 hr1
              refine ⟨?_, ?_⟩
              · intro t2 ht2
                rcases List.mem_cons.1 ht2 with heq | hmem
                · exact Or.inr heq.symm
                · rcases hslots t2 hmem with h1 | h1
                  · exact Or.inl (List.mem_cons_of_mem _ h1)
                  · exact Or.inr h1
              · intro k l x hl hx
                rcases hent k l x hl hx with ⟨l0, hl0, hx0⟩ | h1
                · rcases mapAppend_entry m _ d k l0 x hl0 hx0 with h2 | ⟨h2, h3⟩
                  · exact Or.inl h2
                  · exact Or.inr ⟨h2, c, rfl, h3.symm⟩
                · exact Or.inr h1
          · have hs2 : f.Satisfies h c = false := by simpa using hs
            simp only [bindSlots, hs2, Bool.false_eq_true, if_false, Res.bind_eq_ok] at hr
            obtain ⟨r1, hr1, hr⟩ := hr
            simp at hr
            subst hr
            obtain ⟨hslots, hent⟩ := ih slots m hv r1 hr1
            refine ⟨?_, hent⟩
            intro t2 ht2
            rcases List.mem_cons.1 ht2 with heq | hmem
            · simp at heq
            · rcases hslots t2 hmem with h1 | h1
              · exact Or.inl (List.mem_cons_of_mem _ h1)
              · exact Or.inr h1

theorem scanPool_entries (h : Heap) (d : Ref) (pool : List Ref) (fs : List Filter) :
    ∀ (es : List Nat) (s r : Scan), scanPool h d pool fs es s = .ok r →
      (∀ t, some t ∈ r.Entities → some t ∈ s.Entities ∨ t ∈ pool) ∧
      ∀ k l x, r.dependers k = some l → x ∈ l →
        (∃ l0, s.dependers k = some l0 ∧ x ∈ l0) ∨ (x = d ∧ ∃ c ∈ pool, h.ID c = k) := by
  intro es
  induction es with
  | nil =>
    intro s r hr
    simp [scanPool] at hr
    subst hr
    exact ⟨fun _ ht => Or.inl ht, fun k l x hl hx => Or.inl ⟨l, hl, hx⟩⟩
  | cons i es ih =>
    intro s r hr
    simp only [scanPool, Res.bind_eq_ok] at hr
    obtain ⟨r1, hr1, hr⟩ := hr
    obtain ⟨hslots1, hent1⟩ := bindSlots_entries h d _ _ fs _ _ _ r1 hr1
    have hcand : ∀ c, pool[i]? = some c → c ∈ pool :=
      fun c hc => List.mem_iff_getElem?.2 ⟨i, hc⟩
    have hslots1b : ∀ t, some t ∈ r1.Entities → some t ∈ s.Entities ∨ t ∈ pool := by
      intro t ht
      rcases hslots1 t ht with h1 | h1
      · exact Or.inl h1
      · exact Or.inr (hcand t h1)
    have hent1b : ∀ k l x, r1.dependers k = some l → x ∈ l →
        (∃ l0, s.dependers k = some l0 ∧ x ∈ l0) ∨ (x = d ∧ ∃ c ∈ pool, h.ID c = k) := by
      intro k l x hl hx
      rcases hent1 k l x hl hx with h1 | ⟨h1, c, hc, hid⟩
      · exact Or.inl h1
      · exact Or.inr ⟨h1, c, hcand c hc, hid⟩
    by_cases hret : r1.returned = true
    · simp [hret] at hr
      subst hr
      exact ⟨hslots1b, hent1b⟩
    · simp [hret] at hr
      obtain ⟨hslots2, hent2⟩ := ih r1 r hr
      refine ⟨?_, ?_⟩
      · intro t ht
        rcases hslots2 t ht with h1 | h1
        · exact hslots1b t h1
        · exact Or.inr h1
      · intro k l x hl hx
        rcases hent2 k l x hl hx with ⟨l0, hl0, hx0⟩ | h1
        · exact hent1b k l0 x hl0 hx0
        · exact Or.inr h1

theorem Above.top (h : Heap) (pool : List Ref) (e c : Ref) (hc : c ∈ pool ++ [e]) :
    Above h (pool ++ [e]) e (h.ID c) := by
  obtain ⟨j, hj⟩ := List.mem_iff_getElem?.1 hc
  have hjlt : j < (pool ++ [e]).length := by
    by_contra hcon
    rw [List.getElem?_eq_none (by omega)] at hj
    exact absurd hj (by simp)
  exact ⟨pool.length, j, c, by simp at hjlt; omega, List.getElem?_concat_length _ _, hj, rfl⟩

/-- The invariant is kept by the engine's `Add`, whatever it returns, for an
entity that has an identifier. -/
theorem DependsSystem.Add_poolInv {U : Type} (w w1 : World U) (e : Ref) (err : Option Err)
    (hinv : PoolInv w) (hid : w.heap.ID e ≠ 0)
    (hadd : DependsSystem.Add e w = .ok (w1, err)) : PoolInv w1 := by
  obtain ⟨hZ, hI1, hI2, hI3⟩ := hinv
  have hZ1 : ∀ x ∈ w.ds.entities ++ [e], w.heap.ID x ≠ 0 := by
    intro x hx
    rcases List.mem_append.1 hx with h1 | h1
    · exact hZ x h1
    · simp at h1; rw [h1]; exact hid
  have hold3 : ∀ k l0 x, w.ds.dependers k = some l0 → x ∈ l0 →
      x ∉ w.ds.entities ++ [e] ∨ Above w.heap (w.ds.entities ++ [e]) x k := by
    intro k l0 x hl0 hx0
    rcases hI3 k l0 x hl0 hx0 with h1 | h1
    · by_cases hxe : x = e
      · right
        obtain ⟨t, ht, hidt⟩ := hI1 k l0 x hl0 hx0
        rw [hxe, ← hidt]
        exact Above.top w.heap _ e t (List.mem_append_left _ ht)
      · left
        intro hc
        rcases List.mem_append.1 hc with h2 | h2
        · exact h1 h2
        · simp at h2; exact hxe h2
    · exact Or.inr (Above.mono _ _ _ _ _ h1)
  cases hdep : w.depends e with
  | none =>
    simp only [DependsSystem.Add, hdep] at hadd
    cases hadd
    refine ⟨hZ1, ?_, ?_, hold3⟩
    · intro k l x hl hx
      obtain ⟨t, ht, hidt⟩ := hI1 k l x hl hx
      exact ⟨t, List.mem_append_left _ ht, hidt⟩
    · intro y hy t ht
      have hslots : some t ∈ slotsOf w y := ht
      rcases List.mem_append.1 hy with h1 | h1
      · exact Above.mono _ _ _ _ _ (hI2 y h1 t hslots)
      · simp at h1
        subst h1
        simp [slotsOf, hdep] at hslots
  | some dep =>
    rw [DependsSystem.Add_depender w e dep hdep, Res.bind_eq_ok] at hadd
    obtain ⟨r, hr, hadd⟩ := hadd
    simp only [Res.ok.injEq, Prod.mk.injEq] at hadd
    obtain ⟨hw, _⟩ := hadd
    subst hw
    obtain ⟨hslots, hent⟩ := scanPool_entries _ _ _ _ _ _ r hr
    refine ⟨hZ1, ?_, ?_, ?_⟩
    · intro k l x hl hx
      rcases hent k l x hl hx with ⟨l0, hl0, hx0⟩ | ⟨_, c, hc, hidc⟩
      · obtain ⟨t, ht, hidt⟩ := hI1 k l0 x hl0 hx0
        exact ⟨t, List.mem_append_left _ ht, hidt⟩
      · exact ⟨c, hc, hidc⟩
    · intro y hy t ht
      by_cases hye : y = e
      · subst hye
        have ht2 : some t ∈ r.Entities := by
          simpa [slotsOf, addedWorld] using ht
        rcases hslots t ht2 with h1 | h1
        · simp at h1
        · exact Above.top w.heap _ y t h1
      · have ht2 : some t ∈ slotsOf w y := by
          simpa [slotsOf, addedWorld, hye] using ht
        have hy2 : y ∈ w.ds.entities := by
          rcases List.mem_append.1 hy with h1 | h1
          · exact h1
          · simp at h1; exact absurd h1 hye
        exact Above.mono _ _ _ _ _ (hI2 y hy2 t ht2)
    · intro k l x hl hx
      rcases hent k l x hl hx with ⟨l0, hl0, hx0⟩ | ⟨hxe, c, hc, hidc⟩
      · exact hold3 k l0 x hl0 hx0
      · right
        rw [hxe, ← hidc]
        exact Above.top w.heap _ e c hc

theorem PoolInv.of_assignID {U : Type} (w : World U) (e : Ref) (hinv : PoolInv w) :
    PoolInv (State.assignID e w) := by
  unfold State.assignID
  by_cases hz : w.heap.ID e = 0
  · simp only [hz, if_true]
    obtain ⟨hZ, hI1, hI2, hI3⟩ := hinv
    have hne : ∀ x ∈ w.ds.entities, x ≠ e := by
      intro x hx hxe
      rw [hxe] at hx
      exact hZ e hx hz
    have hid : ∀ x ∈ w.ds.entities,
        (if x = e then (NewID w).1 else w.heap.ID x) = w.heap.ID x := by
      intro x hx
      simp [hne x hx]
    have habove : ∀ x k, Above w.heap w.ds.entities x k →
        Above { w.heap with ID := fun x => if x = e then (NewID w).1 else w.heap.ID x }
          w.ds.entities x k := by
      intro x k ⟨i, j, t, hji, hi, hj, ht⟩
      exact ⟨i, j, t, hji, hi, hj, by
        show (if t = e then (NewID w).1 else w.heap.ID t) = k
        rw [hid t (List.mem_iff_getElem?.2 ⟨j, hj⟩)]
        exact ht⟩
    refine ⟨?_, ?_, ?_, ?_⟩
    · intro x hx
      have hx2 : x ∈ w.ds.entities := hx
      show (if x = e then (NewID w).1 else w.heap.ID x) ≠ 0
      rw [hid x hx2]
      exact hZ x hx2
    · intro k l x hl hx
      obtain ⟨t, ht, hidt⟩ := hI1 k l x hl hx
      exact ⟨t, ht, by
        show (if t = e then (NewID w).1 else w.heap.ID t) = k
        rw [hid t ht]
        exact hidt⟩
    · intro y hy t ht
      have ha := hI2 y hy t ht
      by_cases hte : t = e
      · exfalso
        obtain ⟨i, j, t2, _, _, hj, hidt2⟩ := ha
        rw [hte, hz] at hidt2
        exact hZ t2 (List.mem_iff_getElem?.2 ⟨j, hj⟩) hidt2
      · have := habove y _ ha
        show Above _ _ y (if t = e then (NewID w).1 else w.heap.ID t)
        rw [if_neg hte]
        exact this
    · intro k l x hl hx
      rcases hI3 k l x hl hx with h1 | h1
      · exact Or.inl h1
      · exact Or.inr (habove x k h1)
  · simp only [hz, if_false]
    exact hinv

/-- What a returning `State.Add` did on the registry that holds the engine
only: the engine's `Add`, followed by the engine's `Remove` when that returned
an error. -/
theorem State.Add_engine_cases {U : Type} (p : Int) (fuel : Nat) (e : Ref) (w w1 : World U)
    (err : Option Err) (tr : List Call)
    (h : State.Add [DependsSystem.toSystem p] fuel e w = .ok (w1, err, tr)) :
    ∃ wa erra, DependsSystem.Add e (State.assignID e w) = .ok (wa, erra) ∧
      (w1 = wa ∨ DependsSystem.Remove
        (fun x v => State.Remove [DependsSystem.toSystem p] fuel x v) e wa = .ok w1) := by
  rw [State.Add_eq_addLoop] at h
  simp only [State.addLoop, Res.bind_eq_ok] at h
  obtain ⟨r, hr, h⟩ := h
  have hr2 : DependsSystem.Add e (State.assignID e w) = .ok r := hr
  obtain ⟨wa, erra⟩ := r
  refine ⟨wa, erra, hr2, ?_⟩
  cases erra with
  | none =>
    simp at h
    exact Or.inl h.1.symm
  | some x =>
    right
    simp only [Res.bind_eq_ok] at h
    obtain ⟨q, hq, h⟩ := h
    simp only [State.rollback, List.getElem?_cons_zero, Res.bind_eq_ok] at hq
    obtain ⟨w2, hw2, hq⟩ := hq
    simp at h hq
    rw [← h.1, ← hq]
    exact hw2

/-- Every reached state satisfies the invariant and has distinct identifiers. -/
theorem Reached.poolInv {U : Type} (p : Int) (w : World U) (hw : Reached p w) :
    PoolInv w ∧ DistinctIDs w := by
  induction hw with
  | fresh w hpool hmap hd =>
    refine ⟨⟨?_, ?_, ?_, ?_⟩, hd⟩
    · intro x hx
      rw [hpool] at hx
      simp at hx
    · intro k l x hl
      rw [hmap k] at hl
      simp at hl
    · intro y hy
      rw [hpool] at hy
      simp at hy
    · intro k l x hl
      rw [hmap k] at hl
      simp at hl
  | add w w1 e fuel err tr _ hadd hid hd ih =>
    refine ⟨?_, hd⟩
    obtain ⟨wa, erra, hwa, hcase⟩ := State.Add_engine_cases p fuel e w w1 err tr hadd
    have hheap : wa.heap = (State.assignID e w).heap := (DependsSystem.Add_keeps e _ _ hwa).1
    have hheap1 : w1.heap = wa.heap := by
      rcases hcase with h1 | h1
      · rw [h1]
      · exact (DependsSystem.Remove_frame _
          (fun y u u1 hu => State.Remove_sameFrame p fuel y u u1 hu) e wa w1 h1).1
    have hida : (State.assignID e w).heap.ID e ≠ 0 := by
      rw [← hheap, ← hheap1]
      exact hid
    have hinva : PoolInv wa :=
      DependsSystem.Add_poolInv _ wa e erra (PoolInv.of_assignID w e ih.1) hida hwa
    rcases hcase with h1 | h1
    · rw [h1]
      exact hinva
    · have hda : DistinctIDs wa := by
        intro a b hab ha
        rw [← hheap1] at hab ha
        exact hd a b hab ha
      exact DependsSystem.Remove_poolInv p fuel e wa w1 hinva hda h1
  | remove w w1 e fuel _ hrem ih =>
    cases fuel with
    | zero => simp [State.Remove] at hrem
    | succ g =>
      have hf := State.Remove_sameFrame p (g + 1) e w w1 hrem
      rw [State.Remove_engine] at hrem
      exact ⟨DependsSystem.Remove_poolInv p g e w w1 ih.1 ih.2 hrem,
        DistinctIDs.of_frame hf ih.2⟩

theorem demoHeap_distinct (w : World Unit) (h : w.heap.ID = fun r => r + 10) :
    DistinctIDs w := by
  intro a b hab _
  have ha : w.heap.ID a = a + 10 := congrFun h a
  have hb : w.heap.ID b = b + 10 := congrFun h b
  rw [ha, hb] at hab
  exact Nat.add_right_cancel hab

theorem worldXstale_reached : Reached 0 worldXstale :=
  Reached.remove worldXY worldXstale entY 2
    (Reached.add worldX worldXY entY 1 none [Call.Add 0 none]
      (Reached.add demoWorld worldX entX 1 none [Call.Add 0 none]
        (Reached.fresh demoWorld rfl (fun _ => rfl) (demoHeap_distinct _ rfl))
        rfl (by decide) (demoHeap_distinct _ rfl))
      rfl (by decide) (demoHeap_distinct _ rfl))
    rfl

theorem issuedXstale_reached : Reached 0 issuedXstale := by
  have h0 : DistinctIDs unassignedWorld := by
    intro a b _ ha
    exact absurd rfl ha
  have h1 : DistinctIDs (afterAdd entX unassignedWorld) := by
    intro a b hab ha
    have e1 : ∀ x, (afterAdd entX unassignedWorld).heap.ID x = if x = 0 then 2 else 0 :=
      fun _ => rfl
    rw [e1 a] at ha
    rw [e1 a, e1 b] at hab
    by_cases h2 : a = 0
    · by_cases h3 : b = 0
      · rw [h2, h3]
      · simp [h2, h3] at hab
    · simp [h2] at ha
  have h2 : DistinctIDs (afterAdd entY (afterAdd entX unassignedWorld)) := by
    intro a b hab ha
    have e1 : ∀ x, (afterAdd entY (afterAdd entX unassignedWorld)).heap.ID x =
        if x = 1 then 3 else if x = 0 then 2 else 0 := fun _ => rfl
    rw [e1 a] at ha
    rw [e1 a, e1 b] at hab
    by_cases ha1 : a = 1
    · by_cases hb1 : b = 1
      · rw [ha1, hb1]
      · by_cases hb2 : b = 0
        · simp [ha1, hb2] at hab
        · simp [ha1, hb1, hb2] at hab
    · by_cases ha2 : a = 0
      · by_cases hb1 : b = 1
        · simp [ha2, hb1] at hab
        · by_cases hb2 : b = 0
          · rw [ha2, hb2]
          · simp [ha2, hb1, hb2] at hab
      · simp [ha1, ha2] at ha
  exact Reached.remove (afterAdd entY (afterAdd entX unassignedWorld)) issuedXstale entY 2
    (Reached.add (afterAdd entX unassignedWorld) (afterAdd entY (afterAdd entX unassignedWorld))
      entY 1 none [Call.Add 0 none]
      (Reached.add unassignedWorld (afterAdd entX unassignedWorld) entX 1 none [Call.Add 0 none]
        (Reached.fresh unassignedWorld rfl (fun _ => rfl) h0)
        rfl (by decide) h1)
      rfl (by decide) h2)
    rfl

/-- C13: in every engine state reached from an empty engine by calls of
`State.Add` and `State.Remove` that returned, in a program whose entities carry
distinct identifiers, a `DependsSystem.Remove(e)` that returns leaves a state
on which a second `DependsSystem.Remove(e)` returns and changes nothing, neither
the pool nor the reverse index; as results, running the removal twice is
running it once; and the same holds of `State.Remove(e)`. -/
theorem DependsSystem_Remove_idempotent {U : Type} (p : Int) (w : World U) (hw : Reached p w)
    (e : Ref) (fuel : Nat) :
    (∀ w1, DependsSystem.Remove
        (fun x v => State.Remove [DependsSystem.toSystem p] fuel x v) e w = .ok w1 →
      ∃ w2, DependsSystem.Remove
          (fun x v => State.Remove [DependsSystem.toSystem p] fuel x v) e w1 = .ok w2 ∧
        w2.ds.entities = w1.ds.entities ∧ w2.ds.dependers = w1.ds.dependers ∧ w2 = w1) ∧
    (DependsSystem.Remove (fun x v => State.Remove [DependsSystem.toSystem p] fuel x v) e w).bind
        (DependsSystem.Remove (fun x v => State.Remove [DependsSystem.toSystem p] fuel x v) e) =
      DependsSystem.Remove (fun x v => State.Remove [DependsSystem.toSystem p] fuel x v) e w ∧
    ∀ w1, State.Remove [DependsSystem.toSystem p] fuel e w = .ok w1 →
      State.Remove [DependsSystem.toSystem p] fuel e w1 = .ok w1 := by
  obtain ⟨hinv, hd⟩ := Reached.poolInv p w hw
  refine ⟨?_, ?_, ?_⟩
  · intro w1 h1
    exact ⟨w1, DependsSystem.Remove_again p fuel e w w1 hinv hd h1, rfl, rfl, rfl⟩
  · cases h1 : DependsSystem.Remove
        (fun x v => State.Remove [DependsSystem.toSystem p] fuel x v) e w with
    | ok w1 =>
      have h2 := DependsSystem.Remove_again p fuel e w w1 hinv hd h1
      show DependsSystem.Remove _ e w1 = _
      exact h2
    | fault => rfl
    | outOfFuel => rfl
  · intro w1 h1
    cases fuel with
    | zero => simp [State.Remove] at h1
    | succ g =>
      rw [State.Remove_engine] at h1 ⊢
      exact DependsSystem.Remove_again p g e w w1 hinv hd h1

/-- C13 at two reached states in which the removal cascades: `entX` admitted,
`entY` bound to it, `entY` removed, which leaves `entY` listed under the
identifier of `entX`.  `Remove(entX)` empties the pool, calls `State.Remove` on
`entY` and deletes the key; a second `Remove(entX)` returns the same state.
The identifiers are those the caller gave in the first state and those
`State.Add` drew from the counter in the second. -/
theorem DependsSystem_Remove_idempotent_witness :
    (worldXstale.ds.entities = [entX] ∧
      worldXstale.ds.dependers (worldXstale.heap.ID entX) = some [entY] ∧
      ∃ w1, DependsSystem.Remove
          (fun x v => State.Remove [DependsSystem.toSystem 0] 1 x v) entX worldXstale = .ok w1 ∧
        w1.ds.entities = [] ∧ w1.ds.dependers (w1.heap.ID entX) = none ∧
        ∃ w2, DependsSystem.Remove
            (fun x v => State.Remove [DependsSystem.toSystem 0] 1 x v) entX w1 = .ok w2 ∧
          w2.ds.entities = w1.ds.entities ∧ w2.ds.dependers = w1.ds.dependers ∧ w2 = w1) ∧
    (issuedXstale.ds.entities = [entX] ∧ issuedXstale.heap.ID entX = 2 ∧
      issuedXstale.ds.dependers 2 = some [entY] ∧
      ∃ w1, DependsSystem.Remove
          (fun x v => State.Remove [DependsSystem.toSystem 0] 1 x v) entX issuedXstale = .ok w1 ∧
        w1.ds.entities = [] ∧
        ∃ w2, DependsSystem.Remove
            (fun x v => State.Remove [DependsSystem.toSystem 0] 1 x v) entX w1 = .ok w2 ∧
          w2.ds.entities = w1.ds.entities ∧ w2.ds.dependers = w1.ds.dependers ∧ w2 = w1) :=
  ⟨⟨rfl, rfl, _, rfl, rfl, rfl,
      (DependsSystem_Remove_idempotent 0 worldXstale worldXstale_reached entX 1).1 _ rfl⟩,
    ⟨rfl, rfl, rfl, _, rfl, rfl,
      (DependsSystem_Remove_idempotent 0 issuedXstale issuedXstale_reached entX 1).1 _ rfl⟩⟩

end ECS
